import Mathlib

/-!
# pmemfile: the lock-free read iterator and the virtual file-descriptor table

A shallow embedding of

* `src/libpmemfile-posix/lock_free_iterator.c` and `lock_free_iterator.h`
  (the iterator cache `lfit_setup` and the read fast path `try_read_fastpath`);
* `src/libpmemfile/vfd_table.c` (the table of virtual file descriptors).

Conventions of the embedding.

* A `size_t` or `uint64_t` value is a `Nat`; where the C arithmetic can wrap,
  the wrap-around modulo `2 ^ 64` is written out (`size_sub`, `size_add`).
* A pointer to a block descriptor is the position of the block in the vinode's
  block list (`none` is `NULL`); `block->next` of the block at position `i` is
  position `i + 1`, and `NULL` after the last block.
* Persistent memory is a function from addresses to bytes and a caller's
  buffer is a function from byte indices to bytes.
* `try_read_fastpath` reads the vinode counters at two instants (before and
  after the staging copy); the embedding takes the vinode as seen at each of the
  two instants, and a sequential caller passes the same vinode twice.
-/

namespace Pmemfile

/-! ## Part I: `lock_free_iterator` -/

/-- Number of values of a `size_t` / `uint64_t`. -/
def SIZE_MOD : Nat := 2 ^ 64

/-- Largest value of `pmemfile_ssize_t`.  A read count is the size of the
caller's buffer, so well-formed calls have `count ≤ SSIZE_MAX`. -/
def SSIZE_MAX : Nat := 2 ^ 63 - 1

/-- `READ_FAST_PATH_TRESHOLD` of `lock_free_iterator.h`. -/
def READ_FAST_PATH_TRESHOLD : Nat := 256

/-- Modelled from the spec: the `BLOCK_INITIALIZED` flag bit of the block layer
(its header is not among the sources); a block is initialized when the bit is
set in `flags`. -/
def BLOCK_INITIALIZED : Nat := 1

/-- Subtraction of two `size_t` values, as C computes it. -/
def size_sub (a b : Nat) : Nat := (a + SIZE_MOD - b % SIZE_MOD) % SIZE_MOD

/-- Addition of two `size_t` values, as C computes it. -/
def size_add (a b : Nat) : Nat := (a + b) % SIZE_MOD

/-- The cast `(pmemfile_ssize_t) count` of a `size_t`. -/
def ssize_cast (count : Nat) : Int :=
  if count % SIZE_MOD ≤ SSIZE_MAX then ((count % SIZE_MOD : Nat) : Int)
  else ((count % SIZE_MOD : Nat) : Int) - (SIZE_MOD : Int)

/-- The fields of `struct pmemfile_block_desc` the iterator reads.  `data` is
the address `PF_RO(pfp, block->data)` of the block's first byte; the `next`
pointer is the position in the vinode's list. -/
structure pmemfile_block_desc where
  data : Nat
  size : Nat
  flags : Nat
  offset : Nat
deriving DecidableEq, Repr

/-- The fields of `struct pmemfile_vinode` the iterator reads: the list that
starts at `first_block` and the two write counters. -/
structure pmemfile_vinode where
  blocks : List pmemfile_block_desc
  pre_write_counter : Nat
  post_write_counter : Nat
deriving DecidableEq, Repr

/-- The record `struct lock_free_iterator`; `address = none` is `NULL`. -/
structure lock_free_iterator where
  block_pointer_cache : Option Nat
  last_pre_write_counter : Nat
  last_post_write_counter : Nat
  address : Option Nat
  length : Nat
deriving DecidableEq, Repr

/-- Dereference of a block pointer in the vinode's list. -/
def block_at (vinode : pmemfile_vinode) (block : Option Nat) : Option pmemfile_block_desc :=
  match block with
  | none => none
  | some i => vinode.blocks[i]?

/-- The test `(block->flags & BLOCK_INITIALIZED) == 0`. -/
def block_uninitialized (b : pmemfile_block_desc) : Bool :=
  Nat.land b.flags BLOCK_INITIALIZED == 0

/-- `is_offset_in_block`: the block pointer is not null and the offset lies in
the range the block describes (the sum is a `uint64_t` sum). -/
def is_offset_in_block (offset : Nat) (block : Option pmemfile_block_desc) : Bool :=
  match block with
  | none => false
  | some b => decide (b.offset ≤ offset) && decide (offset < size_add b.offset b.size)

/-- The `while` loop of `find_first_initialized_block_after`, run on the blocks
from position `i` on: it stops at the first block whose flag is set. -/
def skip_uninitialized : List pmemfile_block_desc → Nat → Option Nat
  | [], _ => none
  | b :: rest, i => if block_uninitialized b then skip_uninitialized rest (i + 1) else some i

/-- `find_first_initialized_block_after`. -/
def find_first_initialized_block_after (vinode : pmemfile_vinode) (block : Option Nat) :
    Option Nat :=
  match block with
  | none => skip_uninitialized vinode.blocks 0
  | some i => skip_uninitialized (vinode.blocks.drop i) i

/-- `lfit_setup_range`. -/
def lfit_setup_range (lfit : lock_free_iterator) (vinode : pmemfile_vinode)
    (block : Option Nat) (offset file_size : Nat) : lock_free_iterator :=
  let zero_range : lock_free_iterator :=
    match block_at vinode (find_first_initialized_block_after vinode block) with
    | some nb =>
      if nb.offset < file_size then
        { lfit with address := none, length := size_sub nb.offset offset }
      else
        { lfit with address := none, length := size_sub file_size offset }
    | none => { lfit with address := none, length := size_sub file_size offset }
  match block_at vinode block with
  | none => zero_range
  | some b =>
    if !is_offset_in_block offset (some b) || block_uninitialized b then zero_range
    else
      let offset_in_block := size_sub offset b.offset
      { lfit with address := some (b.data + offset_in_block),
                  length := size_sub b.size offset_in_block }

/-- `lfit_invalidate`. -/
def lfit_invalidate (lfit : lock_free_iterator) : lock_free_iterator :=
  { lfit with length := 0 }

/-- `is_lfit_initialized`; the argument is the pointer, `none` for `NULL`. -/
def is_lfit_initialized (lfit : Option lock_free_iterator) : Bool :=
  match lfit with
  | none => false
  | some it => decide (it.length > 0)

/-- `lfit_reads_as_zero`. -/
def lfit_reads_as_zero (lfit : lock_free_iterator) : Bool :=
  lfit.address.isNone

/-- `lfit_setup`; the iterator argument is the pointer, `none` for `NULL`. -/
def lfit_setup (lfit : Option lock_free_iterator) (vinode : pmemfile_vinode)
    (block : Option Nat) (offset file_size : Nat) : Option lock_free_iterator :=
  match lfit with
  | none => none
  | some it =>
    if offset ≥ file_size then some (lfit_invalidate it)
    else
      let it1 := { it with last_pre_write_counter := vinode.pre_write_counter,
                           last_post_write_counter := vinode.post_write_counter }
      let it2 := { it1 with block_pointer_cache := block }
      some (lfit_setup_range it2 vinode block offset file_size)

/-- `is_modification_indicated`. -/
def is_modification_indicated (it : lock_free_iterator) (vinode : pmemfile_vinode) : Bool :=
  decide (it.last_pre_write_counter ≠ vinode.pre_write_counter) ||
    decide (it.last_post_write_counter ≠ vinode.post_write_counter)

/-- `memset(buffer, 0, count)`. -/
def memset_zero (buffer : Nat → Nat) (count : Nat) : Nat → Nat :=
  fun i => if i < count then 0 else buffer i

/-- `memcpy(dst, src, count)` where `src` is given as the bytes it holds. -/
def memcpy (dst src : Nat → Nat) (count : Nat) : Nat → Nat :=
  fun i => if i < count then src i else dst i

/-- What a call of `try_read_fastpath` leaves behind: the value returned, the
iterator and the caller's buffer. -/
structure read_outcome where
  ret : Int
  it : Option lock_free_iterator
  buffer : Nat → Nat

/-- `try_read_fastpath`.  `vinode` is the vinode as read by the checks before
the staging copy, `vinode_recheck` as read by the check after it, and `pmem` the
persistent memory as read by the staging copy.  The subtraction
`it->length -= count` runs only when `count ≤ it->length`, so it cannot wrap. -/
def try_read_fastpath (it : Option lock_free_iterator)
    (vinode vinode_recheck : pmemfile_vinode) (pmem : Nat → Nat)
    (buffer : Nat → Nat) (count : Nat) : read_outcome :=
  if count = 0 then ⟨0, it, buffer⟩
  else if !is_lfit_initialized it then ⟨-1, it, buffer⟩
  else
    match it with
    | none => ⟨-1, it, buffer⟩
    | some i =>
      if is_modification_indicated i vinode then ⟨-1, it, buffer⟩
      else if count > i.length then ⟨-1, it, buffer⟩
      else
        match i.address with
        | none =>
          ⟨ssize_cast count, some { i with length := i.length - count },
            memset_zero buffer count⟩
        | some a =>
          if count ≤ READ_FAST_PATH_TRESHOLD then
            let local_copy : Nat → Nat := memcpy (fun _ => 0) (fun j => pmem (a + j)) count
            if is_modification_indicated i vinode_recheck then ⟨-1, it, buffer⟩
            else
              ⟨ssize_cast count,
                some { i with address := some (a + count), length := i.length - count },
                memcpy buffer local_copy count⟩
          else ⟨-1, it, buffer⟩

/-- The invariant of the block layer: the blocks of a vinode are sorted by
offset and do not overlap. -/
def blocks_sorted (vinode : pmemfile_vinode) : Prop :=
  vinode.blocks.Pairwise (fun a b => a.offset + a.size ≤ b.offset)

instance (vinode : pmemfile_vinode) : Decidable (blocks_sorted vinode) := by
  unfold blocks_sorted; infer_instance

/-- The file range `[b.offset, b.offset + b.size)` of a block holds `pos`. -/
def block_holds (pos : Nat) (b : pmemfile_block_desc) : Bool :=
  decide (b.offset ≤ pos) && decide (pos < b.offset + b.size)

/-- Modelled from the spec: the byte of the file content at position `pos`
(the block layer's read routine is not among the sources): the byte of the
initialized block that holds `pos`, and zero in a block that is not initialized
or in a hole. -/
def file_byte (vinode : pmemfile_vinode) (pmem : Nat → Nat) (pos : Nat) : Nat :=
  match vinode.blocks.find? (block_holds pos) with
  | none => 0
  | some b => if block_uninitialized b then 0 else pmem (b.data + (pos - b.offset))

/-- Modelled from the spec: the bytes a lock-protected read of `count` bytes at
`offset` delivers (the slow path is not among the sources): the file content
from `offset` on, cut at the end of the file. -/
def locked_read (vinode : pmemfile_vinode) (pmem : Nat → Nat) (file_size offset count : Nat) :
    List Nat :=
  (List.range (min count (file_size - offset))).map (fun j => file_byte vinode pmem (offset + j))

/-- The bytes a read that returned `ret` delivered into `buffer`. -/
def delivered (buffer : Nat → Nat) (ret : Int) : List Nat :=
  (List.range ret.toNat).map buffer

/-- One request of a sequence of reads: the destination buffer and the count. -/
structure read_request where
  buffer : Nat → Nat
  count : Nat

/-- Consecutive calls of `try_read_fastpath` on one iterator against a vinode
and a memory that do not change: each call starts from the iterator the
previous call left. -/
def read_run (vinode : pmemfile_vinode) (pmem : Nat → Nat) :
    Option lock_free_iterator → List read_request → List read_outcome
  | _, [] => []
  | it, r :: rest =>
    (try_read_fastpath it vinode vinode pmem r.buffer r.count) ::
      read_run vinode pmem (try_read_fastpath it vinode vinode pmem r.buffer r.count).it rest

/-! ## Part II: `vfd_table`

The state of `vfd_table.c` is passed explicitly.  A pointer to a
`struct vfile_description` is the index of the record in the static `store` of
`setup_free_slots`.  The kernel is the set of open file descriptors; the value a
system call returns is an argument of the operation that makes the call.  Every
call of `syscall_no_intercept` and of `pmemfile_close` is recorded in `events`.
An operation that fails an `assert`, indexes `vfd_table` outside its bounds or
dereferences `NULL` ends with a `fault`.  The reference count is a C `int`; a
reference is held only for the duration of one intercepted call, so the count
stays far below `2 ^ 31` and is not reduced modulo `2 ^ 32`. -/

/-- `ARRAY_SIZE(vfd_table)`. -/
def VFD_TABLE_SIZE : Nat := 0x8000

/-- `ARRAY_SIZE(free_vfile_slots)`. -/
def FREE_SLOTS_SIZE : Nat := 2 * VFD_TABLE_SIZE

/-- `ARRAY_SIZE(store)` in `setup_free_slots`. -/
def STORE_SIZE : Nat := FREE_SLOTS_SIZE - 1

/-- The value of `AT_FDCWD` on Linux. -/
def AT_FDCWD : Int := -100

/-- The value of `ENFILE` on Linux. -/
def ENFILE : Int := 23

/-- The record `struct vfile_description`; `pool` and `file` are pointers,
`none` for `NULL`. -/
structure vfile_description where
  pool : Option Nat
  file : Option Nat
  kernel_cwd_fd : Int
  is_special_cwd_desc : Bool
  ref_count : Int
deriving DecidableEq, Repr

/-- The record `struct vfd_reference` (declared in `vfd_table.h`), with the
fields `vfd_table.c` sets; a field a compound literal leaves out is zero. -/
structure vfd_reference where
  pool : Option Nat
  file : Option Nat
  kernel_fd : Int
  internal : Option Nat
deriving DecidableEq, Repr

/-- How an operation ends when it does not return. -/
inductive fault where
  | assertion_failed
  | out_of_bounds
  | null_dereference
  | exit_with_msg
deriving DecidableEq, Repr

/-- A call that leaves `vfd_table.c`: a forwarded system call with its
arguments and result, or `pmemfile_close`. -/
inductive event where
  | sys_memfd_create (ret : Int)
  | sys_open (ret : Int)
  | sys_close (fd : Int)
  | sys_dup (fd ret : Int)
  | sys_dup2 (old_fd new_fd ret : Int)
  | sys_fchdir (fd ret : Int)
  | pmemfile_close (pool file : Option Nat)
deriving DecidableEq, Repr

/-- The static variables of `vfd_table.c`, the kernel's set of open file
descriptors and the record of the calls made. -/
structure vfd_state where
  store : Nat → vfile_description
  cwd_entry : Option Nat
  vfd_table : Nat → Option Nat
  free_vfile_slots : Nat → Option Nat
  insert_index : Nat
  fetch_index : Nat
  is_memfd_syscall_available : Bool
  kernel_fds : Int → Bool
  events : List event

/-- The state at program start: static storage is zero, `kernel_fds` is the set
of descriptors the process starts with. -/
def vfd_state_zero (kernel_fds : Int → Bool) : vfd_state :=
  { store := fun _ => ⟨none, none, 0, false, 0⟩
    cwd_entry := none
    vfd_table := fun _ => none
    free_vfile_slots := fun _ => none
    insert_index := 0
    fetch_index := 0
    is_memfd_syscall_available := false
    kernel_fds := kernel_fds
    events := [] }

/-- `syscall_no_intercept(SYS_close, fd)`: the descriptor is no longer open. -/
def syscall_close (s : vfd_state) (fd : Int) : vfd_state :=
  { s with kernel_fds := Function.update s.kernel_fds fd false,
           events := s.events ++ [event.sys_close fd] }

/-- The effect of a system call that returned the new descriptor `ret` (or a
negative error): a descriptor returned is open afterwards. -/
def syscall_returns_fd (s : vfd_state) (e : event) (ret : Int) : vfd_state :=
  { s with kernel_fds := if ret ≥ 0 then Function.update s.kernel_fds ret true else s.kernel_fds,
           events := s.events ++ [e] }

/-- `syscall_no_intercept(SYS_fchdir, fd)` returning `ret`. -/
def syscall_fchdir (s : vfd_state) (fd ret : Int) : vfd_state :=
  { s with events := s.events ++ [event.sys_fchdir fd ret] }

/-- `vf_ref_count_inc`. -/
def vf_ref_count_inc (s : vfd_state) (entry : Nat) : vfd_state :=
  let e := s.store entry
  { s with store := Function.update s.store entry { e with ref_count := e.ref_count + 1 } }

/-- `vf_ref_count_dec_and_fetch`: the state and the value fetched. -/
def vf_ref_count_dec_and_fetch (s : vfd_state) (entry : Nat) : vfd_state × Int :=
  let e := s.store entry
  ({ s with store := Function.update s.store entry { e with ref_count := e.ref_count - 1 } },
    e.ref_count - 1)

/-- `mark_as_free_file_slot`. -/
def mark_as_free_file_slot (s : vfd_state) (entry : Nat) : Except fault vfd_state :=
  if (s.store entry).ref_count ≠ 0 then Except.error fault.assertion_failed
  else
    Except.ok { s with
      free_vfile_slots := Function.update s.free_vfile_slots s.insert_index (some entry),
      insert_index := (s.insert_index + 1) % FREE_SLOTS_SIZE }

/-- `fetch_free_file_slot`: the state and the pointer returned. -/
def fetch_free_file_slot (s : vfd_state) : vfd_state × Option Nat :=
  ({ s with fetch_index := (s.fetch_index + 1) % FREE_SLOTS_SIZE },
    s.free_vfile_slots s.fetch_index)

/-- The `for` loop of `setup_free_slots`, from index `i` for `n` rounds. -/
def setup_free_slots_loop : Nat → Nat → vfd_state → Except fault vfd_state
  | 0, _, s => Except.ok s
  | n + 1, i, s =>
    match mark_as_free_file_slot s i with
    | Except.error f => Except.error f
    | Except.ok s1 => setup_free_slots_loop n (i + 1) s1

/-- `setup_free_slots`. -/
def setup_free_slots (s : vfd_state) : Except fault vfd_state :=
  setup_free_slots_loop STORE_SIZE 0 s

/-- `pmemfile_ref_vfd_under_mutex`. -/
def pmemfile_ref_vfd_under_mutex (s : vfd_state) (vfd : Int) : vfd_state × vfd_reference :=
  match s.vfd_table vfd.toNat with
  | none => (s, { pool := none, file := none, kernel_fd := vfd, internal := none })
  | some entry =>
    (vf_ref_count_inc s entry,
      { pool := (s.store entry).pool, file := (s.store entry).file, kernel_fd := 0,
        internal := some entry })

/-- `is_in_vfd_table_range`. -/
def is_in_vfd_table_range (number : Int) : Bool :=
  decide (number ≥ 0) && decide (number < (VFD_TABLE_SIZE : Int))

/-- `can_be_in_vfd_table`. -/
def can_be_in_vfd_table (s : vfd_state) (vfd : Int) : Bool :=
  if !is_in_vfd_table_range vfd then false
  else (s.vfd_table vfd.toNat).isSome

/-- `pmemfile_vfd_ref`. -/
def pmemfile_vfd_ref (s : vfd_state) (vfd : Int) : vfd_state × vfd_reference :=
  if !can_be_in_vfd_table s vfd then
    (s, { pool := none, file := none, kernel_fd := vfd, internal := none })
  else pmemfile_ref_vfd_under_mutex s vfd

/-- `get_fdcwd_reference`. -/
def get_fdcwd_reference (s : vfd_state) : Except fault (vfd_state × vfd_reference) :=
  match s.cwd_entry with
  | none => Except.error fault.null_dereference
  | some entry =>
    Except.ok (vf_ref_count_inc s entry,
      { internal := some entry, kernel_fd := (s.store entry).kernel_cwd_fd,
        pool := (s.store entry).pool, file := (s.store entry).file })

/-- `pmemfile_vfd_at_ref`. -/
def pmemfile_vfd_at_ref (s : vfd_state) (vfd : Int) : Except fault (vfd_state × vfd_reference) :=
  if vfd = AT_FDCWD then get_fdcwd_reference s
  else Except.ok (pmemfile_vfd_ref s vfd)

/-- `unref_entry`; `entry->pool->pool` dereferences the pool pointer. -/
def unref_entry (s : vfd_state) (entry : Option Nat) : Except fault vfd_state :=
  match entry with
  | none => Except.ok s
  | some e =>
    let s1 := (vf_ref_count_dec_and_fetch s e).1
    if (vf_ref_count_dec_and_fetch s e).2 = 0 then
      if (s1.store e).is_special_cwd_desc then
        mark_as_free_file_slot (syscall_close s1 (s1.store e).kernel_cwd_fd) e
      else
        match (s1.store e).pool with
        | none => Except.error fault.null_dereference
        | some pool =>
          mark_as_free_file_slot
            { s1 with events := s1.events ++ [event.pmemfile_close (some pool) (s1.store e).file] }
            e
    else Except.ok s1

/-- `pmemfile_vfd_unref`. -/
def pmemfile_vfd_unref (s : vfd_state) (ref : vfd_reference) : Except fault vfd_state :=
  unref_entry s ref.internal

/-- `pmemfile_vfd_dup`; `kret` is what the kernel's `dup` returns. -/
def pmemfile_vfd_dup (s : vfd_state) (vfd kret : Int) : Except fault (vfd_state × Int) :=
  let s1 := syscall_returns_fd s (event.sys_dup vfd kret) kret
  if can_be_in_vfd_table s vfd then
    match s1.vfd_table vfd.toNat with
    | some entry =>
      if kret ≥ 0 then
        if !is_in_vfd_table_range kret then Except.error fault.out_of_bounds
        else if (s1.vfd_table kret.toNat).isSome then Except.error fault.assertion_failed
        else
          let s2 := vf_ref_count_inc s1 entry
          Except.ok ({ s2 with vfd_table := Function.update s2.vfd_table kret.toNat (some entry) },
            kret)
      else Except.ok (s1, kret)
    | none => Except.ok (s1, kret)
  else Except.ok (s1, kret)

/-- `pmemfile_vfd_dup2`; `kret` is what the kernel's `dup2` returns. -/
def pmemfile_vfd_dup2 (s : vfd_state) (old_vfd new_vfd kret : Int) :
    Except fault (vfd_state × Int) :=
  let s1 := syscall_returns_fd s (event.sys_dup2 old_vfd new_vfd kret) kret
  if can_be_in_vfd_table s old_vfd then
    match s1.vfd_table old_vfd.toNat with
    | some entry =>
      if kret ≥ 0 then
        if kret ≠ new_vfd then Except.error fault.assertion_failed
        else if !is_in_vfd_table_range new_vfd then Except.error fault.out_of_bounds
        else if (s1.vfd_table new_vfd.toNat).isSome then Except.error fault.assertion_failed
        else
          let s2 := vf_ref_count_inc s1 entry
          Except.ok ({ s2 with
            vfd_table := Function.update s2.vfd_table new_vfd.toNat (some entry) }, kret)
      else Except.ok (s1, kret)
    | none => Except.ok (s1, kret)
  else Except.ok (s1, kret)

/-- `pmemfile_vfd_close`; `kret` is what the kernel's `close` returns. -/
def pmemfile_vfd_close (s : vfd_state) (vfd kret : Int) : Except fault (vfd_state × Int) :=
  let entry : Option Nat := if can_be_in_vfd_table s vfd then s.vfd_table vfd.toNat else none
  let s1 : vfd_state :=
    if can_be_in_vfd_table s vfd then
      { s with vfd_table := Function.update s.vfd_table vfd.toNat none }
    else s
  let s2 := syscall_close s1 vfd
  match entry with
  | some e =>
    match unref_entry s2 (some e) with
    | Except.error f => Except.error f
    | Except.ok s3 => Except.ok (s3, 0)
  | none => Except.ok (s2, kret)

/-- The assignment `*entry = (struct vfile_description) {...}` through the
pointer `fetch_free_file_slot` returned. -/
def store_entry (s : vfd_state) (entry : Option Nat) (value : vfile_description) :
    Except fault (vfd_state × Nat) :=
  match entry with
  | none => Except.error fault.null_dereference
  | some e => Except.ok ({ s with store := Function.update s.store e value }, e)

/-- `setup_cwd`; `fd` is what the kernel's `open(".")` returns. -/
def setup_cwd (s : vfd_state) (fd : Int) : Except fault vfd_state :=
  let s1 := syscall_returns_fd s (event.sys_open fd) fd
  if fd < 0 then Except.error fault.exit_with_msg
  else
    match store_entry (fetch_free_file_slot s1).1 (fetch_free_file_slot s1).2
        ⟨none, none, fd, true, 1⟩ with
    | Except.error f => Except.error f
    | Except.ok (s2, e) => Except.ok { s2 with cwd_entry := some e }

/-- `chdir_exchange_entry`. -/
def chdir_exchange_entry (s : vfd_state) (new_cwd_entry : Nat) : Except fault vfd_state :=
  unref_entry { s with cwd_entry := some new_cwd_entry } s.cwd_entry

/-- `pmemfile_vfd_chdir_pf`. -/
def pmemfile_vfd_chdir_pf (s : vfd_state) (pool file : Option Nat) :
    Except fault (vfd_state × Int) :=
  match store_entry (fetch_free_file_slot s).1 (fetch_free_file_slot s).2
      ⟨pool, file, -1, false, 1⟩ with
  | Except.error f => Except.error f
  | Except.ok (s1, e) =>
    match chdir_exchange_entry s1 e with
    | Except.error f => Except.error f
    | Except.ok s2 => Except.ok (s2, 0)

/-- `pmemfile_vfd_chdir_kernel_fd`; `kret` is what the kernel's `fchdir`
returns. -/
def pmemfile_vfd_chdir_kernel_fd (s : vfd_state) (fd kret : Int) :
    Except fault (vfd_state × Int) :=
  let s0 := syscall_fchdir s fd kret
  if kret < 0 then Except.ok (s0, kret)
  else
    match store_entry (fetch_free_file_slot s0).1 (fetch_free_file_slot s0).2
        ⟨none, none, fd, true, 1⟩ with
    | Except.error f => Except.error f
    | Except.ok (s1, e) =>
      match chdir_exchange_entry s1 e with
      | Except.error f => Except.error f
      | Except.ok s2 => Except.ok (s2, kret)

/-- `check_memfd_syscall` (with `SYS_memfd_create` defined); `fd` is what the
kernel's `memfd_create` returns. -/
def check_memfd_syscall (s : vfd_state) (fd : Int) : vfd_state :=
  let s1 := syscall_returns_fd s (event.sys_memfd_create fd) fd
  if fd ≥ 0 then syscall_close { s1 with is_memfd_syscall_available := true } fd
  else s1

/-- `acquire_new_fd`; `memfd_ret` and `open_ret` are what the kernel's
`memfd_create` and `open("/dev/null")` return when they are called. -/
def acquire_new_fd (s : vfd_state) (memfd_ret open_ret : Int) : vfd_state × Int :=
  let r : vfd_state × Int :=
    if s.is_memfd_syscall_available then
      let s1 := syscall_returns_fd s (event.sys_memfd_create memfd_ret) memfd_ret
      if memfd_ret < 0 then (syscall_returns_fd s1 (event.sys_open open_ret) open_ret, open_ret)
      else (s1, memfd_ret)
    else (syscall_returns_fd s (event.sys_open open_ret) open_ret, open_ret)
  if r.2 ≥ (VFD_TABLE_SIZE : Int) then (syscall_close r.1 r.2, -ENFILE)
  else r

/-- `pmemfile_vfd_assign`. -/
def pmemfile_vfd_assign (s : vfd_state) (pool file : Option Nat) (memfd_ret open_ret : Int) :
    Except fault (vfd_state × Int) :=
  let s1 := (acquire_new_fd s memfd_ret open_ret).1
  let new_vfd := (acquire_new_fd s memfd_ret open_ret).2
  if new_vfd < 0 then Except.ok (s1, new_vfd)
  else
    match store_entry (fetch_free_file_slot s1).1 (fetch_free_file_slot s1).2
        ⟨pool, file, -1, false, 1⟩ with
    | Except.error f => Except.error f
    | Except.ok (s2, e) =>
      Except.ok ({ s2 with vfd_table := Function.update s2.vfd_table new_vfd.toNat (some e) },
        new_vfd)

/-- `pmemfile_vfd_fchdir`; `dup_ret` and `fchdir_ret` are what the kernel's
`dup` and `fchdir` return when they are called. -/
def pmemfile_vfd_fchdir (s : vfd_state) (vfd dup_ret fchdir_ret : Int) :
    Except fault (vfd_state × Int) :=
  let cell : Option Nat := if is_in_vfd_table_range vfd then s.vfd_table vfd.toNat else none
  match cell with
  | some entry =>
    let s1 := vf_ref_count_inc s entry
    match unref_entry { s1 with cwd_entry := some entry } s1.cwd_entry with
    | Except.error f => Except.error f
    | Except.ok s2 => Except.ok (s2, 0)
  | none =>
    let s1 := syscall_returns_fd s (event.sys_dup vfd dup_ret) dup_ret
    let s2 := if dup_ret ≥ 0 then syscall_fchdir s1 dup_ret fchdir_ret else s1
    let result := if dup_ret ≥ 0 then fchdir_ret else dup_ret
    if result = 0 then
      match store_entry (fetch_free_file_slot s2).1 (fetch_free_file_slot s2).2
          ⟨none, none, dup_ret, true, 1⟩ with
      | Except.error f => Except.error f
      | Except.ok (s3, e) =>
        match unref_entry { s3 with cwd_entry := some e } s3.cwd_entry with
        | Except.error f => Except.error f
        | Except.ok s4 => Except.ok (s4, result)
    else Except.ok (s2, result)

/-- `pmemfile_vfd_table_init`; `memfd_ret` and `open_ret` are what the kernel's
`memfd_create("check")` and `open(".")` return. -/
def pmemfile_vfd_table_init (kernel_fds : Int → Bool) (memfd_ret open_ret : Int) :
    Except fault vfd_state :=
  match setup_free_slots (check_memfd_syscall (vfd_state_zero kernel_fds) memfd_ret) with
  | Except.error f => Except.error f
  | Except.ok s => setup_cwd s open_ret

/-! ### The sequential model of the table

Each public operation is one step.  The references that `pmemfile_vfd_ref` and
`pmemfile_vfd_at_ref` returned and that were not yet given to
`pmemfile_vfd_unref` are kept beside the state. -/

/-- A call of a public operation, with the values the kernel returns to it;
`unref k` releases the `k`-th outstanding reference. -/
inductive vfd_op where
  | ref (vfd : Int)
  | at_ref (vfd : Int)
  | unref (k : Nat)
  | dup (vfd kret : Int)
  | dup2 (old_vfd new_vfd kret : Int)
  | close (vfd kret : Int)
  | assign (pool file : Option Nat) (memfd_ret open_ret : Int)
  | chdir_pf (pool file : Option Nat)
  | chdir_kernel_fd (fd kret : Int)
  | fchdir (vfd dup_ret fchdir_ret : Int)
deriving DecidableEq, Repr

/-- The state of the table together with the outstanding references. -/
structure vfd_system where
  table : vfd_state
  refs : List vfd_reference

/-- One step of the sequential model. -/
def vfd_step (sys : vfd_system) : vfd_op → Except fault vfd_system
  | vfd_op.ref vfd =>
    Except.ok ⟨(pmemfile_vfd_ref sys.table vfd).1, (pmemfile_vfd_ref sys.table vfd).2 :: sys.refs⟩
  | vfd_op.at_ref vfd =>
    match pmemfile_vfd_at_ref sys.table vfd with
    | Except.error f => Except.error f
    | Except.ok r => Except.ok ⟨r.1, r.2 :: sys.refs⟩
  | vfd_op.unref k =>
    match sys.refs[k]? with
    | none => Except.ok sys
    | some r =>
      match pmemfile_vfd_unref sys.table r with
      | Except.error f => Except.error f
      | Except.ok t => Except.ok ⟨t, sys.refs.eraseIdx k⟩
  | vfd_op.dup vfd kret =>
    match pmemfile_vfd_dup sys.table vfd kret with
    | Except.error f => Except.error f
    | Except.ok r => Except.ok ⟨r.1, sys.refs⟩
  | vfd_op.dup2 old_vfd new_vfd kret =>
    match pmemfile_vfd_dup2 sys.table old_vfd new_vfd kret with
    | Except.error f => Except.error f
    | Except.ok r => Except.ok ⟨r.1, sys.refs⟩
  | vfd_op.close vfd kret =>
    match pmemfile_vfd_close sys.table vfd kret with
    | Except.error f => Except.error f
    | Except.ok r => Except.ok ⟨r.1, sys.refs⟩
  | vfd_op.assign pool file memfd_ret open_ret =>
    match pmemfile_vfd_assign sys.table pool file memfd_ret open_ret with
    | Except.error f => Except.error f
    | Except.ok r => Except.ok ⟨r.1, sys.refs⟩
  | vfd_op.chdir_pf pool file =>
    match pmemfile_vfd_chdir_pf sys.table pool file with
    | Except.error f => Except.error f
    | Except.ok r => Except.ok ⟨r.1, sys.refs⟩
  | vfd_op.chdir_kernel_fd fd kret =>
    match pmemfile_vfd_chdir_kernel_fd sys.table fd kret with
    | Except.error f => Except.error f
    | Except.ok r => Except.ok ⟨r.1, sys.refs⟩
  | vfd_op.fchdir vfd dup_ret fchdir_ret =>
    match pmemfile_vfd_fchdir sys.table vfd dup_ret fchdir_ret with
    | Except.error f => Except.error f
    | Except.ok r => Except.ok ⟨r.1, sys.refs⟩

/-- The values the kernel returns in a step agree with its set of open
descriptors: a descriptor it hands out was not open, `dup` and `dup2` succeed
only on an open descriptor, `dup2` returns its second argument, and `close` and
`fchdir` return `0` or an error and succeed only on an open descriptor. -/
def kernel_allows (s : vfd_state) : vfd_op → Bool
  | vfd_op.ref _ => true
  | vfd_op.at_ref _ => true
  | vfd_op.unref _ => true
  | vfd_op.dup vfd kret => decide (kret < 0) || (s.kernel_fds vfd && !s.kernel_fds kret)
  | vfd_op.dup2 old_vfd new_vfd kret =>
    decide (kret < 0) || (decide (kret = new_vfd) && s.kernel_fds old_vfd)
  | vfd_op.close vfd kret => decide (kret < 0) || (decide (kret = 0) && s.kernel_fds vfd)
  | vfd_op.assign _ _ memfd_ret open_ret =>
    (decide (memfd_ret < 0) || !s.kernel_fds memfd_ret) &&
      (decide (open_ret < 0) || !s.kernel_fds open_ret)
  | vfd_op.chdir_pf _ _ => true
  | vfd_op.chdir_kernel_fd fd kret => decide (kret < 0) || (decide (kret = 0) && s.kernel_fds fd)
  | vfd_op.fchdir vfd dup_ret fchdir_ret =>
    (decide (dup_ret < 0) || (s.kernel_fds vfd && !s.kernel_fds dup_ret)) &&
      decide (fchdir_ret ≤ 0)

/-- A run of the sequential model: the operations one after the other, each
with kernel results the kernel's state allows; `none` when a result is not
allowed. -/
def vfd_run : vfd_system → List vfd_op → Option (Except fault vfd_system)
  | sys, [] => some (Except.ok sys)
  | sys, op :: rest =>
    if kernel_allows sys.table op then
      match vfd_step sys op with
      | Except.error f => some (Except.error f)
      | Except.ok sys1 => vfd_run sys1 rest
    else none

/-- The states the sequential model reaches from `pmemfile_vfd_table_init`. -/
def vfd_reachable (sys : vfd_system) : Prop :=
  ∃ (kernel_fds : Int → Bool) (memfd_ret open_ret : Int) (t : vfd_state) (ops : List vfd_op),
    (memfd_ret < 0 ∨ kernel_fds memfd_ret = false) ∧ kernel_fds open_ret = false ∧
    pmemfile_vfd_table_init kernel_fds memfd_ret open_ret = Except.ok t ∧
    vfd_run ⟨t, []⟩ ops = some (Except.ok sys)

/-- Number of entries waiting in the free ring. -/
def free_ring_count (s : vfd_state) : Nat :=
  (s.insert_index + FREE_SLOTS_SIZE - s.fetch_index) % FREE_SLOTS_SIZE

/-- The entry is in the free ring: one of the positions from `fetch_index` up to
`insert_index` holds it. -/
def in_free_ring (s : vfd_state) (entry : Nat) : Prop :=
  ∃ k, k < free_ring_count s ∧
    s.free_vfile_slots ((s.fetch_index + k) % FREE_SLOTS_SIZE) = some entry

/-- Number of cells of `vfd_table` that point at the entry. -/
def cells_pointing_at (s : vfd_state) (entry : Nat) : Nat :=
  (List.range VFD_TABLE_SIZE).countP (fun i => decide (s.vfd_table i = some entry))

/-- Number of pointers to the entry: the cells of `vfd_table`, `cwd_entry` and
the outstanding references. -/
def pointers_to (sys : vfd_system) (entry : Nat) : Nat :=
  cells_pointing_at sys.table entry +
    (if sys.table.cwd_entry = some entry then 1 else 0) +
    sys.refs.countP (fun r => decide (r.internal = some entry))

/-- The reference-count invariant: every entry that is not in the free ring
has a `ref_count` equal to the number of pointers to it. -/
def ref_count_invariant (sys : vfd_system) : Prop :=
  ∀ entry, entry < STORE_SIZE → ¬ in_free_ring sys.table entry →
    (sys.table.store entry).ref_count = (pointers_to sys entry : Int)

/-- The descriptors a process starts with: 0, 1 and 2. -/
def standard_fds : Int → Bool := fun fd => decide (0 ≤ fd ∧ fd ≤ 2)

/-- A run in which `pmemfile_vfd_assign` stores into an occupied cell.  After
`pmemfile_vfd_table_init` the working directory is anchored at descriptor 3.
The operations: a file is assigned (the kernel hands out descriptor 4);
`dup2(4, 3)` makes cell 3 name the same entry; `pmemfile_vfd_chdir_pf` replaces
the working directory, which closes descriptor 3 in the kernel; a second file is
assigned and the kernel hands out descriptor 3 again. -/
def assign_overwrite_ops : List vfd_op :=
  [vfd_op.assign (some 1) (some 10) 4 (-1), vfd_op.dup2 4 3 3,
    vfd_op.chdir_pf (some 1) (some 11), vfd_op.assign (some 1) (some 12) 3 (-1)]

/-- A state in which cell 4 names entry 1, an open file with one reference. -/
def one_file_state : vfd_state :=
  { store := Function.update (fun _ => ⟨none, none, 0, false, 0⟩) 1 ⟨some 1, some 10, -1, false, 1⟩
    cwd_entry := none
    vfd_table := Function.update (fun _ => none) 4 (some 1)
    free_vfile_slots := fun _ => none
    insert_index := 0
    fetch_index := 0
    is_memfd_syscall_available := false
    kernel_fds := fun fd => decide (0 ≤ fd ∧ fd ≤ 4)
    events := [] }

/-- The operations one after the other, whatever the kernel returns. -/
def vfd_steps : vfd_system → List vfd_op → Except fault vfd_system
  | sys, [] => Except.ok sys
  | sys, op :: rest =>
    match vfd_step sys op with
    | Except.error f => Except.error f
    | Except.ok sys1 => vfd_steps sys1 rest

/-- Number of calls of `pmemfile_close` on the file so far. -/
def pmemfile_close_count (s : vfd_state) (pool file : Option Nat) : Nat :=
  s.events.count (event.pmemfile_close pool file)

/-- Number of outstanding references whose internal pointer is the entry. -/
def refs_to (refs : List vfd_reference) (entry : Nat) : Nat :=
  refs.countP (fun r => decide (r.internal = some entry))

/-- The descriptor a `close` operation closes. -/
def closed_fd : vfd_op → Option Int
  | vfd_op.close vfd _ => some vfd
  | _ => none

/-- Number of outstanding references after the operations, from `n` outstanding
references: `ref` and `at_ref` take one, `unref k` releases one when there is a
`k`-th outstanding reference. -/
def outstanding_after : Nat → List vfd_op → Nat
  | n, [] => n
  | n, vfd_op.ref _ :: rest => outstanding_after (n + 1) rest
  | n, vfd_op.at_ref _ :: rest => outstanding_after (n + 1) rest
  | n, vfd_op.unref k :: rest => outstanding_after (if k < n then n - 1 else n) rest
  | n, _ :: rest => outstanding_after n rest

/-- The descriptors that name the entry after the `dup` calls `(old, new)`,
starting from the descriptors `fds`. -/
def dup_fds : List Int → List (Int × Int) → List Int
  | fds, [] => fds
  | fds, d :: rest => dup_fds (d.2 :: fds) rest

/-- Each `dup` call `(old, new)` duplicates a descriptor that names the entry,
and the kernel returns a descriptor inside the table whose cell is empty. -/
def dups_valid (table : Nat → Option Nat) : List Int → List (Int × Int) → Prop
  | _, [] => True
  | fds, d :: rest =>
    d.1 ∈ fds ∧ is_in_vfd_table_range d.2 = true ∧ d.2 ∉ fds ∧ table d.2.toNat = none ∧
      dups_valid table (d.2 :: fds) rest

/-- The operations of the closing phase: `ref` and `close` of descriptors that
name the entry, and `unref` of an outstanding reference. -/
def close_phase_op (fds : List Int) : vfd_op → Prop
  | vfd_op.ref vfd => vfd ∈ fds
  | vfd_op.unref _ => True
  | vfd_op.close vfd _ => vfd ∈ fds
  | _ => False

/-- The state of the entry `E` of the open file `(P, F)` while the descriptors
`fds` that name it are closed: `live` are the descriptors not yet closed,
`closed` the descriptors closed so far, `c0` the number of calls of
`pmemfile_close` on the file before and `ins0` the insert position of the free
ring before. -/
structure entry_inv (E P : Nat) (F : Option Nat) (fds : List Int) (c0 ins0 : Nat)
    (sys : vfd_system) (live closed : List Int) : Prop where
  store_eq : sys.table.store E =
    ⟨some P, F, -1, false, ((live.length + refs_to sys.refs E : Nat) : Int)⟩
  refs_internal : ∀ r ∈ sys.refs, r.internal = none ∨ r.internal = some E
  live_nodup : live.Nodup
  live_iff : ∀ v, v ∈ live ↔ v ∈ fds ∧ v ∉ closed
  in_range : ∀ v ∈ fds, is_in_vfd_table_range v = true
  cell_live : ∀ v ∈ live, sys.table.vfd_table v.toNat = some E
  cell_closed : ∀ v ∈ fds, v ∉ live → sys.table.vfd_table v.toNat = none
  alive : live.length + refs_to sys.refs E ≠ 0 →
    pmemfile_close_count sys.table (some P) F = c0 ∧ sys.table.insert_index = ins0
  dead : live.length + refs_to sys.refs E = 0 →
    pmemfile_close_count sys.table (some P) F = c0 + 1 ∧
    sys.table.insert_index = (ins0 + 1) % FREE_SLOTS_SIZE ∧
    sys.table.free_vfile_slots ins0 = some E

/-- The state `pmemfile_vfd_table_init` builds from the descriptors 0, 1 and 2
when `memfd_create` and `open(".")` both return descriptor 3. -/
def state_after_init : vfd_state :=
  { store := Function.update (fun _ => ⟨none, none, 0, false, 0⟩) 0 ⟨none, none, 3, true, 1⟩
    cwd_entry := some 0
    vfd_table := fun _ => none
    free_vfile_slots := fun k => if k < STORE_SIZE then some k else none
    insert_index := STORE_SIZE
    fetch_index := 1
    is_memfd_syscall_available := true
    kernel_fds := fun fd => decide (0 ≤ fd ∧ fd ≤ 3)
    events := [event.sys_memfd_create 3, event.sys_close 3, event.sys_open 3] }

/-- A closing phase for the descriptors 4 and 5 of one file: a reference is
taken through descriptor 4, both descriptors are closed, and the reference is
released last. -/
def two_descriptor_ops : List vfd_op :=
  [vfd_op.ref 4, vfd_op.close 4 0, vfd_op.close 5 0, vfd_op.unref 0]

/-- The descriptor the kernel hands to `acquire_new_fd`: what `memfd_create`
returned when it is available and did not fail, else what `open("/dev/null")`
returned. -/
def placeholder_fd (s : vfd_state) (memfd_ret open_ret : Int) : Int :=
  if s.is_memfd_syscall_available then
    if memfd_ret < 0 then open_ret else memfd_ret
  else open_ret

/-! ### Consistency of the table

The properties below hold in every state the sequential model reaches as long
as an operation that takes an entry from the free ring finds the ring
non-empty (the ring is sized for this, it does not check it) and the pool
handed to `pmemfile_vfd_assign` and `pmemfile_vfd_chdir_pf` is not `NULL`. -/

/-- The pool argument of the operation, when it has one, is not `NULL`. -/
def vfd_op_well_formed : vfd_op → Bool
  | vfd_op.assign pool _ _ _ => pool.isSome
  | vfd_op.chdir_pf pool _ => pool.isSome
  | _ => true

/-- The operation reaches a call of `fetch_free_file_slot` in this state. -/
def vfd_op_fetches (s : vfd_state) : vfd_op → Bool
  | vfd_op.assign _ _ memfd_ret open_ret => decide (0 ≤ (acquire_new_fd s memfd_ret open_ret).2)
  | vfd_op.chdir_pf _ _ => true
  | vfd_op.chdir_kernel_fd _ kret => decide (0 ≤ kret)
  | vfd_op.fchdir vfd dup_ret fchdir_ret =>
    ((if is_in_vfd_table_range vfd then s.vfd_table vfd.toNat else none).isNone) &&
      decide ((if dup_ret ≥ 0 then fchdir_ret else dup_ret) = 0)
  | _ => false

/-- The step is within the capacity of the free ring: its pool argument is not
`NULL`, and the free ring is non-empty when the step fetches from it. -/
def within_capacity (s : vfd_state) (op : vfd_op) : Bool :=
  vfd_op_well_formed op && (!vfd_op_fetches s op || decide (free_ring_count s ≠ 0))

/-- A run of the sequential model within the capacity of the free ring,
whatever the kernel returns; `none` when a step is not within capacity. -/
def vfd_run_within_capacity : vfd_system → List vfd_op → Option (Except fault vfd_system)
  | sys, [] => some (Except.ok sys)
  | sys, op :: rest =>
    if within_capacity sys.table op then
      match vfd_step sys op with
      | Except.error f => some (Except.error f)
      | Except.ok sys1 => vfd_run_within_capacity sys1 rest
    else none

/-- The states the sequential model reaches from `pmemfile_vfd_table_init`
within the capacity of the free ring. -/
def vfd_reachable_within_capacity (sys : vfd_system) : Prop :=
  ∃ (kernel_fds : Int → Bool) (memfd_ret open_ret : Int) (t : vfd_state) (ops : List vfd_op),
    pmemfile_vfd_table_init kernel_fds memfd_ret open_ret = Except.ok t ∧
    vfd_run_within_capacity ⟨t, []⟩ ops = some (Except.ok sys)

/-- Consistency of a state, with one reference of the entry `credit` counted
but not yet stored in a cell, in `cwd_entry` or in an outstanding reference (a
state between two steps of an operation): `cwd_entry` is set; the `ref_count`
of every entry is at least the number of pointers to it; the entries in cells
are entries of open files with a pool; the entry of the working directory is an
anchor or has a pool; the positions of the free ring from `fetch_index` up to
`insert_index` hold distinct entries of the array `store` whose `ref_count` is
0; what lies beyond the array is never touched. -/
structure table_consistent_with (credit : Option Nat) (sys : vfd_system) : Prop where
  cwd_some : ∃ c, sys.table.cwd_entry = some c
  counts : ∀ e, (pointers_to sys e : Int) + (if credit = some e then 1 else 0) ≤
    (sys.table.store e).ref_count
  cell_valid : ∀ i e, i < VFD_TABLE_SIZE → sys.table.vfd_table i = some e →
    (sys.table.store e).is_special_cwd_desc = false ∧ (sys.table.store e).pool ≠ none
  cwd_valid : ∀ c, sys.table.cwd_entry = some c →
    (sys.table.store c).is_special_cwd_desc = true ∨ (sys.table.store c).pool ≠ none
  fetch_lt : sys.table.fetch_index < FREE_SLOTS_SIZE
  insert_lt : sys.table.insert_index < FREE_SLOTS_SIZE
  ring_zero : ∀ k, k < free_ring_count sys.table →
    ∃ e, sys.table.free_vfile_slots ((sys.table.fetch_index + k) % FREE_SLOTS_SIZE) = some e ∧
      e < STORE_SIZE ∧ (sys.table.store e).ref_count = 0
  ring_nodup : ∀ k1 k2, k1 < free_ring_count sys.table → k2 < free_ring_count sys.table →
    sys.table.free_vfile_slots ((sys.table.fetch_index + k1) % FREE_SLOTS_SIZE) =
      sys.table.free_vfile_slots ((sys.table.fetch_index + k2) % FREE_SLOTS_SIZE) → k1 = k2
  outside_zero : ∀ e, STORE_SIZE ≤ e → (sys.table.store e).ref_count = 0

/-- Consistency of a state between two operations. -/
def table_consistent (sys : vfd_system) : Prop := table_consistent_with none sys

/-- The two systems agree on everything consistency looks at. -/
structure same_tables (sys sys' : vfd_system) : Prop where
  store : sys'.table.store = sys.table.store
  cwd_entry : sys'.table.cwd_entry = sys.table.cwd_entry
  vfd_table : sys'.table.vfd_table = sys.table.vfd_table
  free_vfile_slots : sys'.table.free_vfile_slots = sys.table.free_vfile_slots
  insert_index : sys'.table.insert_index = sys.table.insert_index
  fetch_index : sys'.table.fetch_index = sys.table.fetch_index
  refs : sys'.refs = sys.refs

/-- The state after `pmemfile_vfd_table_init` (as in `state_after_init`) and
`pmemfile_vfd_assign` of the file 10 of pool 1, for which `memfd_create` returns
descriptor 4: cell 4 names entry 1, the working directory is still anchored at
descriptor 3. -/
def state_after_assign : vfd_state :=
  { store := Function.update state_after_init.store 1 ⟨some 1, some 10, -1, false, 1⟩
    cwd_entry := some 0
    vfd_table := Function.update (fun _ => none) 4 (some 1)
    free_vfile_slots := state_after_init.free_vfile_slots
    insert_index := STORE_SIZE
    fetch_index := 2
    is_memfd_syscall_available := true
    kernel_fds := Function.update state_after_init.kernel_fds 4 true
    events := state_after_init.events ++ [event.sys_memfd_create 4] }

/-- A run that uses up the free ring: `n` times, a reference to the working
directory is taken with `pmemfile_vfd_at_ref(AT_FDCWD)` and kept, and the working
directory is changed with `pmemfile_vfd_chdir_pf` (directory 10 of pool 1).  Each
round fetches one entry, and the reference kept holds the previous entry of the
working directory in use. -/
def pin_cwd_ops : Nat → List vfd_op
  | 0 => []
  | n + 1 => vfd_op.at_ref AT_FDCWD :: vfd_op.chdir_pf (some 1) (some 10) :: pin_cwd_ops n

/-- The state after `n` rounds of `pin_cwd_ops` from `state_after_init`: `n + 1`
entries were fetched, none was published, and the working directory is the
entry `n` with one reference. -/
structure pinned_state (n : Nat) (sys : vfd_system) : Prop where
  fetch_index : sys.table.fetch_index = n + 1
  insert_index : sys.table.insert_index = STORE_SIZE
  free_vfile_slots : sys.table.free_vfile_slots = state_after_init.free_vfile_slots
  cwd_entry : sys.table.cwd_entry = some n
  ref_count : (sys.table.store n).ref_count = 1
  kernel_fds : sys.table.kernel_fds 0 = true

/-- The acceptance condition of a call of `try_read_fastpath` with a count `n`
above zero, in the words of the specification: the iterator is valid
(`length > 0`), both stored counters equal the counters of the vinode, `n` is at
most the length, and either the iterator reads as zero (`address` is `NULL`) or
`n` is at most 256 and the counters are still equal at the check after the
staging copy. -/
def fastpath_accepts (it : Option lock_free_iterator)
    (vinode vinode_recheck : pmemfile_vinode) (n : Nat) : Bool :=
  match it with
  | none => false
  | some i =>
    decide (i.length > 0) &&
    decide (i.last_pre_write_counter = vinode.pre_write_counter) &&
    decide (i.last_post_write_counter = vinode.post_write_counter) &&
    decide (n ≤ i.length) &&
    (i.address.isNone ||
      (decide (n ≤ 256) &&
        decide (i.last_pre_write_counter = vinode_recheck.pre_write_counter) &&
        decide (i.last_post_write_counter = vinode_recheck.post_write_counter)))

/-- One call of a sequence of calls of `try_read_fastpath`: the vinode as read
at the two checks, the memory as read by the staging copy, the destination
buffer and the count. -/
structure read_call where
  vinode : pmemfile_vinode
  vinode_recheck : pmemfile_vinode
  pmem : Nat → Nat
  buffer : Nat → Nat
  count : Nat

/-- Consecutive calls of `try_read_fastpath` on one iterator, each with its own
view of the vinode and of the memory: each call starts from the iterator the
previous call left. -/
def read_calls : Option lock_free_iterator → List read_call → List read_outcome
  | _, [] => []
  | it, c :: rest =>
    (try_read_fastpath it c.vinode c.vinode_recheck c.pmem c.buffer c.count) ::
      read_calls (try_read_fastpath it c.vinode c.vinode_recheck c.pmem c.buffer c.count).it rest

/-- Total of the byte counts the calls returned (a declined call returns `-1`
and adds nothing). -/
def accepted_bytes (outs : List read_outcome) : Nat :=
  (outs.map (fun o => o.ret.toNat)).sum

/-- The `length` field behind an iterator pointer; 0 for `NULL`. -/
def lfit_length (it : Option lock_free_iterator) : Nat :=
  match it with
  | none => 0
  | some i => i.length

/-! ### The table with the critical sections as steps

`pmemfile_vfd_close`, `chdir_exchange_entry` (called by `pmemfile_vfd_chdir_pf`
and `pmemfile_vfd_chdir_kernel_fd`) and `pmemfile_vfd_fchdir` change the table in
a critical section of `vfd_table_mutex` and call `unref_entry` on the pointer
they captured after they left it, so that other threads run in between.  Below,
each of them is cut at that point.  The new entry of a working directory is
fetched and initialised by the calling thread before the critical section that
stores it; no other thread sees it before, and the step that stores it takes
the fetch with it.  The pointer a thread has captured is kept with the
outstanding references, as a reference of which only `internal` is set, until
the thread calls `unref_entry` on it. -/

/-- The pointer captured in a critical section, as held by the thread. -/
def captured_reference (entry : Option Nat) : vfd_reference :=
  { pool := none, file := none, kernel_fd := 0, internal := entry }

/-- The first part of `pmemfile_vfd_close`, up to the call of `unref_entry`:
the critical section that captures the entry of the cell and empties the cell,
and the kernel's `close`.  Returns the state and the pointer captured. -/
def pmemfile_vfd_close_capture (s : vfd_state) (vfd : Int) : vfd_state × Option Nat :=
  let entry : Option Nat := if can_be_in_vfd_table s vfd then s.vfd_table vfd.toNat else none
  let s1 : vfd_state :=
    if can_be_in_vfd_table s vfd then
      { s with vfd_table := Function.update s.vfd_table vfd.toNat none }
    else s
  (syscall_close s1 vfd, entry)

/-- The critical section of `chdir_exchange_entry`: `cwd_entry` is replaced;
returns the state and `old_cwd_entry`. -/
def chdir_exchange_capture (s : vfd_state) (new_cwd_entry : Nat) : vfd_state × Option Nat :=
  ({ s with cwd_entry := some new_cwd_entry }, s.cwd_entry)

/-- The first part of `pmemfile_vfd_chdir_pf`, up to the call of `unref_entry`
in `chdir_exchange_entry`. -/
def pmemfile_vfd_chdir_pf_capture (s : vfd_state) (pool file : Option Nat) :
    Except fault (vfd_state × Option Nat) :=
  match store_entry (fetch_free_file_slot s).1 (fetch_free_file_slot s).2
      ⟨pool, file, -1, false, 1⟩ with
  | Except.error f => Except.error f
  | Except.ok (s1, e) => Except.ok (chdir_exchange_capture s1 e)

/-- The first part of `pmemfile_vfd_chdir_kernel_fd`, up to the call of
`unref_entry` in `chdir_exchange_entry`; when the kernel's `fchdir` fails there
is no such call and no pointer is captured. -/
def pmemfile_vfd_chdir_kernel_fd_capture (s : vfd_state) (fd kret : Int) :
    Except fault (vfd_state × Option Nat) :=
  let s0 := syscall_fchdir s fd kret
  if kret < 0 then Except.ok (s0, none)
  else
    match store_entry (fetch_free_file_slot s0).1 (fetch_free_file_slot s0).2
        ⟨none, none, fd, true, 1⟩ with
    | Except.error f => Except.error f
    | Except.ok (s1, e) => Except.ok (chdir_exchange_capture s1 e)

/-- The critical section of `pmemfile_vfd_fchdir`; returns the state and
`old_cwd_entry` (`NULL` when the working directory was not changed). -/
def pmemfile_vfd_fchdir_capture (s : vfd_state) (vfd dup_ret fchdir_ret : Int) :
    Except fault (vfd_state × Option Nat) :=
  let cell : Option Nat := if is_in_vfd_table_range vfd then s.vfd_table vfd.toNat else none
  match cell with
  | some entry =>
    let s1 := vf_ref_count_inc s entry
    Except.ok ({ s1 with cwd_entry := some entry }, s1.cwd_entry)
  | none =>
    let s1 := syscall_returns_fd s (event.sys_dup vfd dup_ret) dup_ret
    let s2 := if dup_ret ≥ 0 then syscall_fchdir s1 dup_ret fchdir_ret else s1
    let result := if dup_ret ≥ 0 then fchdir_ret else dup_ret
    if result = 0 then
      match store_entry (fetch_free_file_slot s2).1 (fetch_free_file_slot s2).2
          ⟨none, none, dup_ret, true, 1⟩ with
      | Except.error f => Except.error f
      | Except.ok (s3, e) => Except.ok ({ s3 with cwd_entry := some e }, s3.cwd_entry)
    else Except.ok (s2, none)

/-- A step of a thread: a public operation that changes the table in one
critical section, the first part of one that is cut (`close_capture`,
`chdir_pf_capture`, `chdir_kernel_fd_capture`, `fchdir_capture`), or the call of
`unref_entry` on the `k`-th pointer held (`unref_entry k`: the second part of a
cut operation, or `pmemfile_vfd_unref`). -/
inductive vfd_atomic_op where
  | ref (vfd : Int)
  | at_ref (vfd : Int)
  | unref_entry (k : Nat)
  | dup (vfd kret : Int)
  | dup2 (old_vfd new_vfd kret : Int)
  | assign (pool file : Option Nat) (memfd_ret open_ret : Int)
  | close_capture (vfd : Int)
  | chdir_pf_capture (pool file : Option Nat)
  | chdir_kernel_fd_capture (fd kret : Int)
  | fchdir_capture (vfd dup_ret fchdir_ret : Int)
deriving DecidableEq, Repr

/-- One step of the interleaving of the threads. -/
def vfd_atomic_step (sys : vfd_system) : vfd_atomic_op → Except fault vfd_system
  | vfd_atomic_op.ref vfd => vfd_step sys (vfd_op.ref vfd)
  | vfd_atomic_op.at_ref vfd => vfd_step sys (vfd_op.at_ref vfd)
  | vfd_atomic_op.unref_entry k => vfd_step sys (vfd_op.unref k)
  | vfd_atomic_op.dup vfd kret => vfd_step sys (vfd_op.dup vfd kret)
  | vfd_atomic_op.dup2 old_vfd new_vfd kret => vfd_step sys (vfd_op.dup2 old_vfd new_vfd kret)
  | vfd_atomic_op.assign pool file memfd_ret open_ret =>
    vfd_step sys (vfd_op.assign pool file memfd_ret open_ret)
  | vfd_atomic_op.close_capture vfd =>
    Except.ok ⟨(pmemfile_vfd_close_capture sys.table vfd).1,
      captured_reference (pmemfile_vfd_close_capture sys.table vfd).2 :: sys.refs⟩
  | vfd_atomic_op.chdir_pf_capture pool file =>
    match pmemfile_vfd_chdir_pf_capture sys.table pool file with
    | Except.error f => Except.error f
    | Except.ok r => Except.ok ⟨r.1, captured_reference r.2 :: sys.refs⟩
  | vfd_atomic_op.chdir_kernel_fd_capture fd kret =>
    match pmemfile_vfd_chdir_kernel_fd_capture sys.table fd kret with
    | Except.error f => Except.error f
    | Except.ok r => Except.ok ⟨r.1, captured_reference r.2 :: sys.refs⟩
  | vfd_atomic_op.fchdir_capture vfd dup_ret fchdir_ret =>
    match pmemfile_vfd_fchdir_capture sys.table vfd dup_ret fchdir_ret with
    | Except.error f => Except.error f
    | Except.ok r => Except.ok ⟨r.1, captured_reference r.2 :: sys.refs⟩

/-- The public operation a step belongs to, for the capacity of the free
ring. -/
def vfd_atomic_op_public : vfd_atomic_op → vfd_op
  | vfd_atomic_op.ref vfd => vfd_op.ref vfd
  | vfd_atomic_op.at_ref vfd => vfd_op.at_ref vfd
  | vfd_atomic_op.unref_entry k => vfd_op.unref k
  | vfd_atomic_op.dup vfd kret => vfd_op.dup vfd kret
  | vfd_atomic_op.dup2 old_vfd new_vfd kret => vfd_op.dup2 old_vfd new_vfd kret
  | vfd_atomic_op.assign pool file memfd_ret open_ret =>
    vfd_op.assign pool file memfd_ret open_ret
  | vfd_atomic_op.close_capture vfd => vfd_op.close vfd 0
  | vfd_atomic_op.chdir_pf_capture pool file => vfd_op.chdir_pf pool file
  | vfd_atomic_op.chdir_kernel_fd_capture fd kret => vfd_op.chdir_kernel_fd fd kret
  | vfd_atomic_op.fchdir_capture vfd dup_ret fchdir_ret => vfd_op.fchdir vfd dup_ret fchdir_ret

/-- An interleaving of the steps of the threads within the capacity of the free
ring, whatever the kernel returns; `none` when a step is not within capacity. -/
def vfd_atomic_run : vfd_system → List vfd_atomic_op → Option (Except fault vfd_system)
  | sys, [] => some (Except.ok sys)
  | sys, op :: rest =>
    if within_capacity sys.table (vfd_atomic_op_public op) then
      match vfd_atomic_step sys op with
      | Except.error f => some (Except.error f)
      | Except.ok sys1 => vfd_atomic_run sys1 rest
    else none

/-- The states an interleaving of the steps of the threads reaches from
`pmemfile_vfd_table_init` within the capacity of the free ring. -/
def vfd_atomic_reachable (sys : vfd_system) : Prop :=
  ∃ (kernel_fds : Int → Bool) (memfd_ret open_ret : Int) (t : vfd_state)
    (ops : List vfd_atomic_op),
    pmemfile_vfd_table_init kernel_fds memfd_ret open_ret = Except.ok t ∧
    vfd_atomic_run ⟨t, []⟩ ops = some (Except.ok sys)

/-- The state between the two steps of `pmemfile_vfd_chdir_pf` called right after
`pmemfile_vfd_table_init` (as in `state_after_init`): entry 1 is the working
directory, and the thread holds the pointer to the old anchor, entry 0, on which
it has not yet called `unref_entry`. -/
def state_between_chdir_steps : vfd_system :=
  { table :=
      { state_after_init with
        store := Function.update state_after_init.store 1 ⟨some 1, some 10, -1, false, 1⟩
        cwd_entry := some 1
        fetch_index := 2 }
    refs := [captured_reference (some 0)] }

/-! ### A writer beside the read fast path

The writer is not among the sources; what follows is its protocol as the
specification gives it.  Time is the sequence of steps of an interleaving of the
two threads: an access of one thread happens at one instant and sees the shared
state of that instant. -/

/-- Modelled from the spec: what the writer and the reader share, at one
instant: the two counters of the vinode and the persistent memory. -/
structure shared_state where
  pre_write_counter : Nat
  post_write_counter : Nat
  pmem : Nat → Nat

/-- Modelled from the spec: a history in which a writer that follows the writer
protocol overwrites the `n` bytes at address `a`, which hold the pattern `A`,
with the pattern `B`.  Before the instant `start` both counters are `c` and the
range holds `A`; at `start` the writer has incremented `pre_write_counter`;
between `start` and `finish` it stores, and a byte of the range may hold
anything; from `finish` on the range holds `B` and the writer has incremented
`post_write_counter`. -/
structure writer_protocol (history : Nat → shared_state) (c a n : Nat) (A B : Nat → Nat)
    (start finish : Nat) : Prop where
  pre_before : ∀ t, t < start → (history t).pre_write_counter = c
  pre_after : ∀ t, start ≤ t → (history t).pre_write_counter = size_add c 1
  post_before : ∀ t, t < finish → (history t).post_write_counter = c
  post_after : ∀ t, finish ≤ t → (history t).post_write_counter = size_add c 1
  pmem_before : ∀ t j, t < start → j < n → (history t).pmem (a + j) = A j
  pmem_after : ∀ t j, finish ≤ t → j < n → (history t).pmem (a + j) = B j

/-- A call of `try_read_fastpath` by a thread that does not hold the lock of the
vinode, beside the history: the first check reads `pre_write_counter` at the
instant `p1` and `post_write_counter` at `q1`, the staging copy reads the byte at
`address + j` at the instant `tb j`, and the check after the copy reads the
counters at `p2` and `q2`. -/
def concurrent_read (history : Nat → shared_state) (blocks : List pmemfile_block_desc)
    (it : lock_free_iterator) (p1 q1 p2 q2 : Nat) (tb : Nat → Nat)
    (buffer : Nat → Nat) (count : Nat) : read_outcome :=
  try_read_fastpath (some it)
    ⟨blocks, (history p1).pre_write_counter, (history q1).post_write_counter⟩
    ⟨blocks, (history p2).pre_write_counter, (history q2).post_write_counter⟩
    (fun addr => (history (tb (addr - it.address.getD 0))).pmem addr)
    buffer count

/-- A history of one write of 4 bytes at address 1000 (pattern 1 over pattern
0) with counters 7: the writer increments `pre_write_counter` at instant 10,
stores the bytes one after the other, and increments `post_write_counter` at
instant 20. -/
def one_write_history : Nat → shared_state := fun t =>
  { pre_write_counter := if t < 10 then 7 else 8
    post_write_counter := if t < 20 then 7 else 8
    pmem := fun addr => if 1000 ≤ addr ∧ addr < 1004 ∧ 11 + (addr - 1000) ≤ t then 1 else 0 }

/-! ## Theorems, part I: the lock-free read iterator -/

theorem size_sub_of_le {a b : Nat} (h : b ≤ a) (ha : a < SIZE_MOD) : size_sub a b = a - b := by
  unfold size_sub
  have hb : b < SIZE_MOD := lt_of_le_of_lt h ha
  rw [Nat.mod_eq_of_lt hb]
  have hsum : a + SIZE_MOD - b = (a - b) + SIZE_MOD := by omega
  rw [hsum, Nat.add_mod_right, Nat.mod_eq_of_lt]
  omega

theorem ssize_cast_of_le {n : Nat} (h : n ≤ SSIZE_MAX) : ssize_cast n = (n : Int) := by
  unfold ssize_cast
  have h2 : n < SIZE_MOD := by unfold SSIZE_MAX at h; unfold SIZE_MOD; omega
  rw [Nat.mod_eq_of_lt h2, if_pos h]

theorem ssize_cast_ne_neg_one {n : Nat} (h : n ≤ SSIZE_MAX) : ssize_cast n ≠ -1 := by
  rw [ssize_cast_of_le h]; omega

theorem threshold_le_ssize_max {n : Nat} (h : n ≤ READ_FAST_PATH_TRESHOLD) : n ≤ SSIZE_MAX := by
  unfold READ_FAST_PATH_TRESHOLD at h; unfold SSIZE_MAX; omega

/-- A read that is declined leaves the iterator and the buffer as they were. -/
theorem try_read_fastpath_declined_unchanged (it : Option lock_free_iterator)
    (v v2 : pmemfile_vinode) (pmem buffer : Nat → Nat) (count : Nat)
    (hcount : count ≤ SSIZE_MAX)
    (hret : (try_read_fastpath it v v2 pmem buffer count).ret = -1) :
    (try_read_fastpath it v v2 pmem buffer count).buffer = buffer ∧
      (try_read_fastpath it v v2 pmem buffer count).it = it := by
  have hne := ssize_cast_ne_neg_one hcount
  generalize ho : try_read_fastpath it v v2 pmem buffer count = o at hret ⊢
  unfold try_read_fastpath at ho
  repeat' split at ho
  all_goals subst ho
  all_goals first
    | exact ⟨rfl, rfl⟩
    | exact absurd hret hne

/-- With a data address, a counter that differs at either check declines the read. -/
theorem try_read_fastpath_counter_change (i : lock_free_iterator) (a : Nat)
    (v v2 : pmemfile_vinode) (pmem buffer : Nat → Nat) (count : Nat)
    (haddr : i.address = some a)
    (hchg : v2.pre_write_counter ≠ v.pre_write_counter ∨
      v2.post_write_counter ≠ v.post_write_counter) (hpos : 0 < count) :
    (try_read_fastpath (some i) v v2 pmem buffer count).ret = -1 := by
  generalize ho : try_read_fastpath (some i) v v2 pmem buffer count = o
  unfold try_read_fastpath at ho
  rw [if_neg (by omega)] at ho
  simp only [haddr] at ho
  repeat' split at ho
  all_goals subst ho
  all_goals first
    | rfl
    | (exfalso
       simp only [is_modification_indicated, Bool.or_eq_true, decide_eq_true_eq, not_or,
         not_not] at *
       rcases hchg with h | h
       · apply h; omega
       · apply h; omega)

/-- C5: whenever `try_read_fastpath` returns the not-taken value `-1`, the
destination buffer and the iterator (address, length, both counter snapshots
and the block pointer cache) are unchanged; and when the counters read after the
staging copy differ from those read before it, the call returns `-1` with the
buffer untouched.  The count is the size of the caller's buffer, hence at most
`SSIZE_MAX`. -/
theorem declined_read_delivers_nothing (it : Option lock_free_iterator)
    (v v2 : pmemfile_vinode) (pmem buffer : Nat → Nat) (count : Nat)
    (hcount : count ≤ SSIZE_MAX) :
    ((try_read_fastpath it v v2 pmem buffer count).ret = -1 →
      (try_read_fastpath it v v2 pmem buffer count).buffer = buffer ∧
      (try_read_fastpath it v v2 pmem buffer count).it = it) ∧
    (∀ (i : lock_free_iterator) (a : Nat), it = some i → i.address = some a → 0 < count →
      (v2.pre_write_counter ≠ v.pre_write_counter ∨
        v2.post_write_counter ≠ v.post_write_counter) →
      (try_read_fastpath it v v2 pmem buffer count).ret = -1 ∧
      (try_read_fastpath it v v2 pmem buffer count).buffer = buffer ∧
      (try_read_fastpath it v v2 pmem buffer count).it = it) := by
  refine ⟨fun hret => try_read_fastpath_declined_unchanged it v v2 pmem buffer count hcount hret,
    ?_⟩
  intro i a hit haddr hpos hchg
  subst hit
  have hret := try_read_fastpath_counter_change i a v v2 pmem buffer count haddr hchg hpos
  exact ⟨hret, try_read_fastpath_declined_unchanged _ v v2 pmem buffer count hcount hret⟩

/-- C6: for an iterator with a data address, a count `n` with
`0 < n ≤ it.length` and `n ≤ 256`, and vinode counters equal to the iterator's
snapshot at both checks, `try_read_fastpath` returns `n`, sets `buffer[0..n)` to
the bytes at `[address, address + n)`, leaves the buffer from index `n` on
unchanged, advances the address by `n`, takes `n` off the length and leaves the
counter snapshot and the block pointer cache unchanged. -/
theorem accepted_data_read (it : lock_free_iterator) (a : Nat)
    (v v2 : pmemfile_vinode) (pmem buffer : Nat → Nat) (n : Nat)
    (haddr : it.address = some a) (hpos : 0 < n) (hlen : n ≤ it.length)
    (hthr : n ≤ READ_FAST_PATH_TRESHOLD)
    (hpre : it.last_pre_write_counter = v.pre_write_counter)
    (hpost : it.last_post_write_counter = v.post_write_counter)
    (hpre2 : it.last_pre_write_counter = v2.pre_write_counter)
    (hpost2 : it.last_post_write_counter = v2.post_write_counter) :
    (try_read_fastpath (some it) v v2 pmem buffer n).ret = (n : Int) ∧
    (∀ j, j < n → (try_read_fastpath (some it) v v2 pmem buffer n).buffer j = pmem (a + j)) ∧
    (∀ j, n ≤ j → (try_read_fastpath (some it) v v2 pmem buffer n).buffer j = buffer j) ∧
    (try_read_fastpath (some it) v v2 pmem buffer n).it =
      some { it with address := some (a + n), length := it.length - n } ∧
    it.length - n + n = it.length := by
  have hm1 : is_modification_indicated it v = false := by
    simp [is_modification_indicated, hpre, hpost]
  have hm2 : is_modification_indicated it v2 = false := by
    simp [is_modification_indicated, hpre2, hpost2]
  have hinit : is_lfit_initialized (some it) = true := by
    simp only [is_lfit_initialized, decide_eq_true_eq]; omega
  have hrun : try_read_fastpath (some it) v v2 pmem buffer n =
      ⟨ssize_cast n, some { it with address := some (a + n), length := it.length - n },
        memcpy buffer (memcpy (fun _ => 0) (fun j => pmem (a + j)) n) n⟩ := by
    unfold try_read_fastpath
    rw [if_neg (by omega)]
    simp only [hinit, Bool.not_true, Bool.false_eq_true, if_false, hm1, hm2, haddr,
      if_neg (not_lt.mpr hlen), if_pos hthr, gt_iff_lt]
  rw [hrun]
  refine ⟨ssize_cast_of_le (threshold_le_ssize_max hthr), ?_, ?_, rfl, by omega⟩
  · intro j hj
    simp [memcpy, hj]
  · intro j hj
    simp [memcpy, not_lt.mpr hj]

theorem skip_uninitialized_none (l : List pmemfile_block_desc) (i : Nat)
    (h : ∀ b ∈ l, block_uninitialized b = true) : skip_uninitialized l i = none := by
  induction l generalizing i with
  | nil => rfl
  | cons b rest ih =>
    have hb := h b (List.mem_cons_self _ _)
    simp only [skip_uninitialized, hb, if_true]
    exact ih (i + 1) (fun x hx => h x (List.mem_cons_of_mem _ hx))

theorem find_first_initialized_none (v : pmemfile_vinode) (block : Option Nat)
    (h : ∀ b ∈ v.blocks, block_uninitialized b = true) :
    find_first_initialized_block_after v block = none := by
  cases block with
  | none => exact skip_uninitialized_none _ _ h
  | some i => exact skip_uninitialized_none _ _ (fun b hb => h b (List.mem_of_mem_drop hb))

theorem block_at_mem {v : pmemfile_vinode} {block : Option Nat} {b : pmemfile_block_desc}
    (h : block_at v block = some b) : b ∈ v.blocks := by
  cases block with
  | none => simp [block_at] at h
  | some i =>
    simp only [block_at] at h
    exact List.getElem?_mem h

theorem lfit_setup_range_uninitialized (lfit : lock_free_iterator) (v : pmemfile_vinode)
    (block : Option Nat) (offset file_size : Nat)
    (h : ∀ b ∈ v.blocks, block_uninitialized b = true) :
    lfit_setup_range lfit v block offset file_size =
      { lfit with address := none, length := size_sub file_size offset } := by
  unfold lfit_setup_range
  rw [find_first_initialized_none v block h]
  cases hb : block_at v block with
  | none => simp [block_at]
  | some b => simp [block_at, h b (block_at_mem hb)]

theorem lfit_setup_range_fields (lfit : lock_free_iterator) (v : pmemfile_vinode)
    (block : Option Nat) (offset file_size : Nat) :
    (lfit_setup_range lfit v block offset file_size).last_pre_write_counter =
        lfit.last_pre_write_counter ∧
      (lfit_setup_range lfit v block offset file_size).last_post_write_counter =
        lfit.last_post_write_counter ∧
      (lfit_setup_range lfit v block offset file_size).block_pointer_cache =
        lfit.block_pointer_cache := by
  unfold lfit_setup_range
  repeat' split
  all_goals exact ⟨rfl, rfl, rfl⟩

/-- A read-as-zero iterator whose counters match accepts any count up to its length. -/
theorem try_read_fastpath_zero (i : lock_free_iterator) (v v2 : pmemfile_vinode)
    (pmem buffer : Nat → Nat) (n : Nat) (haddr : i.address = none)
    (hpre : i.last_pre_write_counter = v.pre_write_counter)
    (hpost : i.last_post_write_counter = v.post_write_counter)
    (hpos : 0 < n) (hlen : n ≤ i.length) :
    try_read_fastpath (some i) v v2 pmem buffer n =
      ⟨ssize_cast n, some { i with length := i.length - n }, memset_zero buffer n⟩ := by
  have hm1 : is_modification_indicated i v = false := by
    simp [is_modification_indicated, hpre, hpost]
  have hinit : is_lfit_initialized (some i) = true := by
    simp only [is_lfit_initialized, decide_eq_true_eq]; omega
  unfold try_read_fastpath
  rw [if_neg (by omega)]
  simp only [hinit, Bool.not_true, Bool.false_eq_true, if_false, hm1, haddr,
    if_neg (not_lt.mpr hlen), gt_iff_lt]

/-- C7: for a vinode without any initialized block, every `offset < file_size`
and every block argument, `lfit_setup` yields `address = NULL` and
`length = file_size - offset`; then, with the counters unchanged,
`try_read_fastpath` with a count `n`, `0 < n ≤ file_size - offset`, returns `n`,
writes `n` zero bytes to the buffer and nothing else, leaves the address `NULL`
and leaves `length = file_size - offset - n`. -/
theorem zero_region_read (v v1 v2 : pmemfile_vinode) (it : lock_free_iterator)
    (block : Option Nat) (offset file_size n : Nat) (pmem buffer : Nat → Nat)
    (hnone : ∀ b ∈ v.blocks, block_uninitialized b = true)
    (hoff : offset < file_size) (hsize : file_size < SIZE_MOD)
    (hpre : v1.pre_write_counter = v.pre_write_counter)
    (hpost : v1.post_write_counter = v.post_write_counter)
    (hpos : 0 < n) (hn : n ≤ file_size - offset) (hcount : n ≤ SSIZE_MAX) :
    ∃ it', lfit_setup (some it) v block offset file_size = some it' ∧
      it'.address = none ∧ it'.length = file_size - offset ∧
      (try_read_fastpath (some it') v1 v2 pmem buffer n).ret = (n : Int) ∧
      (∀ j, j < n → (try_read_fastpath (some it') v1 v2 pmem buffer n).buffer j = 0) ∧
      (∀ j, n ≤ j → (try_read_fastpath (some it') v1 v2 pmem buffer n).buffer j = buffer j) ∧
      (try_read_fastpath (some it') v1 v2 pmem buffer n).it =
        some { it' with address := none, length := file_size - offset - n } := by
  have hsetup : lfit_setup (some it) v block offset file_size =
      some { it with last_pre_write_counter := v.pre_write_counter,
                     last_post_write_counter := v.post_write_counter,
                     block_pointer_cache := block,
                     address := none, length := file_size - offset } := by
    simp only [lfit_setup, ge_iff_le, if_neg (not_le.mpr hoff)]
    rw [lfit_setup_range_uninitialized _ v block offset file_size hnone,
      size_sub_of_le (le_of_lt hoff) hsize]
  refine ⟨_, hsetup, rfl, rfl, ?_⟩
  rw [try_read_fastpath_zero _ v1 v2 pmem buffer n rfl hpre.symm hpost.symm hpos hn]
  refine ⟨ssize_cast_of_le hcount, ?_, ?_, rfl⟩
  · intro j hj
    simp [memset_zero, hj]
  · intro j hj
    simp [memset_zero, not_lt.mpr hj]

/-- The scenario of C7: a file of 10000 bytes without blocks, a read of 200
bytes at offset 0. -/
theorem zero_region_read_witness :
    ∃ it', lfit_setup (some ⟨none, 0, 0, none, 0⟩) ⟨[], 0, 0⟩ none 0 10000 = some it' ∧
      it'.address = none ∧ it'.length = 10000 - 0 ∧
      (try_read_fastpath (some it') ⟨[], 0, 0⟩ ⟨[], 0, 0⟩ (fun _ => 7) (fun _ => 9) 200).ret =
        (200 : Int) ∧
      (∀ j, j < 200 →
        (try_read_fastpath (some it') ⟨[], 0, 0⟩ ⟨[], 0, 0⟩ (fun _ => 7) (fun _ => 9) 200).buffer j
          = 0) ∧
      (∀ j, 200 ≤ j →
        (try_read_fastpath (some it') ⟨[], 0, 0⟩ ⟨[], 0, 0⟩ (fun _ => 7) (fun _ => 9) 200).buffer j
          = (fun _ => 9) j) ∧
      (try_read_fastpath (some it') ⟨[], 0, 0⟩ ⟨[], 0, 0⟩ (fun _ => 7) (fun _ => 9) 200).it =
        some { it' with address := none, length := 10000 - 0 - 200 } :=
  zero_region_read ⟨[], 0, 0⟩ ⟨[], 0, 0⟩ ⟨[], 0, 0⟩ ⟨none, 0, 0, none, 0⟩ none 0 10000 200
    (fun _ => 7) (fun _ => 9) (by simp) (by decide) (by decide) rfl rfl (by decide) (by decide)
    (by decide)

/-- The scenario of C5: a count within `SSIZE_MAX`. -/
theorem declined_read_delivers_nothing_witness :
    ((try_read_fastpath (some ⟨none, 0, 0, some 16, 8⟩) ⟨[], 0, 0⟩ ⟨[], 1, 0⟩
        (fun a => a) (fun _ => 9) 4).ret = -1 →
      (try_read_fastpath (some ⟨none, 0, 0, some 16, 8⟩) ⟨[], 0, 0⟩ ⟨[], 1, 0⟩
        (fun a => a) (fun _ => 9) 4).buffer = (fun _ => 9) ∧
      (try_read_fastpath (some ⟨none, 0, 0, some 16, 8⟩) ⟨[], 0, 0⟩ ⟨[], 1, 0⟩
        (fun a => a) (fun _ => 9) 4).it = some ⟨none, 0, 0, some 16, 8⟩) ∧
    (∀ (i : lock_free_iterator) (a : Nat), some ⟨none, 0, 0, some 16, 8⟩ = some i →
      i.address = some a → 0 < 4 →
      ((⟨[], 1, 0⟩ : pmemfile_vinode).pre_write_counter ≠
          (⟨[], 0, 0⟩ : pmemfile_vinode).pre_write_counter ∨
        (⟨[], 1, 0⟩ : pmemfile_vinode).post_write_counter ≠
          (⟨[], 0, 0⟩ : pmemfile_vinode).post_write_counter) →
      (try_read_fastpath (some ⟨none, 0, 0, some 16, 8⟩) ⟨[], 0, 0⟩ ⟨[], 1, 0⟩
        (fun a => a) (fun _ => 9) 4).ret = -1 ∧
      (try_read_fastpath (some ⟨none, 0, 0, some 16, 8⟩) ⟨[], 0, 0⟩ ⟨[], 1, 0⟩
        (fun a => a) (fun _ => 9) 4).buffer = (fun _ => 9) ∧
      (try_read_fastpath (some ⟨none, 0, 0, some 16, 8⟩) ⟨[], 0, 0⟩ ⟨[], 1, 0⟩
        (fun a => a) (fun _ => 9) 4).it = some ⟨none, 0, 0, some 16, 8⟩) :=
  declined_read_delivers_nothing (some ⟨none, 0, 0, some 16, 8⟩) ⟨[], 0, 0⟩ ⟨[], 1, 0⟩
    (fun a => a) (fun _ => 9) 4 (by decide)

/-- The scenario of C6: four bytes read at address 16 of a memory whose byte at
address `a` is `a`. -/
theorem accepted_data_read_witness :
    (try_read_fastpath (some ⟨none, 0, 0, some 16, 8⟩) ⟨[], 0, 0⟩ ⟨[], 0, 0⟩
        (fun a => a) (fun _ => 9) 4).ret = ((4 : Nat) : Int) ∧
    (∀ j, j < 4 → (try_read_fastpath (some ⟨none, 0, 0, some 16, 8⟩) ⟨[], 0, 0⟩ ⟨[], 0, 0⟩
        (fun a => a) (fun _ => 9) 4).buffer j = (fun a => a) (16 + j)) ∧
    (∀ j, 4 ≤ j → (try_read_fastpath (some ⟨none, 0, 0, some 16, 8⟩) ⟨[], 0, 0⟩ ⟨[], 0, 0⟩
        (fun a => a) (fun _ => 9) 4).buffer j = (fun _ => 9) j) ∧
    (try_read_fastpath (some ⟨none, 0, 0, some 16, 8⟩) ⟨[], 0, 0⟩ ⟨[], 0, 0⟩
        (fun a => a) (fun _ => 9) 4).it = some ⟨none, 0, 0, some (16 + 4), 8 - 4⟩ ∧
    8 - 4 + 4 = 8 :=
  accepted_data_read ⟨none, 0, 0, some 16, 8⟩ 16 ⟨[], 0, 0⟩ ⟨[], 0, 0⟩ (fun a => a) (fun _ => 9) 4
    rfl (by decide) (by decide) (by decide) rfl rfl rfl rfl

/-- Any count above the threshold is declined by an iterator with a data address. -/
theorem try_read_fastpath_over_threshold (i : lock_free_iterator) (a : Nat)
    (v v2 : pmemfile_vinode) (pmem buffer : Nat → Nat) (count : Nat)
    (haddr : i.address = some a) (hcount : READ_FAST_PATH_TRESHOLD < count) :
    (try_read_fastpath (some i) v v2 pmem buffer count).ret = -1 := by
  generalize ho : try_read_fastpath (some i) v v2 pmem buffer count = o
  unfold try_read_fastpath at ho
  rw [if_neg (by omega)] at ho
  simp only [haddr, if_neg (not_le.mpr hcount)] at ho
  repeat' split at ho
  all_goals subst ho
  all_goals rfl

/-- C9, as stated, fails: after `lfit_setup` at offset 0 of a file of 10000
bytes that has no block, with the counters unchanged, `try_read_fastpath` with
count 257 is accepted and returns 257. -/
theorem over_threshold_accepted_in_zero_region :
    lfit_setup (some ⟨none, 0, 0, none, 0⟩) ⟨[], 0, 0⟩ none 0 10000 =
        some ⟨none, 0, 0, none, 10000⟩ ∧
      (try_read_fastpath (some ⟨none, 0, 0, none, 10000⟩) ⟨[], 0, 0⟩ ⟨[], 0, 0⟩
        (fun _ => 7) (fun _ => 9) 257).ret = 257 := by
  constructor
  · decide
  · decide

/-- C9, amended: with `READ_FAST_PATH_TRESHOLD = 256`, for every iterator state
produced by `lfit_setup` with `offset < file_size` that points at data
(`address ≠ NULL`), `try_read_fastpath` with count 257 returns `-1`; a state that
reads as zero (`address = NULL`) accepts the 257 bytes when the counters are
unchanged and its length is at least 257. -/
theorem over_threshold_declined (it it' : lock_free_iterator) (v v1 v2 : pmemfile_vinode)
    (block : Option Nat) (offset file_size : Nat) (pmem buffer : Nat → Nat)
    (hoff : offset < file_size)
    (hsetup : lfit_setup (some it) v block offset file_size = some it')
    (hpre : v1.pre_write_counter = v.pre_write_counter)
    (hpost : v1.post_write_counter = v.post_write_counter) :
    READ_FAST_PATH_TRESHOLD = 256 ∧
    (it'.address ≠ none → (try_read_fastpath (some it') v1 v2 pmem buffer 257).ret = -1) ∧
    (it'.address = none → 257 ≤ it'.length →
      (try_read_fastpath (some it') v1 v2 pmem buffer 257).ret = 257) := by
  refine ⟨rfl, ?_, ?_⟩
  · intro haddr
    cases ha : it'.address with
    | none => exact absurd ha haddr
    | some a =>
      exact try_read_fastpath_over_threshold it' a v1 v2 pmem buffer 257 ha (by decide)
  · intro haddr hlen
    simp only [lfit_setup, ge_iff_le, if_neg (not_le.mpr hoff), Option.some.injEq] at hsetup
    have hf := lfit_setup_range_fields
      { it with last_pre_write_counter := v.pre_write_counter,
                last_post_write_counter := v.post_write_counter,
                block_pointer_cache := block } v block offset file_size
    rw [hsetup] at hf
    rw [try_read_fastpath_zero it' v1 v2 pmem buffer 257 haddr (hf.1.trans hpre.symm)
      (hf.2.1.trans hpost.symm) (by decide) hlen]
    show ssize_cast 257 = 257
    decide

/-- The scenario of C9: offset 10 of an initialized block of 4096 bytes. -/
theorem over_threshold_declined_witness :
    READ_FAST_PATH_TRESHOLD = 256 ∧
    ((⟨some 0, 0, 0, some 1010, 4086⟩ : lock_free_iterator).address ≠ none →
      (try_read_fastpath (some ⟨some 0, 0, 0, some 1010, 4086⟩) ⟨[⟨1000, 4096, 1, 0⟩], 0, 0⟩
        ⟨[⟨1000, 4096, 1, 0⟩], 0, 0⟩ (fun a => a) (fun _ => 9) 257).ret = -1) ∧
    ((⟨some 0, 0, 0, some 1010, 4086⟩ : lock_free_iterator).address = none →
      257 ≤ (⟨some 0, 0, 0, some 1010, 4086⟩ : lock_free_iterator).length →
      (try_read_fastpath (some ⟨some 0, 0, 0, some 1010, 4086⟩) ⟨[⟨1000, 4096, 1, 0⟩], 0, 0⟩
        ⟨[⟨1000, 4096, 1, 0⟩], 0, 0⟩ (fun a => a) (fun _ => 9) 257).ret = 257) :=
  over_threshold_declined ⟨none, 0, 0, none, 0⟩ ⟨some 0, 0, 0, some 1010, 4086⟩
    ⟨[⟨1000, 4096, 1, 0⟩], 0, 0⟩ ⟨[⟨1000, 4096, 1, 0⟩], 0, 0⟩ ⟨[⟨1000, 4096, 1, 0⟩], 0, 0⟩
    (some 0) 10 5000 (fun a => a) (fun _ => 9) (by decide) (by decide) rfl rfl

/-- A count above zero is declined when a counter read at the first check
differs from the iterator's snapshot. -/
theorem try_read_fastpath_stale (it : Option lock_free_iterator) (i : lock_free_iterator)
    (v v2 : pmemfile_vinode) (pmem buffer : Nat → Nat) (count : Nat)
    (hit : it = some i)
    (hchg : v.pre_write_counter ≠ i.last_pre_write_counter ∨
      v.post_write_counter ≠ i.last_post_write_counter) (hpos : 0 < count) :
    (try_read_fastpath it v v2 pmem buffer count).ret = -1 := by
  subst hit
  have hm : is_modification_indicated i v = true := by
    simp only [is_modification_indicated, Bool.or_eq_true, decide_eq_true_eq]
    rcases hchg with h | h
    · exact Or.inl (Ne.symm h)
    · exact Or.inr (Ne.symm h)
  generalize ho : try_read_fastpath (some i) v v2 pmem buffer count = o
  unfold try_read_fastpath at ho
  rw [if_neg (by omega)] at ho
  simp only [hm, if_true] at ho
  repeat' split at ho
  all_goals subst ho
  all_goals rfl

/-- C10: `lfit_setup` with `offset < file_size` stores the vinode's current
`pre_write_counter` and `post_write_counter` in the iterator, so that against
the unchanged vinode no modification is indicated; and for every later vinode
state in which one of the two counters differs from the stored value, in
particular after `k` increments of a 64-bit counter with `0 < k < 2 ^ 64`,
every `try_read_fastpath` with `count > 0` returns `-1`. -/
theorem writer_detection (it : lock_free_iterator) (v : pmemfile_vinode)
    (block : Option Nat) (offset file_size : Nat)
    (hoff : offset < file_size)
    (hpre : v.pre_write_counter < SIZE_MOD) (hpost : v.post_write_counter < SIZE_MOD) :
    ∃ it', lfit_setup (some it) v block offset file_size = some it' ∧
      it'.last_pre_write_counter = v.pre_write_counter ∧
      it'.last_post_write_counter = v.post_write_counter ∧
      is_modification_indicated it' v = false ∧
      (∀ (v1 v2 : pmemfile_vinode) (pmem buffer : Nat → Nat) (count : Nat), 0 < count →
        (v1.pre_write_counter ≠ it'.last_pre_write_counter ∨
          v1.post_write_counter ≠ it'.last_post_write_counter) →
        (try_read_fastpath (some it') v1 v2 pmem buffer count).ret = -1) ∧
      (∀ (v1 v2 : pmemfile_vinode) (pmem buffer : Nat → Nat) (count k : Nat), 0 < count →
        0 < k → k < SIZE_MOD →
        (v1.pre_write_counter = (v.pre_write_counter + k) % SIZE_MOD ∨
          v1.post_write_counter = (v.post_write_counter + k) % SIZE_MOD) →
        (try_read_fastpath (some it') v1 v2 pmem buffer count).ret = -1) := by
  have hf := lfit_setup_range_fields
    { it with last_pre_write_counter := v.pre_write_counter,
              last_post_write_counter := v.post_write_counter,
              block_pointer_cache := block } v block offset file_size
  refine ⟨_, ?_, hf.1, hf.2.1, ?_, ?_, ?_⟩
  · simp only [lfit_setup, ge_iff_le, if_neg (not_le.mpr hoff)]
  · simp [is_modification_indicated, hf.1, hf.2.1]
  · intro v1 v2 pmem buffer count hpos hchg
    exact try_read_fastpath_stale _ _ v1 v2 pmem buffer count rfl hchg hpos
  · intro v1 v2 pmem buffer count k hpos hk0 hk hchg
    apply try_read_fastpath_stale _ _ v1 v2 pmem buffer count rfl _ hpos
    rw [hf.1, hf.2.1]
    have wrap : ∀ c : Nat, c < SIZE_MOD → (c + k) % SIZE_MOD ≠ c := by
      intro c hc heq
      by_cases hlt : c + k < SIZE_MOD
      · rw [Nat.mod_eq_of_lt hlt] at heq; omega
      · have hge : SIZE_MOD ≤ c + k := not_lt.mp hlt
        have hsub : (c + k) % SIZE_MOD = c + k - SIZE_MOD := by
          rw [Nat.mod_eq_sub_mod hge, Nat.mod_eq_of_lt (by omega)]
        omega
    rcases hchg with h | h
    · exact Or.inl (h ▸ wrap _ hpre)
    · exact Or.inr (h ▸ wrap _ hpost)

/-- The scenario of C10: a vinode whose counters are both 5. -/
theorem writer_detection_witness :
    ∃ it', lfit_setup (some ⟨none, 0, 0, none, 0⟩) ⟨[⟨1000, 4096, 1, 0⟩], 5, 5⟩ (some 0) 10 5000
        = some it' ∧
      it'.last_pre_write_counter = (⟨[⟨1000, 4096, 1, 0⟩], 5, 5⟩ : pmemfile_vinode).pre_write_counter ∧
      it'.last_post_write_counter =
        (⟨[⟨1000, 4096, 1, 0⟩], 5, 5⟩ : pmemfile_vinode).post_write_counter ∧
      is_modification_indicated it' ⟨[⟨1000, 4096, 1, 0⟩], 5, 5⟩ = false ∧
      (∀ (v1 v2 : pmemfile_vinode) (pmem buffer : Nat → Nat) (count : Nat), 0 < count →
        (v1.pre_write_counter ≠ it'.last_pre_write_counter ∨
          v1.post_write_counter ≠ it'.last_post_write_counter) →
        (try_read_fastpath (some it') v1 v2 pmem buffer count).ret = -1) ∧
      (∀ (v1 v2 : pmemfile_vinode) (pmem buffer : Nat → Nat) (count k : Nat), 0 < count →
        0 < k → k < SIZE_MOD →
        (v1.pre_write_counter =
            ((⟨[⟨1000, 4096, 1, 0⟩], 5, 5⟩ : pmemfile_vinode).pre_write_counter + k) % SIZE_MOD ∨
          v1.post_write_counter =
            ((⟨[⟨1000, 4096, 1, 0⟩], 5, 5⟩ : pmemfile_vinode).post_write_counter + k) % SIZE_MOD) →
        (try_read_fastpath (some it') v1 v2 pmem buffer count).ret = -1) :=
  writer_detection ⟨none, 0, 0, none, 0⟩ ⟨[⟨1000, 4096, 1, 0⟩], 5, 5⟩ (some 0) 10 5000
    (by decide) (by decide) (by decide)

/-- C8 at a failing input: two adjacent initialized blocks `[0, 100)` and
`[100, 200)` of a file of 200 bytes, and `lfit_setup` at offset 100 with the
block `[0, 100)` that the read ending there has just walked.  The walk of
`find_first_initialized_block_after` stops at that same block, the length is
computed as `0 - 100` in 64-bit arithmetic, and the iterator promises
`2 ^ 64 - 100` zero bytes: `offset + length` exceeds `file_size`, the
initialized block `[100, 200)` lies in the promised range, and a fast-path read
of 50 bytes at offset 100 is accepted and delivers zeroes at file positions that
the second block holds. -/
theorem zero_gap_overruns_next_block :
    blocks_sorted ⟨[⟨1000, 100, 1, 0⟩, ⟨2000, 100, 1, 100⟩], 0, 0⟩ ∧
    find_first_initialized_block_after ⟨[⟨1000, 100, 1, 0⟩, ⟨2000, 100, 1, 100⟩], 0, 0⟩ (some 0)
      = some 0 ∧
    lfit_setup (some ⟨none, 0, 0, none, 0⟩) ⟨[⟨1000, 100, 1, 0⟩, ⟨2000, 100, 1, 100⟩], 0, 0⟩
      (some 0) 100 200 = some ⟨some 0, 0, 0, none, 2 ^ 64 - 100⟩ ∧
    ¬ (100 + (2 ^ 64 - 100) ≤ 200) ∧
    block_uninitialized ⟨2000, 100, 1, 100⟩ = false ∧
    (try_read_fastpath (some ⟨some 0, 0, 0, none, 2 ^ 64 - 100⟩)
      ⟨[⟨1000, 100, 1, 0⟩, ⟨2000, 100, 1, 100⟩], 0, 0⟩
      ⟨[⟨1000, 100, 1, 0⟩, ⟨2000, 100, 1, 100⟩], 0, 0⟩ (fun _ => 7) (fun _ => 9) 50).ret = 50 ∧
    (try_read_fastpath (some ⟨some 0, 0, 0, none, 2 ^ 64 - 100⟩)
      ⟨[⟨1000, 100, 1, 0⟩, ⟨2000, 100, 1, 100⟩], 0, 0⟩
      ⟨[⟨1000, 100, 1, 0⟩, ⟨2000, 100, 1, 100⟩], 0, 0⟩ (fun _ => 7) (fun _ => 9) 50).buffer 0 = 0 ∧
    block_holds 100 ⟨2000, 100, 1, 100⟩ = true ∧
    block_at ⟨[⟨1000, 100, 1, 0⟩, ⟨2000, 100, 1, 100⟩], 0, 0⟩ (some 1) = some ⟨2000, 100, 1, 100⟩ := by
  refine ⟨by decide, by decide, by decide, by decide, by decide, by decide, by decide, by decide,
    by decide⟩

/-- In a sorted block list the search for the block that holds `pos` finds the
block `B` whenever `B` is in the list and holds `pos`. -/
theorem find_block_holds (l : List pmemfile_block_desc) (B : pmemfile_block_desc) (pos : Nat)
    (hs : l.Pairwise (fun a b => a.offset + a.size ≤ b.offset)) (hB : B ∈ l)
    (hpos : block_holds pos B = true) : l.find? (block_holds pos) = some B := by
  induction l with
  | nil => simp at hB
  | cons a rest ih =>
    rw [List.pairwise_cons] at hs
    by_cases ha : block_holds pos a = true
    · rw [List.find?_cons_of_pos _ ha]
      rcases List.mem_cons.mp hB with h | h
      · rw [h]
      · exfalso
        have hle := hs.1 B h
        simp only [block_holds, Bool.and_eq_true, decide_eq_true_eq] at ha hpos
        omega
    · rw [List.find?_cons_of_neg _ ha]
      rcases List.mem_cons.mp hB with h | h
      · exact absurd (h ▸ hpos) ha
      · exact ih hs.2 h

/-- The file content inside an initialized block is the block's data. -/
theorem file_byte_in_block (v : pmemfile_vinode) (pmem : Nat → Nat) (B : pmemfile_block_desc)
    (pos : Nat) (hs : blocks_sorted v) (hB : B ∈ v.blocks)
    (hinit : block_uninitialized B = false) (hlo : B.offset ≤ pos)
    (hhi : pos < B.offset + B.size) :
    file_byte v pmem pos = pmem (B.data + (pos - B.offset)) := by
  have hh : block_holds pos B = true := by
    simp only [block_holds, Bool.and_eq_true, decide_eq_true_eq]; exact ⟨hlo, hhi⟩
  unfold file_byte
  rw [find_block_holds v.blocks B pos hs hB hh]
  simp [hinit]

/-- The iterator `lfit_setup` builds at an offset inside an initialized block. -/
theorem lfit_setup_in_block (it : lock_free_iterator) (v : pmemfile_vinode) (i : Nat)
    (B : pmemfile_block_desc) (offset file_size : Nat)
    (hB : v.blocks[i]? = some B) (hinit : block_uninitialized B = false)
    (hfit : B.offset + B.size < SIZE_MOD) (hlo : B.offset ≤ offset)
    (hhi : offset < B.offset + B.size) (hoff : offset < file_size) :
    lfit_setup (some it) v (some i) offset file_size =
      some { block_pointer_cache := some i,
             last_pre_write_counter := v.pre_write_counter,
             last_post_write_counter := v.post_write_counter,
             address := some (B.data + (offset - B.offset)),
             length := B.size - (offset - B.offset) } := by
  have hin : is_offset_in_block offset (some B) = true := by
    simp only [is_offset_in_block, size_add, Nat.mod_eq_of_lt hfit, Bool.and_eq_true,
      decide_eq_true_eq]
    exact ⟨hlo, hhi⟩
  have h1 : size_sub offset B.offset = offset - B.offset :=
    size_sub_of_le hlo (by omega)
  have h2 : size_sub B.size (offset - B.offset) = B.size - (offset - B.offset) :=
    size_sub_of_le (by omega) (by omega)
  simp only [lfit_setup, ge_iff_le, if_neg (not_le.mpr hoff), lfit_setup_range, block_at, hB,
    hin, hinit, Bool.not_true, Bool.or_self, Bool.false_eq_true, if_false, h1, h2]

/-- What an accepted read through an iterator with a data address does. -/
theorem try_read_fastpath_accepted_data (i : lock_free_iterator) (a : Nat)
    (v v2 : pmemfile_vinode) (pmem buffer : Nat → Nat) (count : Nat)
    (haddr : i.address = some a)
    (hacc : (try_read_fastpath (some i) v v2 pmem buffer count).ret ≠ -1) :
    count ≤ i.length ∧
    (try_read_fastpath (some i) v v2 pmem buffer count).ret = (count : Int) ∧
    (try_read_fastpath (some i) v v2 pmem buffer count).it =
      some { i with address := some (a + count), length := i.length - count } ∧
    (∀ j, j < count →
      (try_read_fastpath (some i) v v2 pmem buffer count).buffer j = pmem (a + j)) := by
  generalize ho : try_read_fastpath (some i) v v2 pmem buffer count = o at hacc ⊢
  unfold try_read_fastpath at ho
  by_cases h0 : count = 0
  · subst h0
    rw [if_pos rfl] at ho
    subst ho
    refine ⟨Nat.zero_le _, rfl, ?_, fun j hj => absurd hj (Nat.not_lt_zero j)⟩
    cases i
    simp only at haddr
    simp [haddr]
  · rw [if_neg h0] at ho
    simp only [haddr] at ho
    repeat' split at ho
    all_goals subst ho
    all_goals first
      | exact absurd rfl hacc
      | skip
    rename_i hlen hthr hmod
    refine ⟨not_lt.mp hlen, ssize_cast_of_le (threshold_le_ssize_max hthr), rfl, ?_⟩
    intro j hj
    simp [memcpy, hj]

/-- Consecutive accepted reads through an iterator with a data address: the
counts add up to at most the length, and the `k`-th read returns its count and
delivers the bytes that follow those of the reads before it. -/
theorem read_run_data (v : pmemfile_vinode) (pmem : Nat → Nat) (reqs : List read_request) :
    ∀ (i : lock_free_iterator) (a : Nat), i.address = some a →
      (∀ o ∈ read_run v pmem (some i) reqs, o.ret ≠ -1) →
      (reqs.map read_request.count).sum ≤ i.length ∧
      ∀ (k : Nat) (r : read_request) (o : read_outcome), reqs[k]? = some r →
        (read_run v pmem (some i) reqs)[k]? = some o →
        o.ret = (r.count : Int) ∧
        ∀ j, j < r.count →
          o.buffer j = pmem (a + ((reqs.take k).map read_request.count).sum + j) := by
  induction reqs with
  | nil =>
    intro i a _ _
    refine ⟨by simp, ?_⟩
    intro k r o hr
    simp at hr
  | cons q rest ih =>
    intro i a haddr hacc
    have hq := try_read_fastpath_accepted_data i a v v pmem q.buffer q.count haddr
      (hacc _ (by simp [read_run]))
    obtain ⟨hlen, hret, hit, hbuf⟩ := hq
    have hrest := ih { i with address := some (a + q.count), length := i.length - q.count }
      (a + q.count) rfl (by
        intro o ho
        apply hacc
        simp only [read_run, List.mem_cons]
        right
        rw [hit]
        exact ho)
    refine ⟨?_, ?_⟩
    · simp only [List.map_cons, List.sum_cons]
      have := hrest.1
      simp only at this
      omega
    · intro k r o hr ho
      cases k with
      | zero =>
        simp only [List.getElem?_cons_zero, Option.some.injEq] at hr
        simp only [read_run, List.getElem?_cons_zero, Option.some.injEq] at ho
        subst hr
        subst ho
        refine ⟨hret, ?_⟩
        intro j hj
        simpa using hbuf j hj
      | succ k' =>
        simp only [List.getElem?_cons_succ] at hr
        simp only [read_run, List.getElem?_cons_succ] at ho
        rw [hit] at ho
        obtain ⟨h1, h2⟩ := hrest.2 k' r o hr ho
        refine ⟨h1, ?_⟩
        intro j hj
        rw [h2 j hj]
        simp only [List.take_succ_cons, List.map_cons, List.sum_cons]
        congr 1
        omega

/-- The counts of the first `k` requests add up to at most the total. -/
theorem counts_before_le (reqs : List read_request) (k : Nat) (r : read_request)
    (hr : reqs[k]? = some r) :
    ((reqs.take k).map read_request.count).sum + r.count ≤
      (reqs.map read_request.count).sum := by
  induction reqs generalizing k with
  | nil => simp at hr
  | cons q rest ih =>
    cases k with
    | zero =>
      simp only [List.getElem?_cons_zero, Option.some.injEq] at hr
      subst hr
      simp
    | succ k' =>
      simp only [List.getElem?_cons_succ] at hr
      have := ih k' hr
      simp only [List.take_succ_cons, List.map_cons, List.sum_cons]
      omega

/-- C2 at a failing input: a file of 10 bytes whose only block is initialized and
4096 bytes long.  `lfit_setup` at offset 0 takes the data branch of
`lfit_setup_range`, which sets `length` to the rest of the block, 4096, and does
not cut it at `file_size` as the zero branch does.  A fast-path read of 100
bytes is then accepted and delivers 100 bytes of the block, 90 of them from
beyond the end of the file (the byte at position 50 among them), while a
lock-protected read of 100 bytes at offset 0 delivers the 10 bytes of the
file. -/
theorem fast_path_read_crosses_end_of_file :
    blocks_sorted ⟨[⟨1000, 4096, 1, 0⟩], 0, 0⟩ ∧
    lfit_setup (some ⟨none, 0, 0, none, 0⟩) ⟨[⟨1000, 4096, 1, 0⟩], 0, 0⟩ (some 0) 0 10 =
      some ⟨some 0, 0, 0, some 1000, 4096⟩ ∧
    (try_read_fastpath (some ⟨some 0, 0, 0, some 1000, 4096⟩) ⟨[⟨1000, 4096, 1, 0⟩], 0, 0⟩
      ⟨[⟨1000, 4096, 1, 0⟩], 0, 0⟩ (fun _ => 7) (fun _ => 9) 100).ret = 100 ∧
    (delivered (try_read_fastpath (some ⟨some 0, 0, 0, some 1000, 4096⟩)
      ⟨[⟨1000, 4096, 1, 0⟩], 0, 0⟩ ⟨[⟨1000, 4096, 1, 0⟩], 0, 0⟩ (fun _ => 7) (fun _ => 9)
      100).buffer 100).length = 100 ∧
    (try_read_fastpath (some ⟨some 0, 0, 0, some 1000, 4096⟩) ⟨[⟨1000, 4096, 1, 0⟩], 0, 0⟩
      ⟨[⟨1000, 4096, 1, 0⟩], 0, 0⟩ (fun _ => 7) (fun _ => 9) 100).buffer 50 = 7 ∧
    (locked_read ⟨[⟨1000, 4096, 1, 0⟩], 0, 0⟩ (fun _ => 7) 10 0 100).length = 10 ∧
    delivered (try_read_fastpath (some ⟨some 0, 0, 0, some 1000, 4096⟩)
      ⟨[⟨1000, 4096, 1, 0⟩], 0, 0⟩ ⟨[⟨1000, 4096, 1, 0⟩], 0, 0⟩ (fun _ => 7) (fun _ => 9)
      100).buffer 100 ≠ locked_read ⟨[⟨1000, 4096, 1, 0⟩], 0, 0⟩ (fun _ => 7) 10 0 100 := by
  refine ⟨by decide, by decide, by decide, by simp [delivered], by decide,
    by simp [locked_read], ?_⟩
  intro h
  have hlen := congrArg List.length h
  simp [delivered, locked_read] at hlen

/-- What the fast path delivers from a block, and where it agrees with a
lock-protected read: for a vinode whose block list is sorted and non-overlapping, an
initialized block `B` of the list (lying within the 64-bit file positions) and an
offset with `B.offset ≤ offset < B.offset + B.size` and `offset < file_size`,
after `lfit_setup(vinode, B, offset, file_size)` and with the vinode unchanged,
every sequence of `try_read_fastpath` calls that are all accepted, with counts
`n1 .. nk`, has `n1 + .. + nk ≤ B.size - (offset - B.offset)`; the `i`-th call
returns `ni` and delivers the bytes
`B.data[offset - B.offset + (n1 + .. + n(i-1)) .. + ni)`; and when the range it
reads ends at or before `file_size`, these are the bytes a lock-protected read of
`ni` bytes at file offset `offset + n1 + .. + n(i-1)` delivers. -/
theorem fast_path_reads_match_locked_reads (v : pmemfile_vinode) (pmem : Nat → Nat)
    (it : lock_free_iterator) (i : Nat) (B : pmemfile_block_desc) (offset file_size : Nat)
    (reqs : List read_request)
    (hsorted : blocks_sorted v) (hB : v.blocks[i]? = some B)
    (hinit : block_uninitialized B = false) (hfit : B.offset + B.size < SIZE_MOD)
    (hlo : B.offset ≤ offset) (hhi : offset < B.offset + B.size) (hoff : offset < file_size)
    (hacc : ∀ o ∈ read_run v pmem (lfit_setup (some it) v (some i) offset file_size) reqs,
      o.ret ≠ -1) :
    (reqs.map read_request.count).sum ≤ B.size - (offset - B.offset) ∧
    ∀ (k : Nat) (r : read_request) (o : read_outcome), reqs[k]? = some r →
      (read_run v pmem (lfit_setup (some it) v (some i) offset file_size) reqs)[k]? = some o →
      o.ret = (r.count : Int) ∧
      (∀ j, j < r.count → o.buffer j =
        pmem (B.data + (offset - B.offset) + ((reqs.take k).map read_request.count).sum + j)) ∧
      (offset + ((reqs.take k).map read_request.count).sum + r.count ≤ file_size →
        delivered o.buffer o.ret =
          locked_read v pmem file_size
            (offset + ((reqs.take k).map read_request.count).sum) r.count) := by
  rw [lfit_setup_in_block it v i B offset file_size hB hinit hfit hlo hhi hoff] at hacc ⊢
  obtain ⟨hsum, hall⟩ := read_run_data v pmem reqs _ (B.data + (offset - B.offset)) rfl hacc
  simp only at hsum
  refine ⟨hsum, ?_⟩
  intro k r o hr ho
  obtain ⟨hret, hbuf⟩ := hall k r o hr ho
  refine ⟨hret, hbuf, ?_⟩
  intro heof
  have hpre := counts_before_le reqs k r hr
  have hmem : B ∈ v.blocks := List.getElem?_mem hB
  rw [hret]
  simp only [delivered, locked_read, Int.toNat_ofNat]
  have hmin : min r.count (file_size - (offset + ((reqs.take k).map read_request.count).sum))
      = r.count := by
    apply Nat.min_eq_left
    omega
  rw [hmin]
  apply List.map_congr_left
  intro j hj
  have hj' : j < r.count := List.mem_range.mp hj
  rw [hbuf j hj',
    file_byte_in_block v pmem B _ hsorted hmem hinit (by omega) (by omega)]
  congr 1
  omega

/-- Two reads of 3 and 4 bytes at offset 10 of an initialized block of 4096
bytes in a file of 5000 bytes, which end before the end of the file. -/
theorem fast_path_reads_match_locked_reads_witness :
    ([⟨fun _ => 9, 3⟩, ⟨fun _ => 9, 4⟩].map read_request.count).sum ≤
      (⟨1000, 4096, 1, 0⟩ : pmemfile_block_desc).size -
        (10 - (⟨1000, 4096, 1, 0⟩ : pmemfile_block_desc).offset) ∧
    ∀ (k : Nat) (r : read_request) (o : read_outcome),
      [(⟨fun _ => 9, 3⟩ : read_request), ⟨fun _ => 9, 4⟩][k]? = some r →
      (read_run ⟨[⟨1000, 4096, 1, 0⟩], 0, 0⟩ (fun a => a % 256)
        (lfit_setup (some ⟨none, 0, 0, none, 0⟩) ⟨[⟨1000, 4096, 1, 0⟩], 0, 0⟩ (some 0) 10 5000)
        [⟨fun _ => 9, 3⟩, ⟨fun _ => 9, 4⟩])[k]? = some o →
      o.ret = (r.count : Int) ∧
      (∀ j, j < r.count → o.buffer j =
        (fun a => a % 256) ((⟨1000, 4096, 1, 0⟩ : pmemfile_block_desc).data +
          (10 - (⟨1000, 4096, 1, 0⟩ : pmemfile_block_desc).offset) +
          (([(⟨fun _ => 9, 3⟩ : read_request), ⟨fun _ => 9, 4⟩].take k).map
            read_request.count).sum + j)) ∧
      (10 + (([(⟨fun _ => 9, 3⟩ : read_request), ⟨fun _ => 9, 4⟩].take k).map
            read_request.count).sum + r.count ≤ 5000 →
        delivered o.buffer o.ret =
          locked_read ⟨[⟨1000, 4096, 1, 0⟩], 0, 0⟩ (fun a => a % 256) 5000
            (10 + (([(⟨fun _ => 9, 3⟩ : read_request), ⟨fun _ => 9, 4⟩].take k).map
              read_request.count).sum) r.count) :=
  fast_path_reads_match_locked_reads ⟨[⟨1000, 4096, 1, 0⟩], 0, 0⟩ (fun a => a % 256)
    ⟨none, 0, 0, none, 0⟩ 0 ⟨1000, 4096, 1, 0⟩ 10 5000 [⟨fun _ => 9, 3⟩, ⟨fun _ => 9, 4⟩]
    (by decide) rfl (by decide) (by decide) (by decide) (by decide) (by decide)
    (by
      intro o ho
      simp only [read_run, List.mem_cons, List.mem_singleton, List.not_mem_nil, or_false] at ho
      rcases ho with h | h
      · rw [h]; decide
      · rw [h]; decide)

/-! ## Theorems, part II: the table of virtual file descriptors -/

theorem free_slots_size_eq : FREE_SLOTS_SIZE = 65536 := by decide

theorem store_size_eq : STORE_SIZE = 65535 := by decide

/-- The loop of `setup_free_slots` fills the positions `i .. i + n` of the ring
with the entries of the same index. -/
theorem setup_free_slots_loop_eq (n : Nat) : ∀ (i : Nat) (s : vfd_state),
    (∀ e, (s.store e).ref_count = 0) → s.insert_index = i → i + n < FREE_SLOTS_SIZE →
    setup_free_slots_loop n i s = Except.ok { s with
      free_vfile_slots := fun k => if i ≤ k ∧ k < i + n then some k else s.free_vfile_slots k,
      insert_index := i + n } := by
  induction n with
  | zero =>
    intro i s _ hi _
    simp only [setup_free_slots_loop, Nat.add_zero]
    congr 1
    cases s
    simp only at hi
    simp only [vfd_state.mk.injEq, true_and, and_true]
    refine ⟨?_, hi⟩
    funext k
    have : ¬ (i ≤ k ∧ k < i) := by omega
    simp [this]
  | succ m ih =>
    intro i s hz hi hlt
    have hmark : mark_as_free_file_slot s i = Except.ok { s with
        free_vfile_slots := Function.update s.free_vfile_slots i (some i),
        insert_index := i + 1 } := by
      simp only [mark_as_free_file_slot, hz i, ne_eq, not_true_eq_false, if_false, hi]
      rw [Nat.mod_eq_of_lt (by omega)]
    simp only [setup_free_slots_loop, hmark]
    have hstep := ih (i + 1)
      { s with free_vfile_slots := Function.update s.free_vfile_slots i (some i),
               insert_index := i + 1 } hz rfl (by omega)
    rw [hstep]
    congr 1
    simp only [vfd_state.mk.injEq, true_and, and_true]
    refine ⟨?_, by omega⟩
    funext k
    by_cases h1 : i + 1 ≤ k ∧ k < i + 1 + m
    · have h2 : i ≤ k ∧ k < i + (m + 1) := by omega
      simp [h1, h2]
    · by_cases h3 : k = i
      · subst h3
        simp
      · have h2 : ¬ (i ≤ k ∧ k < i + (m + 1)) := by omega
        simp [h1, h2, Function.update_noteq h3]

/-- The state `pmemfile_vfd_table_init` builds when `open(".")` succeeds. -/
theorem pmemfile_vfd_table_init_eq (kernel_fds : Int → Bool) (memfd_ret open_ret : Int)
    (hopen : 0 ≤ open_ret) :
    pmemfile_vfd_table_init kernel_fds memfd_ret open_ret = Except.ok
      { store := Function.update (fun _ => ⟨none, none, 0, false, 0⟩) 0
          ⟨none, none, open_ret, true, 1⟩
        cwd_entry := some 0
        vfd_table := fun _ => none
        free_vfile_slots := fun k => if k < STORE_SIZE then some k else none
        insert_index := STORE_SIZE
        fetch_index := 1
        is_memfd_syscall_available := decide (memfd_ret ≥ 0)
        kernel_fds := Function.update
          (check_memfd_syscall (vfd_state_zero kernel_fds) memfd_ret).kernel_fds open_ret true
        events := (check_memfd_syscall (vfd_state_zero kernel_fds) memfd_ret).events ++
          [event.sys_open open_ret] } := by
  have hs : ∀ e, ((check_memfd_syscall (vfd_state_zero kernel_fds) memfd_ret).store e).ref_count
      = 0 := by
    intro e
    simp only [check_memfd_syscall, syscall_returns_fd, syscall_close, vfd_state_zero]
    split <;> rfl
  have hi : (check_memfd_syscall (vfd_state_zero kernel_fds) memfd_ret).insert_index = 0 := by
    simp only [check_memfd_syscall, syscall_returns_fd, syscall_close, vfd_state_zero]
    split <;> rfl
  unfold pmemfile_vfd_table_init setup_free_slots
  rw [setup_free_slots_loop_eq STORE_SIZE 0 _ hs hi (by decide)]
  simp only [setup_cwd, if_neg (not_lt.mpr hopen), fetch_free_file_slot, store_entry,
    syscall_returns_fd, ge_iff_le, if_pos hopen]
  by_cases hm : 0 ≤ memfd_ret
  · simp [check_memfd_syscall, syscall_returns_fd, syscall_close, vfd_state_zero, hm, store_size_eq,
      free_slots_size_eq]
  · simp [check_memfd_syscall, syscall_returns_fd, syscall_close, vfd_state_zero, hm, store_size_eq,
      free_slots_size_eq]

/-- When exactly one cell points at an entry, the count of cells is one. -/
theorem cells_pointing_at_eq_one (s : vfd_state) (e j : Nat) (hj : j < VFD_TABLE_SIZE)
    (h : ∀ i, i < VFD_TABLE_SIZE → (s.vfd_table i = some e ↔ i = j)) :
    cells_pointing_at s e = 1 := by
  unfold cells_pointing_at
  have hc : List.countP (fun i => decide (s.vfd_table i = some e)) (List.range VFD_TABLE_SIZE) =
      List.countP (fun i => i == j) (List.range VFD_TABLE_SIZE) := by
    apply List.countP_congr
    intro i hi
    have := h i (List.mem_range.mp hi)
    simp [this]
  rw [hc]
  exact List.count_eq_one_of_mem (List.nodup_range _) (List.mem_range.mpr hj)

/-- C1 at a failing input: the run `assign_overwrite_ops` from
`pmemfile_vfd_table_init`, each step with kernel results the kernel's set of open
descriptors allows.  The second `pmemfile_vfd_assign` stores its entry into
cell 3, which still points at entry 1, without releasing that pointer: entry 1
is not in the free ring, its `ref_count` is 2, and one pointer to it is left
(cell 4), so the reached state does not satisfy the reference-count
invariant. -/
theorem ref_count_invariant_broken_by_assign :
    ∃ t sys, pmemfile_vfd_table_init standard_fds 3 3 = Except.ok t ∧
      vfd_run ⟨t, []⟩ assign_overwrite_ops = some (Except.ok sys) ∧
      vfd_reachable sys ∧
      ¬ in_free_ring sys.table 1 ∧
      (sys.table.store 1).ref_count = 2 ∧
      pointers_to sys 1 = 1 ∧
      ¬ ref_count_invariant sys := by
  have hrun : ∃ t sys, pmemfile_vfd_table_init standard_fds 3 3 = Except.ok t ∧
      vfd_run ⟨t, []⟩ assign_overwrite_ops = some (Except.ok sys) ∧
      sys.table.vfd_table = Function.update (Function.update (Function.update (fun _ => none)
        4 (some 1)) 3 (some 1)) 3 (some 3) ∧
      sys.table.free_vfile_slots = Function.update
        (fun k => if k < STORE_SIZE then some k else none) STORE_SIZE (some 0) ∧
      sys.table.fetch_index = 4 ∧ sys.table.insert_index = 0 ∧
      sys.table.cwd_entry = some 2 ∧ sys.refs = [] ∧
      (sys.table.store 1).ref_count = 2 :=
    ⟨_, _, pmemfile_vfd_table_init_eq standard_fds 3 3 (by decide), rfl, rfl, rfl, rfl, rfl,
      rfl, rfl, by decide⟩
  obtain ⟨t, sys, hinit, hops, htable, hslots, hfetch, hinsert, hcwd, hrefs, hcount⟩ := hrun
  have hring : ¬ in_free_ring sys.table 1 := by
    rintro ⟨k, hk, hslot⟩
    simp only [free_ring_count, hfetch, hinsert, free_slots_size_eq] at hk
    norm_num at hk
    rw [hslots, hfetch, free_slots_size_eq, Nat.mod_eq_of_lt (by omega), store_size_eq] at hslot
    by_cases h : 4 + k = 65535
    · rw [h, Function.update_same] at hslot
      simp at hslot
    · rw [Function.update_noteq h] at hslot
      split at hslot
      · simp only [Option.some.injEq] at hslot
        omega
      · simp at hslot
  have hptr : pointers_to sys 1 = 1 := by
    have hcells : cells_pointing_at sys.table 1 = 1 := by
      apply cells_pointing_at_eq_one sys.table 1 4 (by decide)
      intro i _
      rw [htable]
      by_cases h3 : i = 3
      · subst h3
        simp
      · by_cases h4 : i = 4
        · subst h4
          simp
        · simp [Function.update_noteq h3, Function.update_noteq h4, h4]
    simp [pointers_to, hcells, hcwd, hrefs]
  refine ⟨t, sys, hinit, hops, ?_, hring, hcount, hptr, ?_⟩
  · exact ⟨standard_fds, 3, 3, t, assign_overwrite_ops, Or.inr (by decide), by decide, hinit,
      hops⟩
  · intro hinv
    have h := hinv 1 (by decide) hring
    rw [hcount, hptr] at h
    exact absurd h (by decide)

theorem toNat_lt_of_in_range {v : Int} (h : is_in_vfd_table_range v = true) :
    v.toNat < VFD_TABLE_SIZE := by
  simp only [is_in_vfd_table_range, Bool.and_eq_true, decide_eq_true_eq] at h
  omega

theorem toNat_injective_in_range {v w : Int} (hv : is_in_vfd_table_range v = true)
    (hw : is_in_vfd_table_range w = true) (h : v.toNat = w.toNat) : v = w := by
  simp only [is_in_vfd_table_range, Bool.and_eq_true, decide_eq_true_eq] at hv hw
  omega

/-- `pmemfile_vfd_ref` on an occupied cell. -/
theorem pmemfile_vfd_ref_occupied (s : vfd_state) (v : Int) (E : Nat)
    (hv : is_in_vfd_table_range v = true) (hcell : s.vfd_table v.toNat = some E) :
    pmemfile_vfd_ref s v = (vf_ref_count_inc s E,
      { pool := (s.store E).pool, file := (s.store E).file, kernel_fd := 0,
        internal := some E }) := by
  simp [pmemfile_vfd_ref, can_be_in_vfd_table, hv, hcell, pmemfile_ref_vfd_under_mutex]

/-- `pmemfile_vfd_ref` on an empty cell or outside the table: a pass-through
reference, and the state is unchanged. -/
theorem pmemfile_vfd_ref_pass_through (s : vfd_state) (v : Int)
    (h : is_in_vfd_table_range v = false ∨ s.vfd_table v.toNat = none) :
    pmemfile_vfd_ref s v = (s, ⟨none, none, v, none⟩) := by
  rcases h with h | h
  · simp [pmemfile_vfd_ref, can_be_in_vfd_table, h]
  · simp [pmemfile_vfd_ref, can_be_in_vfd_table, h]

/-- C3: in every state in which cell `old` is occupied by the entry `E` and the
kernel's `dup` returns a descriptor `new` with `0 ≤ new < 0x8000` whose cell is
empty, `pmemfile_vfd_dup(old)` returns `new`, makes `vfd_table[new]` and
`vfd_table[old]` point at `E`, adds exactly one to `E.ref_count`, changes no
other cell, and afterwards `pmemfile_vfd_ref(old)` and `pmemfile_vfd_ref(new)`
return references with the pool and the file of `E`. -/
theorem dup_aliasing (s : vfd_state) (old new : Int) (E : Nat)
    (hold : is_in_vfd_table_range old = true) (hcell : s.vfd_table old.toNat = some E)
    (hnew0 : 0 ≤ new) (hnew1 : new < 0x8000) (hempty : s.vfd_table new.toNat = none) :
    ∃ s', pmemfile_vfd_dup s old new = Except.ok (s', new) ∧
      s'.vfd_table new.toNat = some E ∧ s'.vfd_table old.toNat = some E ∧
      (s'.store E).ref_count = (s.store E).ref_count + 1 ∧
      (∀ i, i ≠ new.toNat → s'.vfd_table i = s.vfd_table i) ∧
      (pmemfile_vfd_ref s' old).2.pool = (s.store E).pool ∧
      (pmemfile_vfd_ref s' old).2.file = (s.store E).file ∧
      (pmemfile_vfd_ref (pmemfile_vfd_ref s' old).1 new).2.pool = (s.store E).pool ∧
      (pmemfile_vfd_ref (pmemfile_vfd_ref s' old).1 new).2.file = (s.store E).file ∧
      (pmemfile_vfd_ref s' old).2.internal = some E ∧
      (pmemfile_vfd_ref (pmemfile_vfd_ref s' old).1 new).2.internal = some E := by
  have hnew : is_in_vfd_table_range new = true := by
    simp only [is_in_vfd_table_range, Bool.and_eq_true, decide_eq_true_eq, VFD_TABLE_SIZE]
    exact ⟨hnew0, by omega⟩
  have hne : old.toNat ≠ new.toNat := by
    intro h
    rw [h, hempty] at hcell
    exact absurd hcell (by simp)
  have hc1 : (Function.update s.vfd_table new.toNat (some E)) old.toNat = some E := by
    rw [Function.update_noteq hne, hcell]
  have hrun : ∃ s', pmemfile_vfd_dup s old new = Except.ok (s', new) ∧
      s'.vfd_table = Function.update s.vfd_table new.toNat (some E) ∧
      s'.store E = ⟨(s.store E).pool, (s.store E).file, (s.store E).kernel_cwd_fd,
        (s.store E).is_special_cwd_desc, (s.store E).ref_count + 1⟩ := by
    simp only [pmemfile_vfd_dup, can_be_in_vfd_table, hold, hcell, syscall_returns_fd, hnew0,
      hnew, hempty, vf_ref_count_inc, Bool.not_true, Bool.false_eq_true, if_false,
      Option.isSome_some, if_true, ge_iff_le, Option.isSome_none]
    exact ⟨_, rfl, rfl, by simp⟩
  obtain ⟨s', hdup, htable, hstore⟩ := hrun
  have href1 := pmemfile_vfd_ref_occupied s' old E hold (by rw [htable]; exact hc1)
  have href2 := pmemfile_vfd_ref_occupied (vf_ref_count_inc s' E) new E hnew
    (by simp [vf_ref_count_inc, htable])
  refine ⟨s', hdup, ?_, ?_, ?_, ?_, ?_⟩
  · rw [htable]; simp
  · rw [htable]; exact hc1
  · rw [hstore]
  · intro i hi
    rw [htable, Function.update_noteq hi]
  · rw [href1]
    simp only
    rw [href2]
    simp [vf_ref_count_inc, hstore]

/-- The scenario of C3: cell 4 names entry 1 and the kernel's `dup` returns 5. -/
theorem dup_aliasing_witness :
    ∃ s', pmemfile_vfd_dup one_file_state 4 5 = Except.ok (s', 5) ∧
      s'.vfd_table (5 : Int).toNat = some 1 ∧ s'.vfd_table (4 : Int).toNat = some 1 ∧
      (s'.store 1).ref_count = (one_file_state.store 1).ref_count + 1 ∧
      (∀ i, i ≠ (5 : Int).toNat → s'.vfd_table i = one_file_state.vfd_table i) ∧
      (pmemfile_vfd_ref s' 4).2.pool = (one_file_state.store 1).pool ∧
      (pmemfile_vfd_ref s' 4).2.file = (one_file_state.store 1).file ∧
      (pmemfile_vfd_ref (pmemfile_vfd_ref s' 4).1 5).2.pool = (one_file_state.store 1).pool ∧
      (pmemfile_vfd_ref (pmemfile_vfd_ref s' 4).1 5).2.file = (one_file_state.store 1).file ∧
      (pmemfile_vfd_ref s' 4).2.internal = some 1 ∧
      (pmemfile_vfd_ref (pmemfile_vfd_ref s' 4).1 5).2.internal = some 1 :=
  dup_aliasing one_file_state 4 5 1 (by decide) (by decide) (by decide) (by decide) (by decide)

/-- What `unref_entry` does to the entry of an open file with count `c`. -/
theorem unref_entry_effect (s : vfd_state) (E P : Nat) (F : Option Nat) (c : Int)
    (hst : s.store E = ⟨some P, F, -1, false, c⟩) :
    ∃ s', unref_entry s (some E) = Except.ok s' ∧ s'.vfd_table = s.vfd_table ∧
      s'.cwd_entry = s.cwd_entry ∧ s'.store E = ⟨some P, F, -1, false, c - 1⟩ ∧
      (c = 1 → s'.events = s.events ++ [event.pmemfile_close (some P) F] ∧
        s'.insert_index = (s.insert_index + 1) % FREE_SLOTS_SIZE ∧
        s'.free_vfile_slots s.insert_index = some E) ∧
      (c ≠ 1 → s'.events = s.events ∧ s'.insert_index = s.insert_index ∧
        s'.free_vfile_slots = s.free_vfile_slots) := by
  by_cases hc : c = 1
  · subst hc
    simp only [unref_entry, vf_ref_count_dec_and_fetch, hst, Function.update_same,
      mark_as_free_file_slot, sub_self, if_true, Bool.false_eq_true, if_false, ne_eq,
      not_true_eq_false]
    exact ⟨_, rfl, rfl, rfl, by simp, fun _ => ⟨rfl, rfl, by simp⟩, fun h => h.elim⟩
  · have hc' : c - 1 ≠ 0 := by omega
    simp only [unref_entry, vf_ref_count_dec_and_fetch, hst, if_neg hc']
    exact ⟨_, rfl, rfl, rfl, by simp, fun h => absurd h hc, fun _ => ⟨rfl, rfl, rfl⟩⟩

theorem refs_to_cons (r : vfd_reference) (refs : List vfd_reference) (E : Nat) :
    refs_to (r :: refs) E = refs_to refs E + (if r.internal = some E then 1 else 0) := by
  unfold refs_to
  rw [List.countP_cons]
  simp

/-- The step `ref v` of the closing phase. -/
theorem entry_inv_ref (E P : Nat) (F : Option Nat) (fds : List Int) (c0 ins0 : Nat)
    (sys : vfd_system) (live closed : List Int) (v : Int)
    (hinv : entry_inv E P F fds c0 ins0 sys live closed) (hv : v ∈ fds) :
    ∃ sys', vfd_step sys (vfd_op.ref v) = Except.ok sys' ∧
      entry_inv E P F fds c0 ins0 sys' live closed := by
  have hr := hinv.in_range v hv
  by_cases hl : v ∈ live
  · have hcell := hinv.cell_live v hl
    have hlen : live.length ≠ 0 := by
      intro h
      rw [List.length_eq_zero] at h
      rw [h] at hl
      exact absurd hl (List.not_mem_nil v)
    refine ⟨_, rfl, ?_⟩
    simp only [pmemfile_vfd_ref_occupied sys.table v E hr hcell]
    constructor
    · simp only [vf_ref_count_inc, Function.update_same, refs_to_cons, if_true, hinv.store_eq]
      simp only [vfile_description.mk.injEq, true_and]
      push_cast
      ring
    · intro r hr'
      rcases List.mem_cons.mp hr' with h | h
      · right; rw [h]
      · exact hinv.refs_internal r h
    · exact hinv.live_nodup
    · exact hinv.live_iff
    · exact hinv.in_range
    · exact hinv.cell_live
    · exact hinv.cell_closed
    · intro _
      exact hinv.alive (by omega)
    · intro h
      simp only [refs_to_cons, if_true] at h
      omega
  · have hcell := hinv.cell_closed v hv hl
    refine ⟨_, rfl, ?_⟩
    simp only [pmemfile_vfd_ref_pass_through sys.table v (Or.inr hcell)]
    have hrt : refs_to (⟨none, none, v, none⟩ :: sys.refs) E = refs_to sys.refs E := by
      rw [refs_to_cons]; simp
    constructor
    · simp only [hrt]; exact hinv.store_eq
    · intro r hr'
      rcases List.mem_cons.mp hr' with h | h
      · left; rw [h]
      · exact hinv.refs_internal r h
    · exact hinv.live_nodup
    · exact hinv.live_iff
    · exact hinv.in_range
    · exact hinv.cell_live
    · exact hinv.cell_closed
    · simp only [hrt]; exact hinv.alive
    · simp only [hrt]; exact hinv.dead

theorem refs_to_eraseIdx (refs : List vfd_reference) (E k : Nat) (r : vfd_reference)
    (hk : refs[k]? = some r) :
    refs_to (refs.eraseIdx k) E + (if r.internal = some E then 1 else 0) = refs_to refs E := by
  induction refs generalizing k with
  | nil => simp at hk
  | cons a t ih =>
    cases k with
    | zero =>
      simp only [List.getElem?_cons_zero, Option.some.injEq] at hk
      subst hk
      simp only [List.eraseIdx_cons_zero, refs_to_cons]
    | succ k' =>
      simp only [List.getElem?_cons_succ] at hk
      simp only [List.eraseIdx_cons_succ, refs_to_cons]
      have := ih k' hk
      omega

theorem pmemfile_close_count_sys_close (s : vfd_state) (fd : Int) (pool file : Option Nat) :
    pmemfile_close_count (syscall_close s fd) pool file = pmemfile_close_count s pool file := by
  unfold pmemfile_close_count syscall_close
  rw [List.count_append, List.count_singleton]
  simp

/-- The step `unref k` of the closing phase. -/
theorem entry_inv_unref (E P : Nat) (F : Option Nat) (fds : List Int) (c0 ins0 : Nat)
    (sys : vfd_system) (live closed : List Int) (k : Nat)
    (hinv : entry_inv E P F fds c0 ins0 sys live closed) :
    ∃ sys', vfd_step sys (vfd_op.unref k) = Except.ok sys' ∧
      entry_inv E P F fds c0 ins0 sys' live closed := by
  cases hk : sys.refs[k]? with
  | none => exact ⟨sys, by simp [vfd_step, hk], hinv⟩
  | some r =>
    have hmem : r ∈ sys.refs := List.getElem?_mem hk
    have herase := refs_to_eraseIdx sys.refs E k r hk
    have hsub : ∀ r' ∈ sys.refs.eraseIdx k, r'.internal = none ∨ r'.internal = some E :=
      fun r' hr' => hinv.refs_internal r' (List.mem_of_mem_eraseIdx hr')
    rcases hinv.refs_internal r hmem with hint | hint
    · refine ⟨⟨sys.table, sys.refs.eraseIdx k⟩, by
        simp [vfd_step, hk, pmemfile_vfd_unref, hint, unref_entry], ?_⟩
      have hrt : refs_to (sys.refs.eraseIdx k) E = refs_to sys.refs E := by
        rw [hint] at herase
        simpa using herase
      constructor
      · simp only [hrt]; exact hinv.store_eq
      · exact hsub
      · exact hinv.live_nodup
      · exact hinv.live_iff
      · exact hinv.in_range
      · exact hinv.cell_live
      · exact hinv.cell_closed
      · simp only [hrt]; exact hinv.alive
      · simp only [hrt]; exact hinv.dead
    · have hrt : refs_to (sys.refs.eraseIdx k) E + 1 = refs_to sys.refs E := by
        rw [hint] at herase
        simpa using herase
      obtain ⟨s', hun, htab, _, hst, hlast, hmore⟩ :=
        unref_entry_effect sys.table E P F _ hinv.store_eq
      have halive := hinv.alive (by omega)
      refine ⟨⟨s', sys.refs.eraseIdx k⟩, by
        simp [vfd_step, hk, pmemfile_vfd_unref, hint, hun], ?_⟩
      constructor
      · simp only [hst, vfile_description.mk.injEq, true_and]
        omega
      · exact hsub
      · exact hinv.live_nodup
      · exact hinv.live_iff
      · exact hinv.in_range
      · intro v hv
        simp only [htab]
        exact hinv.cell_live v hv
      · intro v hv hl
        simp only [htab]
        exact hinv.cell_closed v hv hl
      · intro hne
        simp only at hne
        have hc : ((live.length + refs_to sys.refs E : Nat) : Int) ≠ 1 := by omega
        obtain ⟨hev, hins, _⟩ := hmore hc
        refine ⟨?_, by simp only [hins]; exact halive.2⟩
        simp only [pmemfile_close_count, hev]
        exact halive.1
      · intro hz
        simp only at hz
        have hc : ((live.length + refs_to sys.refs E : Nat) : Int) = 1 := by omega
        obtain ⟨hev, hins, hslot⟩ := hlast hc
        refine ⟨?_, by simp only [hins, halive.2], by rw [← halive.2]; exact hslot⟩
        simp only [pmemfile_close_count, hev, List.count_append, List.count_singleton]
        have := halive.1
        simp only [pmemfile_close_count] at this
        simp [this]

/-- The step `close v` of the closing phase. -/
theorem entry_inv_close (E P : Nat) (F : Option Nat) (fds : List Int) (c0 ins0 : Nat)
    (sys : vfd_system) (live closed : List Int) (v kret : Int)
    (hinv : entry_inv E P F fds c0 ins0 sys live closed) (hv : v ∈ fds) :
    ∃ sys', vfd_step sys (vfd_op.close v kret) = Except.ok sys' ∧
      entry_inv E P F fds c0 ins0 sys' (live.erase v) (v :: closed) := by
  have hr := hinv.in_range v hv
  by_cases hl : v ∈ live
  · have hcell := hinv.cell_live v hl
    have hlen : 1 ≤ live.length := List.length_pos_of_mem hl
    have hlen' : (live.erase v).length + 1 = live.length := by
      rw [List.length_erase_of_mem hl]; omega
    have hcan : can_be_in_vfd_table sys.table v = true := by
      simp [can_be_in_vfd_table, hr, hcell]
    obtain ⟨s', hun, htab, _, hst, hlast, hmore⟩ := unref_entry_effect
      (syscall_close { sys.table with vfd_table := Function.update sys.table.vfd_table v.toNat none } v)
      E P F _ hinv.store_eq
    have halive := hinv.alive (by omega)
    have hcount2 : pmemfile_close_count
        (syscall_close { sys.table with vfd_table := Function.update sys.table.vfd_table v.toNat none } v)
        (some P) F = c0 := by
      rw [pmemfile_close_count_sys_close]
      exact halive.1
    refine ⟨⟨s', sys.refs⟩, by simp [vfd_step, pmemfile_vfd_close, hcan, hcell, hun], ?_⟩
    constructor
    · simp only [hst, vfile_description.mk.injEq, true_and]
      omega
    · exact hinv.refs_internal
    · exact hinv.live_nodup.erase v
    · intro w
      rw [hinv.live_nodup.mem_erase_iff, hinv.live_iff w, List.mem_cons]
      tauto
    · exact hinv.in_range
    · intro w hw
      rw [hinv.live_nodup.mem_erase_iff] at hw
      have hwf := ((hinv.live_iff w).mp hw.2).1
      have hne : w.toNat ≠ v.toNat := fun h =>
        hw.1 (toNat_injective_in_range (hinv.in_range w hwf) hr h)
      simp only [htab, syscall_close, Function.update_noteq hne]
      exact hinv.cell_live w hw.2
    · intro w hw hnl
      simp only [htab, syscall_close]
      by_cases hwv : w = v
      · subst hwv
        simp
      · have hnl' : w ∉ live := fun h => hnl ((hinv.live_nodup.mem_erase_iff).mpr ⟨hwv, h⟩)
        have hne : w.toNat ≠ v.toNat := fun h =>
          hwv (toNat_injective_in_range (hinv.in_range w hw) hr h)
        rw [Function.update_noteq hne]
        exact hinv.cell_closed w hw hnl'
    · intro hne
      simp only at hne
      have hc : ((live.length + refs_to sys.refs E : Nat) : Int) ≠ 1 := by omega
      obtain ⟨hev, hins, _⟩ := hmore hc
      refine ⟨?_, by simp only [hins, syscall_close]; exact halive.2⟩
      have := hcount2
      simp only [pmemfile_close_count] at this ⊢
      rw [hev]
      exact this
    · intro hz
      simp only at hz
      have hc : ((live.length + refs_to sys.refs E : Nat) : Int) = 1 := by omega
      obtain ⟨hev, hins, hslot⟩ := hlast hc
      refine ⟨?_, by simp only [hins, syscall_close, halive.2], ?_⟩
      · have := hcount2
        simp only [pmemfile_close_count] at this ⊢
        rw [hev, List.count_append, List.count_singleton, this]
        simp
      · rw [← halive.2]
        exact hslot
  · have hcell := hinv.cell_closed v hv hl
    have hcan : can_be_in_vfd_table sys.table v = false := by
      simp [can_be_in_vfd_table, hr, hcell]
    refine ⟨⟨syscall_close sys.table v, sys.refs⟩, by
      simp [vfd_step, pmemfile_vfd_close, hcan], ?_⟩
    rw [List.erase_of_not_mem hl]
    constructor
    · exact hinv.store_eq
    · exact hinv.refs_internal
    · exact hinv.live_nodup
    · intro w
      rw [hinv.live_iff w, List.mem_cons]
      constructor
      · rintro ⟨h1, h2⟩
        refine ⟨h1, ?_⟩
        rintro (h | h)
        · subst h
          exact hl ((hinv.live_iff w).mpr ⟨h1, h2⟩)
        · exact h2 h
      · rintro ⟨h1, h2⟩
        exact ⟨h1, fun h => h2 (Or.inr h)⟩
    · exact hinv.in_range
    · exact hinv.cell_live
    · exact hinv.cell_closed
    · intro hne
      rw [pmemfile_close_count_sys_close]
      exact hinv.alive hne
    · intro hz
      rw [pmemfile_close_count_sys_close]
      exact hinv.dead hz

/-- A run of operations of the closing phase keeps the state of the entry. -/
theorem entry_inv_run (E P : Nat) (F : Option Nat) (fds : List Int) (c0 ins0 : Nat)
    (ops : List vfd_op) : ∀ (sys : vfd_system) (live closed : List Int),
    entry_inv E P F fds c0 ins0 sys live closed → (∀ op ∈ ops, close_phase_op fds op) →
    ∃ sys' live', vfd_steps sys ops = Except.ok sys' ∧
      entry_inv E P F fds c0 ins0 sys' live' ((ops.filterMap closed_fd).reverse ++ closed) := by
  induction ops with
  | nil =>
    intro sys live closed hinv _
    exact ⟨sys, live, rfl, by simpa using hinv⟩
  | cons op rest ih =>
    intro sys live closed hinv hops
    have hop := hops op (List.mem_cons_self _ _)
    have hrest : ∀ o ∈ rest, close_phase_op fds o := fun o ho =>
      hops o (List.mem_cons_of_mem _ ho)
    cases op with
    | ref v =>
      obtain ⟨sys1, hstep, hinv1⟩ := entry_inv_ref E P F fds c0 ins0 sys live closed v hinv hop
      obtain ⟨sys', live', hrun, hinv'⟩ := ih sys1 live closed hinv1 hrest
      exact ⟨sys', live', by simp only [vfd_steps, hstep, hrun], by simpa [closed_fd] using hinv'⟩
    | unref k =>
      obtain ⟨sys1, hstep, hinv1⟩ := entry_inv_unref E P F fds c0 ins0 sys live closed k hinv
      obtain ⟨sys', live', hrun, hinv'⟩ := ih sys1 live closed hinv1 hrest
      exact ⟨sys', live', by simp only [vfd_steps, hstep, hrun], by simpa [closed_fd] using hinv'⟩
    | close v kret =>
      obtain ⟨sys1, hstep, hinv1⟩ :=
        entry_inv_close E P F fds c0 ins0 sys live closed v kret hinv hop
      obtain ⟨sys', live', hrun, hinv'⟩ := ih sys1 (live.erase v) (v :: closed) hinv1 hrest
      refine ⟨sys', live', by simp only [vfd_steps, hstep, hrun], ?_⟩
      simpa [closed_fd, List.append_assoc] using hinv'
    | at_ref v => exact absurd hop (by simp [close_phase_op])
    | dup a b => exact absurd hop (by simp [close_phase_op])
    | dup2 a b c => exact absurd hop (by simp [close_phase_op])
    | assign a b c d => exact absurd hop (by simp [close_phase_op])
    | chdir_pf a b => exact absurd hop (by simp [close_phase_op])
    | chdir_kernel_fd a b => exact absurd hop (by simp [close_phase_op])
    | fchdir a b c => exact absurd hop (by simp [close_phase_op])

/-- The number of outstanding references after a run. -/
theorem refs_length_after (ops : List vfd_op) : ∀ (sys sys' : vfd_system),
    vfd_steps sys ops = Except.ok sys' →
    sys'.refs.length = outstanding_after sys.refs.length ops := by
  induction ops with
  | nil =>
    intro sys sys' h
    simp only [vfd_steps, Except.ok.injEq] at h
    subst h
    rfl
  | cons op rest ih =>
    intro sys sys' h
    simp only [vfd_steps] at h
    cases hstep : vfd_step sys op with
    | error f => rw [hstep] at h; simp at h
    | ok sys1 =>
      rw [hstep] at h
      simp only at h
      rw [ih sys1 sys' h]
      cases op with
      | ref v =>
        simp only [vfd_step, Except.ok.injEq] at hstep
        subst hstep
        simp [outstanding_after]
      | at_ref v =>
        simp only [vfd_step] at hstep
        split at hstep
        · simp at hstep
        · simp only [Except.ok.injEq] at hstep
          subst hstep
          simp [outstanding_after]
      | unref k =>
        simp only [vfd_step] at hstep
        split at hstep
        · rename_i hk
          simp only [Except.ok.injEq] at hstep
          subst hstep
          have : ¬ k < sys.refs.length := by
            intro hlt
            rw [List.getElem?_eq_getElem hlt] at hk
            simp at hk
          simp [outstanding_after, this]
        · rename_i r hk
          split at hstep
          · simp at hstep
          · simp only [Except.ok.injEq] at hstep
            subst hstep
            have hlt : k < sys.refs.length := by
              by_contra hge
              rw [List.getElem?_eq_none (not_lt.mp hge)] at hk
              simp at hk
            simp [outstanding_after, hlt, List.length_eraseIdx]
      | dup a b =>
        simp only [vfd_step] at hstep
        split at hstep
        · simp at hstep
        · simp only [Except.ok.injEq] at hstep
          subst hstep
          simp [outstanding_after]
      | dup2 a b c =>
        simp only [vfd_step] at hstep
        split at hstep
        · simp at hstep
        · simp only [Except.ok.injEq] at hstep
          subst hstep
          simp [outstanding_after]
      | close a b =>
        simp only [vfd_step] at hstep
        split at hstep
        · simp at hstep
        · simp only [Except.ok.injEq] at hstep
          subst hstep
          simp [outstanding_after]
      | assign a b c d =>
        simp only [vfd_step] at hstep
        split at hstep
        · simp at hstep
        · simp only [Except.ok.injEq] at hstep
          subst hstep
          simp [outstanding_after]
      | chdir_pf a b =>
        simp only [vfd_step] at hstep
        split at hstep
        · simp at hstep
        · simp only [Except.ok.injEq] at hstep
          subst hstep
          simp [outstanding_after]
      | chdir_kernel_fd a b =>
        simp only [vfd_step] at hstep
        split at hstep
        · simp at hstep
        · simp only [Except.ok.injEq] at hstep
          subst hstep
          simp [outstanding_after]
      | fchdir a b c =>
        simp only [vfd_step] at hstep
        split at hstep
        · simp at hstep
        · simp only [Except.ok.injEq] at hstep
          subst hstep
          simp [outstanding_after]

/-- What `acquire_new_fd` leaves as it was, and the range of a descriptor it
returns. -/
theorem acquire_new_fd_frame (s : vfd_state) (m o : Int) :
    (acquire_new_fd s m o).1.store = s.store ∧
    (acquire_new_fd s m o).1.vfd_table = s.vfd_table ∧
    (acquire_new_fd s m o).1.free_vfile_slots = s.free_vfile_slots ∧
    (acquire_new_fd s m o).1.fetch_index = s.fetch_index ∧
    (acquire_new_fd s m o).1.insert_index = s.insert_index ∧
    (acquire_new_fd s m o).1.cwd_entry = s.cwd_entry ∧
    (∀ pool file, pmemfile_close_count (acquire_new_fd s m o).1 pool file =
      pmemfile_close_count s pool file) ∧
    (0 ≤ (acquire_new_fd s m o).2 → is_in_vfd_table_range (acquire_new_fd s m o).2 = true) := by
  unfold acquire_new_fd
  simp only
  split_ifs <;>
    simp_all [syscall_returns_fd, syscall_close, pmemfile_close_count, is_in_vfd_table_range,
      ENFILE, List.count_append, List.count_singleton]

/-- What `pmemfile_vfd_assign` does when the kernel hands out the descriptor
`f1` and the free ring hands out the entry `E`. -/
theorem pmemfile_vfd_assign_effect (s0 : vfd_state) (P E : Nat) (F : Option Nat)
    (m o f1 : Int) (hslot : s0.free_vfile_slots s0.fetch_index = some E)
    (hf1 : (acquire_new_fd s0 m o).2 = f1) (hnn : 0 ≤ f1) :
    ∃ s1, pmemfile_vfd_assign s0 (some P) F m o = Except.ok (s1, f1) ∧
      is_in_vfd_table_range f1 = true ∧
      s1.store E = ⟨some P, F, -1, false, 1⟩ ∧
      s1.vfd_table = Function.update s0.vfd_table f1.toNat (some E) ∧
      s1.insert_index = s0.insert_index ∧
      pmemfile_close_count s1 (some P) F = pmemfile_close_count s0 (some P) F := by
  obtain ⟨_, htab, hslots, hfetch, hins, _, hcount, hrange⟩ := acquire_new_fd_frame s0 m o
  have hslot' : (acquire_new_fd s0 m o).1.free_vfile_slots (acquire_new_fd s0 m o).1.fetch_index
      = some E := by rw [hslots, hfetch]; exact hslot
  simp only [pmemfile_vfd_assign, hf1, if_neg (not_lt.mpr hnn), fetch_free_file_slot, hslot',
    store_entry]
  refine ⟨_, rfl, by rw [← hf1] at hnn ⊢; exact hrange hnn, by simp, by simp [htab], by simp [hins],
    ?_⟩
  have := hcount (some P) F
  simpa [pmemfile_close_count] using this

/-- What `pmemfile_vfd_dup` does on an occupied cell when the kernel returns a
descriptor inside the table whose cell is empty. -/
theorem pmemfile_vfd_dup_effect (s : vfd_state) (old new : Int) (E : Nat)
    (hold : is_in_vfd_table_range old = true) (hcell : s.vfd_table old.toNat = some E)
    (hnew : is_in_vfd_table_range new = true) (hempty : s.vfd_table new.toNat = none) :
    ∃ s', pmemfile_vfd_dup s old new = Except.ok (s', new) ∧
      s'.vfd_table = Function.update s.vfd_table new.toNat (some E) ∧
      s'.store E = ⟨(s.store E).pool, (s.store E).file, (s.store E).kernel_cwd_fd,
        (s.store E).is_special_cwd_desc, (s.store E).ref_count + 1⟩ ∧
      s'.insert_index = s.insert_index ∧
      s'.events = s.events ++ [event.sys_dup old new] := by
  have hnew0 : 0 ≤ new := by
    simp only [is_in_vfd_table_range, Bool.and_eq_true, decide_eq_true_eq] at hnew
    exact hnew.1
  simp only [pmemfile_vfd_dup, can_be_in_vfd_table, hold, hcell, syscall_returns_fd, hnew0,
    hnew, hempty, vf_ref_count_inc, Bool.not_true, Bool.false_eq_true, if_false,
    Option.isSome_some, if_true, ge_iff_le, Option.isSome_none]
  exact ⟨_, rfl, rfl, by simp, rfl, rfl⟩

/-- The `dup` calls of a valid list make every descriptor they return name the
entry, and count each of them. -/
theorem dups_run (E P : Nat) (F : Option Nat) (table0 : Nat → Option Nat) (c0 ins0 : Nat)
    (dups : List (Int × Int)) : ∀ (s : vfd_state) (fds : List Int),
    s.store E = ⟨some P, F, -1, false, ((fds.length : Nat) : Int)⟩ → fds.Nodup →
    (∀ v ∈ fds, is_in_vfd_table_range v = true ∧ s.vfd_table v.toNat = some E) →
    (∀ v, is_in_vfd_table_range v = true → v ∉ fds → s.vfd_table v.toNat = table0 v.toNat) →
    pmemfile_close_count s (some P) F = c0 → s.insert_index = ins0 →
    dups_valid table0 fds dups →
    ∃ s', vfd_steps ⟨s, []⟩ (dups.map (fun d => vfd_op.dup d.1 d.2)) = Except.ok ⟨s', []⟩ ∧
      s'.store E = ⟨some P, F, -1, false, (((dup_fds fds dups).length : Nat) : Int)⟩ ∧
      (dup_fds fds dups).Nodup ∧
      (∀ v ∈ dup_fds fds dups, is_in_vfd_table_range v = true ∧ s'.vfd_table v.toNat = some E) ∧
      pmemfile_close_count s' (some P) F = c0 ∧ s'.insert_index = ins0 ∧
      (dup_fds fds dups).length = fds.length + dups.length := by
  induction dups with
  | nil =>
    intro s fds hst hnd hcells _ hcount hins _
    exact ⟨s, rfl, hst, hnd, hcells, hcount, hins, rfl⟩
  | cons d rest ih =>
    intro s fds hst hnd hcells hframe hcount hins hvalid
    obtain ⟨hold, hnewr, hnewn, hempty0, hrest⟩ := hvalid
    have hempty : s.vfd_table d.2.toNat = none := by
      rw [hframe d.2 hnewr hnewn]; exact hempty0
    obtain ⟨s1, hdup, htab, hst1, hins1, hev1⟩ :=
      pmemfile_vfd_dup_effect s d.1 d.2 E (hcells d.1 hold).1 (hcells d.1 hold).2 hnewr hempty
    have hstep : vfd_step ⟨s, []⟩ (vfd_op.dup d.1 d.2) = Except.ok ⟨s1, []⟩ := by
      simp [vfd_step, hdup]
    have hne : ∀ v ∈ fds, v.toNat ≠ d.2.toNat := by
      intro v hv h
      exact hnewn (toNat_injective_in_range (hcells v hv).1 hnewr h ▸ hv)
    obtain ⟨s', hrun, hst', hnd', hcells', hcount', hins', hlen'⟩ := ih s1 (d.2 :: fds)
      (by rw [hst1, hst]; simp)
      (List.nodup_cons.mpr ⟨hnewn, hnd⟩)
      (by
        intro v hv
        rcases List.mem_cons.mp hv with h | h
        · subst h
          exact ⟨hnewr, by rw [htab]; simp⟩
        · exact ⟨(hcells v h).1, by rw [htab, Function.update_noteq (hne v h)]; exact (hcells v h).2⟩)
      (by
        intro v hv hnot
        have hvn : v ≠ d.2 := fun h => hnot (h ▸ List.mem_cons_self _ _)
        have hvf : v ∉ fds := fun h => hnot (List.mem_cons_of_mem _ h)
        have hne' : v.toNat ≠ d.2.toNat := fun h => hvn (toNat_injective_in_range hv hnewr h)
        rw [htab, Function.update_noteq hne']
        exact hframe v hv hvf)
      (by
        simp only [pmemfile_close_count, hev1, List.count_append, List.count_singleton]
        simp only [pmemfile_close_count] at hcount
        simp [hcount])
      (by rw [hins1]; exact hins)
      hrest
    refine ⟨s', ?_, hst', hnd', hcells', hcount', hins', ?_⟩
    · simp only [List.map_cons, vfd_steps, hstep]
      exact hrun
    · simp only [dup_fds] at hlen' ⊢
      simp only [List.length_cons] at hlen' ⊢
      omega

/-- C4: for every `n ≥ 1` (here `n = dups.length + 1`), after
`pmemfile_vfd_assign` of a file `(P, F)` followed by `n - 1` successful
`pmemfile_vfd_dup` calls, `n` distinct cells name one entry whose `ref_count` is
`n`; then, for every sequence of `pmemfile_vfd_ref` calls on these descriptors,
`pmemfile_vfd_unref` calls of outstanding references and `pmemfile_vfd_close`
calls that closes the `n` descriptors in any order and releases every reference
taken, `pmemfile_close` is invoked on the file exactly once, namely by the
operation that brings `ref_count` to zero and not before, every one of the `n`
cells is none at the end (so that `pmemfile_vfd_ref` returns a pass-through
reference for it), and the entry has been put into the free ring once. -/
theorem close_exactly_once (s0 : vfd_state) (P E : Nat) (F : Option Nat)
    (memfd_ret open_ret f1 : Int) (dups : List (Int × Int)) (ops : List vfd_op)
    (hslot : s0.free_vfile_slots s0.fetch_index = some E)
    (hf1 : (acquire_new_fd s0 memfd_ret open_ret).2 = f1) (hnn : 0 ≤ f1)
    (hdups : dups_valid s0.vfd_table [f1] dups)
    (hops : ∀ op ∈ ops, close_phase_op (dup_fds [f1] dups) op)
    (hperm : (ops.filterMap closed_fd).Perm (dup_fds [f1] dups))
    (hbal : outstanding_after 0 ops = 0) :
    ∃ s1 sD sN,
      pmemfile_vfd_assign s0 (some P) F memfd_ret open_ret = Except.ok (s1, f1) ∧
      vfd_steps ⟨s1, []⟩ (dups.map (fun d => vfd_op.dup d.1 d.2)) = Except.ok ⟨sD, []⟩ ∧
      vfd_steps ⟨sD, []⟩ ops = Except.ok ⟨sN, []⟩ ∧
      (dup_fds [f1] dups).length = dups.length + 1 ∧ (dup_fds [f1] dups).Nodup ∧
      (∀ v ∈ dup_fds [f1] dups, sD.vfd_table v.toNat = some E) ∧
      (sD.store E).ref_count = ((dups.length + 1 : Nat) : Int) ∧
      pmemfile_close_count sN (some P) F = pmemfile_close_count s0 (some P) F + 1 ∧
      (∀ k sysK, vfd_steps ⟨sD, []⟩ (ops.take k) = Except.ok sysK →
        pmemfile_close_count sysK.table (some P) F = pmemfile_close_count s0 (some P) F +
          (if (sysK.table.store E).ref_count = 0 then 1 else 0)) ∧
      (∀ v ∈ dup_fds [f1] dups, sN.vfd_table v.toNat = none ∧
        pmemfile_vfd_ref sN v = (sN, ⟨none, none, v, none⟩)) ∧
      sN.free_vfile_slots s0.insert_index = some E ∧
      sN.insert_index = (s0.insert_index + 1) % FREE_SLOTS_SIZE := by
  obtain ⟨s1, hassign, hf1r, hst1, htab1, hins1, hcount1⟩ :=
    pmemfile_vfd_assign_effect s0 P E F memfd_ret open_ret f1 hslot hf1 hnn
  obtain ⟨sD, hrunD, hstD, hndD, hcellsD, hcountD, hinsD, hlenD⟩ :=
    dups_run E P F s0.vfd_table (pmemfile_close_count s0 (some P) F) s0.insert_index dups s1 [f1]
      (by rw [hst1]; simp) (List.nodup_singleton f1)
      (by
        intro v hv
        rw [List.mem_singleton] at hv
        subst hv
        exact ⟨hf1r, by rw [htab1]; simp⟩)
      (by
        intro v hv hnot
        have hne : v.toNat ≠ f1.toNat := fun h =>
          hnot (List.mem_singleton.mpr (toNat_injective_in_range hv hf1r h))
        rw [htab1, Function.update_noteq hne])
      hcount1 hins1 hdups
  have hlen : (dup_fds [f1] dups).length = dups.length + 1 := by
    rw [hlenD]; simp; omega
  have hinvD : entry_inv E P F (dup_fds [f1] dups) (pmemfile_close_count s0 (some P) F)
      s0.insert_index ⟨sD, []⟩ (dup_fds [f1] dups) [] := by
    constructor
    · simp only [hstD, refs_to, List.countP_nil, Nat.add_zero]
    · intro r hr; simp at hr
    · exact hndD
    · intro v; simp
    · exact fun v hv => (hcellsD v hv).1
    · exact fun v hv => (hcellsD v hv).2
    · intro v hv hnot; exact absurd hv hnot
    · intro _; exact ⟨hcountD, hinsD⟩
    · intro hz; simp only [refs_to, List.countP_nil, Nat.add_zero] at hz; omega
  have hbefore : ∀ k sysK, vfd_steps ⟨sD, []⟩ (ops.take k) = Except.ok sysK →
      pmemfile_close_count sysK.table (some P) F = pmemfile_close_count s0 (some P) F +
        (if (sysK.table.store E).ref_count = 0 then 1 else 0) := by
    intro k sysK hK
    obtain ⟨sys', live', hrun', hinv'⟩ := entry_inv_run E P F (dup_fds [f1] dups)
      (pmemfile_close_count s0 (some P) F) s0.insert_index (ops.take k) ⟨sD, []⟩
      (dup_fds [f1] dups) [] hinvD (fun op hop => hops op (List.mem_of_mem_take hop))
    rw [hrun'] at hK
    simp only [Except.ok.injEq] at hK
    subst hK
    rw [hinv'.store_eq]
    by_cases hz : live'.length + refs_to sys'.refs E = 0
    · rw [(hinv'.dead hz).1]
      simp [hz]
    · rw [(hinv'.alive hz).1]
      have : ((live'.length + refs_to sys'.refs E : Nat) : Int) ≠ 0 := by omega
      simp only [this, if_false, Nat.add_zero]
  obtain ⟨sysN, liveN, hrunN, hinvN⟩ := entry_inv_run E P F (dup_fds [f1] dups)
    (pmemfile_close_count s0 (some P) F) s0.insert_index ops ⟨sD, []⟩
    (dup_fds [f1] dups) [] hinvD hops
  have hliveN : liveN = [] := by
    apply List.eq_nil_iff_forall_not_mem.mpr
    intro v hv
    obtain ⟨hvf, hvc⟩ := (hinvN.live_iff v).mp hv
    apply hvc
    simp only [List.append_nil, List.mem_reverse]
    exact hperm.mem_iff.mpr hvf
  have hrefsN : sysN.refs = [] := by
    have := refs_length_after ops ⟨sD, []⟩ sysN hrunN
    simp only [List.length_nil, hbal] at this
    exact List.length_eq_zero.mp this
  subst hliveN
  have hzero : ([] : List Int).length + refs_to sysN.refs E = 0 := by
    rw [hrefsN]; rfl
  obtain ⟨hc, hi, hs⟩ := hinvN.dead hzero
  have hsysN : sysN = ⟨sysN.table, []⟩ := by
    cases sysN
    simp only at hrefsN
    rw [hrefsN]
  refine ⟨s1, sD, sysN.table, hassign, hrunD, by rw [← hsysN]; exact hrunN, hlen, hndD,
    fun v hv => (hcellsD v hv).2, by rw [hstD, hlen], hc, hbefore, ?_, hs, hi⟩
  intro v hv
  have hcell := hinvN.cell_closed v hv (List.not_mem_nil v)
  exact ⟨hcell, pmemfile_vfd_ref_pass_through sysN.table v (Or.inr hcell)⟩

/-- The scenario of C4: a file assigned to descriptor 4 and duplicated to
descriptor 5, closed by `two_descriptor_ops`. -/
theorem close_exactly_once_witness :
    ∃ s1 sD sN,
      pmemfile_vfd_assign state_after_init (some 1) (some 10) 4 (-1) = Except.ok (s1, 4) ∧
      vfd_steps ⟨s1, []⟩ ([((4 : Int), (5 : Int))].map (fun d => vfd_op.dup d.1 d.2)) =
        Except.ok ⟨sD, []⟩ ∧
      vfd_steps ⟨sD, []⟩ two_descriptor_ops = Except.ok ⟨sN, []⟩ ∧
      (dup_fds [4] [(4, 5)]).length = [((4 : Int), (5 : Int))].length + 1 ∧
      (dup_fds [4] [(4, 5)]).Nodup ∧
      (∀ v ∈ dup_fds [4] [(4, 5)], sD.vfd_table v.toNat = some 1) ∧
      (sD.store 1).ref_count = (([((4 : Int), (5 : Int))].length + 1 : Nat) : Int) ∧
      pmemfile_close_count sN (some 1) (some 10) =
        pmemfile_close_count state_after_init (some 1) (some 10) + 1 ∧
      (∀ k sysK, vfd_steps ⟨sD, []⟩ (two_descriptor_ops.take k) = Except.ok sysK →
        pmemfile_close_count sysK.table (some 1) (some 10) =
          pmemfile_close_count state_after_init (some 1) (some 10) +
            (if (sysK.table.store 1).ref_count = 0 then 1 else 0)) ∧
      (∀ v ∈ dup_fds [4] [(4, 5)], sN.vfd_table v.toNat = none ∧
        pmemfile_vfd_ref sN v = (sN, ⟨none, none, v, none⟩)) ∧
      sN.free_vfile_slots state_after_init.insert_index = some 1 ∧
      sN.insert_index = (state_after_init.insert_index + 1) % FREE_SLOTS_SIZE :=
  close_exactly_once state_after_init 1 1 (some 10) 4 (-1) 4 [(4, 5)] two_descriptor_ops
    (by decide) (by decide) (by decide)
    ⟨by decide, by decide, by decide, by decide, trivial⟩
    (by
      intro op hop
      simp only [two_descriptor_ops, List.mem_cons, List.mem_singleton, List.not_mem_nil,
        or_false] at hop
      rcases hop with h | h | h | h <;> subst h <;> simp [close_phase_op, dup_fds])
    (by decide) (by decide)

/-- The state `state_after_init` is the one `pmemfile_vfd_table_init` returns. -/
theorem state_after_init_eq :
    pmemfile_vfd_table_init standard_fds 3 3 = Except.ok state_after_init := by
  rw [pmemfile_vfd_table_init_eq standard_fds 3 3 (by decide)]
  congr 1
  simp only [state_after_init, vfd_state.mk.injEq, true_and]
  refine ⟨by decide, ?_, by simp [check_memfd_syscall, syscall_returns_fd, syscall_close, vfd_state_zero]⟩
  funext fd
  simp only [check_memfd_syscall, syscall_returns_fd, syscall_close, vfd_state_zero, standard_fds]
  by_cases h : fd = 3
  · subst h; simp
  · simp only [Function.update_noteq h, standard_fds, ge_iff_le, Int.reduceLE, if_true,
      Function.update_noteq h]
    rw [Bool.eq_iff_iff]
    simp only [decide_eq_true_eq]
    omega

/-! ## Theorems, part III: further claims on both parts -/

/-- With length 0 every call with a count above zero is declined and leaves
the iterator and the buffer as they are, whatever the vinode. -/
theorem try_read_fastpath_invalid (i : lock_free_iterator) (v1 v2 : pmemfile_vinode)
    (pmem buffer : Nat → Nat) (count : Nat) (hlen : i.length = 0) (hpos : 0 < count) :
    try_read_fastpath (some i) v1 v2 pmem buffer count = ⟨-1, some i, buffer⟩ := by
  unfold try_read_fastpath
  rw [if_neg (by omega)]
  simp [is_lfit_initialized, hlen]

/-- C11: for every iterator, vinode and block, `lfit_setup` with
`offset ≥ file_size` sets `length` to 0 and changes no other field of the
iterator; afterwards every `try_read_fastpath` with `count > 0` returns `-1`,
whatever the vinode counters are, and leaves the iterator as it is, so that the
calls that follow are declined as well (also in any sequence of calls) until
`lfit_setup` runs again; a `NULL` iterator stays `NULL` and is declined too. -/
theorem eof_invalidation (it : lock_free_iterator) (v : pmemfile_vinode) (block : Option Nat)
    (offset file_size : Nat) (hoff : file_size ≤ offset) :
    lfit_setup (some it) v block offset file_size = some { it with length := 0 } ∧
    (∀ (v1 v2 : pmemfile_vinode) (pmem buffer : Nat → Nat) (count : Nat), 0 < count →
      try_read_fastpath (some { it with length := 0 }) v1 v2 pmem buffer count =
        ⟨-1, some { it with length := 0 }, buffer⟩) ∧
    (∀ (v1 : pmemfile_vinode) (pmem : Nat → Nat) (reqs : List read_request) (k : Nat)
      (r : read_request) (o : read_outcome), reqs[k]? = some r →
      (read_run v1 pmem (some { it with length := 0 }) reqs)[k]? = some o → 0 < r.count →
      o.ret = -1 ∧ o.it = some { it with length := 0 }) ∧
    lfit_setup none v block offset file_size = none ∧
    (∀ (v1 v2 : pmemfile_vinode) (pmem buffer : Nat → Nat) (count : Nat), 0 < count →
      try_read_fastpath none v1 v2 pmem buffer count = ⟨-1, none, buffer⟩) := by
  refine ⟨?_, ?_, ?_, rfl, ?_⟩
  · simp [lfit_setup, hoff, lfit_invalidate]
  · intro v1 v2 pmem buffer count hpos
    exact try_read_fastpath_invalid _ v1 v2 pmem buffer count rfl hpos
  · intro v1 pmem reqs
    induction reqs with
    | nil => intro k r o hr; simp at hr
    | cons q rest ih =>
      intro k r o hr ho hpos
      have hstay : (try_read_fastpath (some { it with length := 0 }) v1 v1 pmem q.buffer
          q.count).it = some { it with length := 0 } := by
        by_cases hq : q.count = 0
        · simp [try_read_fastpath, hq]
        · rw [try_read_fastpath_invalid _ v1 v1 pmem q.buffer q.count rfl (by omega)]
      cases k with
      | zero =>
        simp only [List.getElem?_cons_zero, Option.some.injEq] at hr
        simp only [read_run, List.getElem?_cons_zero, Option.some.injEq] at ho
        subst hr
        subst ho
        rw [try_read_fastpath_invalid _ v1 v1 pmem q.buffer q.count rfl hpos]
        exact ⟨rfl, rfl⟩
      | succ k' =>
        simp only [List.getElem?_cons_succ] at hr
        simp only [read_run, List.getElem?_cons_succ, hstay] at ho
        exact ih k' r o hr ho hpos
  · intro v1 v2 pmem buffer count hpos
    unfold try_read_fastpath
    rw [if_neg (by omega)]
    simp [is_lfit_initialized]

/-- The scenario of C11: `lfit_setup` at offset 200 of a file of 200 bytes. -/
theorem eof_invalidation_witness :
    lfit_setup (some ⟨some 0, 5, 5, some 1010, 4086⟩) ⟨[⟨1000, 4096, 1, 0⟩], 6, 6⟩ (some 0)
      200 200 = some { (⟨some 0, 5, 5, some 1010, 4086⟩ : lock_free_iterator) with length := 0 } ∧
    (∀ (v1 v2 : pmemfile_vinode) (pmem buffer : Nat → Nat) (count : Nat), 0 < count →
      try_read_fastpath
        (some { (⟨some 0, 5, 5, some 1010, 4086⟩ : lock_free_iterator) with length := 0 })
        v1 v2 pmem buffer count =
        ⟨-1, some { (⟨some 0, 5, 5, some 1010, 4086⟩ : lock_free_iterator) with length := 0 },
          buffer⟩) ∧
    (∀ (v1 : pmemfile_vinode) (pmem : Nat → Nat) (reqs : List read_request) (k : Nat)
      (r : read_request) (o : read_outcome), reqs[k]? = some r →
      (read_run v1 pmem
        (some { (⟨some 0, 5, 5, some 1010, 4086⟩ : lock_free_iterator) with length := 0 })
        reqs)[k]? = some o → 0 < r.count →
      o.ret = -1 ∧
      o.it = some { (⟨some 0, 5, 5, some 1010, 4086⟩ : lock_free_iterator) with length := 0 }) ∧
    lfit_setup none ⟨[⟨1000, 4096, 1, 0⟩], 6, 6⟩ (some 0) 200 200 = none ∧
    (∀ (v1 v2 : pmemfile_vinode) (pmem buffer : Nat → Nat) (count : Nat), 0 < count →
      try_read_fastpath none v1 v2 pmem buffer count = ⟨-1, none, buffer⟩) :=
  eof_invalidation ⟨some 0, 5, 5, some 1010, 4086⟩ ⟨[⟨1000, 4096, 1, 0⟩], 6, 6⟩ (some 0) 200 200
    (by decide)

/-- C14: for every state, pool and file, if the placeholder descriptor obtained
from the kernel is at least `0x8000`, `pmemfile_vfd_assign` closes that
descriptor, returns `-ENFILE`, fetches no entry from the free ring and leaves
every cell and `cwd_entry` unchanged; if the kernel returns a negative error, it
is returned unchanged and neither the table nor the kernel's set of open
descriptors changes; and whenever `pmemfile_vfd_assign` returns a non-negative
value `v`, `v ≤ 0x8000 - 1`. -/
theorem assign_range_limit (s : vfd_state) (pool file : Option Nat) (memfd_ret open_ret : Int) :
    ((0x8000 : Int) ≤ placeholder_fd s memfd_ret open_ret →
      ∃ s', pmemfile_vfd_assign s pool file memfd_ret open_ret = Except.ok (s', -ENFILE) ∧
        s'.events.getLast? = some (event.sys_close (placeholder_fd s memfd_ret open_ret)) ∧
        s'.kernel_fds (placeholder_fd s memfd_ret open_ret) = false ∧
        s'.fetch_index = s.fetch_index ∧ s'.free_vfile_slots = s.free_vfile_slots ∧
        s'.insert_index = s.insert_index ∧ s'.vfd_table = s.vfd_table ∧
        s'.cwd_entry = s.cwd_entry ∧ s'.store = s.store) ∧
    (placeholder_fd s memfd_ret open_ret < 0 →
      ∃ s', pmemfile_vfd_assign s pool file memfd_ret open_ret =
          Except.ok (s', placeholder_fd s memfd_ret open_ret) ∧
        s'.kernel_fds = s.kernel_fds ∧
        s'.fetch_index = s.fetch_index ∧ s'.free_vfile_slots = s.free_vfile_slots ∧
        s'.insert_index = s.insert_index ∧ s'.vfd_table = s.vfd_table ∧
        s'.cwd_entry = s.cwd_entry ∧ s'.store = s.store) ∧
    (∀ (s' : vfd_state) (v : Int),
      pmemfile_vfd_assign s pool file memfd_ret open_ret = Except.ok (s', v) → 0 ≤ v →
      v ≤ 0x8000 - 1) := by
  refine ⟨?_, ?_, ?_⟩
  · intro hbig
    unfold placeholder_fd at hbig ⊢
    cases hm : s.is_memfd_syscall_available with
    | true =>
      by_cases hneg : memfd_ret < 0
      · simp only [hm, if_true, if_pos hneg] at hbig ⊢
        have h0 : 0 ≤ open_ret := by omega
        simp [pmemfile_vfd_assign, acquire_new_fd, hm, hneg, VFD_TABLE_SIZE, hbig, ENFILE,
          syscall_close, syscall_returns_fd, h0]
      · simp only [hm, if_true, if_neg hneg] at hbig ⊢
        simp [pmemfile_vfd_assign, acquire_new_fd, hm, hneg, VFD_TABLE_SIZE, hbig, ENFILE,
          syscall_close, syscall_returns_fd]
    | false =>
      simp only [hm, Bool.false_eq_true, if_false] at hbig ⊢
      have h0 : 0 ≤ open_ret := by omega
      simp [pmemfile_vfd_assign, acquire_new_fd, hm, VFD_TABLE_SIZE, hbig, ENFILE,
        syscall_close, syscall_returns_fd, h0]
  · intro hneg'
    unfold placeholder_fd at hneg' ⊢
    cases hm : s.is_memfd_syscall_available with
    | true =>
      by_cases hneg : memfd_ret < 0
      · simp only [hm, if_true, if_pos hneg] at hneg' ⊢
        have h1 : ¬ ((0x8000 : Int) ≤ open_ret) := by omega
        have h2 : ¬ (0 ≤ open_ret) := by omega
        have h3 : ¬ (0 ≤ memfd_ret) := by omega
        simp [pmemfile_vfd_assign, acquire_new_fd, hm, hneg, VFD_TABLE_SIZE, h1, h2, h3, hneg',
          syscall_returns_fd]
      · simp only [hm, if_true, if_neg hneg] at hneg' ⊢
        exact absurd hneg' hneg
    | false =>
      simp only [hm, Bool.false_eq_true, if_false] at hneg' ⊢
      have h1 : ¬ ((0x8000 : Int) ≤ open_ret) := by omega
      have h2 : ¬ (0 ≤ open_ret) := by omega
      simp [pmemfile_vfd_assign, acquire_new_fd, hm, VFD_TABLE_SIZE, h1, h2, hneg',
        syscall_returns_fd]
  · intro s' v hret hv
    have hrange := (acquire_new_fd_frame s memfd_ret open_ret).2.2.2.2.2.2.2
    unfold pmemfile_vfd_assign at hret
    simp only at hret
    by_cases hlt : (acquire_new_fd s memfd_ret open_ret).2 < 0
    · rw [if_pos hlt] at hret
      simp only [Except.ok.injEq, Prod.mk.injEq] at hret
      omega
    · rw [if_neg hlt] at hret
      have hr := hrange (not_lt.mp hlt)
      cases hslot : (fetch_free_file_slot (acquire_new_fd s memfd_ret open_ret).1).2 with
      | none => simp [store_entry, hslot] at hret
      | some e =>
        simp only [store_entry, hslot, Except.ok.injEq, Prod.mk.injEq] at hret
        rw [← hret.2]
        simp only [is_in_vfd_table_range, Bool.and_eq_true, decide_eq_true_eq,
          VFD_TABLE_SIZE] at hr
        omega

/-- The scenario of C14: the kernel hands out descriptor 40000. -/
theorem assign_range_limit_witness :
    ∃ s', pmemfile_vfd_assign state_after_init (some 1) (some 10) 40000 (-1) =
        Except.ok (s', -ENFILE) ∧
      s'.events.getLast? = some (event.sys_close (placeholder_fd state_after_init 40000 (-1))) ∧
      s'.kernel_fds (placeholder_fd state_after_init 40000 (-1)) = false ∧
      s'.fetch_index = state_after_init.fetch_index ∧
      s'.free_vfile_slots = state_after_init.free_vfile_slots ∧
      s'.insert_index = state_after_init.insert_index ∧
      s'.vfd_table = state_after_init.vfd_table ∧
      s'.cwd_entry = state_after_init.cwd_entry ∧ s'.store = state_after_init.store :=
  (assign_range_limit state_after_init (some 1) (some 10) 40000 (-1)).1 (by decide)

/-- C16: for every state and every `vfd` that is outside `[0, 0x8000)` or whose
cell is none, `pmemfile_vfd_dup(vfd)` forwards `dup` to the kernel, returns
exactly the kernel's result, whether the kernel's `dup` fails or succeeds, and
modifies no cell, not `cwd_entry`, no `ref_count` and not the free ring. -/
theorem dup_not_managed (s : vfd_state) (vfd kret : Int)
    (hnot : is_in_vfd_table_range vfd = false ∨ s.vfd_table vfd.toNat = none) :
    ∃ s', pmemfile_vfd_dup s vfd kret = Except.ok (s', kret) ∧
      s'.events = s.events ++ [event.sys_dup vfd kret] ∧
      s'.vfd_table = s.vfd_table ∧ s'.cwd_entry = s.cwd_entry ∧ s'.store = s.store ∧
      s'.free_vfile_slots = s.free_vfile_slots ∧ s'.insert_index = s.insert_index ∧
      s'.fetch_index = s.fetch_index := by
  have hcan : can_be_in_vfd_table s vfd = false := by
    rcases hnot with h | h
    · simp [can_be_in_vfd_table, h]
    · simp [can_be_in_vfd_table, h]
  exact ⟨syscall_returns_fd s (event.sys_dup vfd kret) kret,
    by simp [pmemfile_vfd_dup, hcan], rfl, rfl, rfl, rfl, rfl, rfl, rfl⟩

/-- The scenario of C16: descriptor 77 is not open and the kernel's `dup`
returns `-EBADF`. -/
theorem dup_not_managed_witness :
    ∃ s', pmemfile_vfd_dup state_after_init 77 (-9) = Except.ok (s', -9) ∧
      s'.events = state_after_init.events ++ [event.sys_dup 77 (-9)] ∧
      s'.vfd_table = state_after_init.vfd_table ∧
      s'.cwd_entry = state_after_init.cwd_entry ∧ s'.store = state_after_init.store ∧
      s'.free_vfile_slots = state_after_init.free_vfile_slots ∧
      s'.insert_index = state_after_init.insert_index ∧
      s'.fetch_index = state_after_init.fetch_index :=
  dup_not_managed state_after_init 77 (-9) (Or.inr (by decide))

/-- C17 at a failing input: after `pmemfile_vfd_table_init` and the assignment of
a file to descriptor 4, `pmemfile_vfd_dup2(0, 4)` with the kernel's `dup2`
returning 4.  Descriptor 0 is not in the table, so the call takes the branch
that only forwards `dup2`: no assertion is made, the call returns 4, and cell 4
still points at the entry of the file although the kernel has replaced
descriptor 4. -/
theorem dup2_onto_occupied_cell_returns :
    ∃ t sys s', pmemfile_vfd_table_init standard_fds 3 3 = Except.ok t ∧
      vfd_run ⟨t, []⟩ [vfd_op.assign (some 1) (some 10) 4 (-1)] = some (Except.ok sys) ∧
      sys.table.vfd_table 4 = some 1 ∧
      (sys.table.store 1).file = some 10 ∧
      kernel_allows sys.table (vfd_op.dup2 0 4 4) = true ∧
      pmemfile_vfd_dup2 sys.table 0 4 4 = Except.ok (s', 4) ∧
      s'.vfd_table 4 = some 1 ∧
      s'.events.getLast? = some (event.sys_dup2 0 4 4) :=
  ⟨_, _, _, pmemfile_vfd_table_init_eq standard_fds 3 3 (by decide), rfl, by decide, by decide,
    by decide, rfl, by decide, by decide⟩

/-! ## Theorems, part IV: consistency of the table -/

/-- Counting over `List.range` when the predicate changes at one index. -/
theorem countP_range_update (p q : Nat → Bool) (i : Nat) (h : ∀ j, j ≠ i → p j = q j) :
    ∀ n, i < n →
      (List.range n).countP p + (if q i then 1 else 0) =
        (List.range n).countP q + (if p i then 1 else 0) := by
  intro n
  induction n with
  | zero => intro hi; omega
  | succ m ih =>
    intro hi
    rw [List.range_succ, List.countP_append, List.countP_append]
    simp only [List.countP_cons, List.countP_nil, Nat.zero_add]
    by_cases him : i = m
    · subst him
      have hsame : (List.range i).countP p = (List.range i).countP q := by
        apply List.countP_congr
        intro j hj
        have hne : j ≠ i := by
          have := List.mem_range.mp hj
          omega
        rw [h j hne]
      rw [hsame]
      cases hp : p i <;> cases hq : q i <;> simp
    · have hlt : i < m := by omega
      have := ih hlt
      rw [h m (fun hm => him hm.symm)]
      omega

/-- The count of cells after one cell is written. -/
theorem cells_pointing_at_update (s s' : vfd_state) (i : Nat) (v : Option Nat) (e : Nat)
    (hi : i < VFD_TABLE_SIZE) (ht : s'.vfd_table = Function.update s.vfd_table i v) :
    cells_pointing_at s' e + (if s.vfd_table i = some e then 1 else 0) =
      cells_pointing_at s e + (if v = some e then 1 else 0) := by
  unfold cells_pointing_at
  have h := countP_range_update (fun j => decide (s'.vfd_table j = some e))
    (fun j => decide (s.vfd_table j = some e)) i
    (by
      intro j hj
      simp only [ht, Function.update_noteq hj])
    VFD_TABLE_SIZE hi
  have hpi : s'.vfd_table i = v := by rw [ht, Function.update_same]
  simp only [decide_eq_true_eq, hpi] at h
  omega

/-- The count of cells depends on the cells only. -/
theorem cells_pointing_at_congr (s s' : vfd_state) (e : Nat)
    (ht : s'.vfd_table = s.vfd_table) : cells_pointing_at s' e = cells_pointing_at s e := by
  unfold cells_pointing_at
  rw [ht]

/-- A cell that points at the entry is counted. -/
theorem cells_pointing_at_pos (s : vfd_state) (i e : Nat) (hi : i < VFD_TABLE_SIZE)
    (h : s.vfd_table i = some e) : 1 ≤ cells_pointing_at s e := by
  unfold cells_pointing_at
  apply List.countP_pos_iff.mpr
  exact ⟨i, List.mem_range.mpr hi, by simp [h]⟩

/-- The pointers to an entry, in terms of the three kinds of pointers. -/
theorem pointers_to_eq (sys : vfd_system) (e : Nat) :
    pointers_to sys e = cells_pointing_at sys.table e +
      (if sys.table.cwd_entry = some e then 1 else 0) + refs_to sys.refs e := rfl

/-- Systems that agree on the tables have the same pointers. -/
theorem pointers_to_same (sys sys' : vfd_system) (h : same_tables sys sys') (e : Nat) :
    pointers_to sys' e = pointers_to sys e := by
  rw [pointers_to_eq, pointers_to_eq, cells_pointing_at_congr _ _ e h.vfd_table, h.cwd_entry,
    h.refs]

theorem free_ring_count_same (s s' : vfd_state) (hi : s'.insert_index = s.insert_index)
    (hf : s'.fetch_index = s.fetch_index) : free_ring_count s' = free_ring_count s := by
  unfold free_ring_count
  rw [hi, hf]

/-- Consistency carries over to a system that agrees on the tables. -/
theorem table_consistent_same (x : Option Nat) (sys sys' : vfd_system)
    (h : same_tables sys sys') (hc : table_consistent_with x sys) :
    table_consistent_with x sys' := by
  have hcnt := free_ring_count_same sys.table sys'.table h.insert_index h.fetch_index
  constructor
  · rw [h.cwd_entry]; exact hc.cwd_some
  · intro e
    rw [pointers_to_same sys sys' h e, h.store]
    exact hc.counts e
  · intro i e hi hcell
    rw [h.vfd_table] at hcell
    rw [h.store]
    exact hc.cell_valid i e hi hcell
  · intro c hcwd
    rw [h.cwd_entry] at hcwd
    rw [h.store]
    exact hc.cwd_valid c hcwd
  · rw [h.fetch_index]; exact hc.fetch_lt
  · rw [h.insert_index]; exact hc.insert_lt
  · intro k hk
    rw [hcnt] at hk
    rw [h.free_vfile_slots, h.fetch_index, h.store]
    exact hc.ring_zero k hk
  · intro k1 k2 hk1 hk2
    rw [hcnt] at hk1 hk2
    rw [h.free_vfile_slots, h.fetch_index]
    exact hc.ring_nodup k1 k2 hk1 hk2
  · intro e he
    rw [h.store]
    exact hc.outside_zero e he

/-- An entry something points at has a positive count. -/
theorem count_pos_of_pointer (x : Option Nat) (sys : vfd_system)
    (hc : table_consistent_with x sys) (e : Nat) (hp : 1 ≤ pointers_to sys e) :
    1 ≤ (sys.table.store e).ref_count := by
  have h := hc.counts e
  split at h <;> omega

/-- Consistency after `vf_ref_count_inc` on an entry something points at: the
new count is a credit. -/
theorem table_consistent_inc (sys : vfd_system) (e : Nat)
    (hc : table_consistent_with none sys) (hp : 1 ≤ pointers_to sys e) :
    table_consistent_with (some e) ⟨vf_ref_count_inc sys.table e, sys.refs⟩ := by
  have hcount := count_pos_of_pointer none sys hc e hp
  have hstore : ∀ e', e' ≠ e → (vf_ref_count_inc sys.table e).store e' = sys.table.store e' := by
    intro e' hne
    simp only [vf_ref_count_inc, Function.update_noteq hne]
  have hself : (vf_ref_count_inc sys.table e).store e =
      { sys.table.store e with ref_count := (sys.table.store e).ref_count + 1 } := by
    simp only [vf_ref_count_inc, Function.update_same]
  have hptr : ∀ e', pointers_to ⟨vf_ref_count_inc sys.table e, sys.refs⟩ e' =
      pointers_to sys e' := fun e' => rfl
  have hring : free_ring_count (vf_ref_count_inc sys.table e) = free_ring_count sys.table := rfl
  constructor
  · exact hc.cwd_some
  · intro e'
    rw [hptr]
    have h := hc.counts e'
    simp only [if_false, reduceCtorEq] at h
    by_cases he : e' = e
    · subst he
      simp only [hself, if_true]
      omega
    · have hne : ¬ (some e = some e') := fun h => he (Option.some.inj h).symm
      simp only [hstore e' he, if_neg hne]
      omega
  · intro i e1 hi hcell
    have h := hc.cell_valid i e1 hi hcell
    by_cases he : e1 = e
    · subst he
      simp only [hself]
      exact h
    · rw [hstore e1 he]
      exact h
  · intro c hcwd
    have h := hc.cwd_valid c hcwd
    by_cases he : c = e
    · subst he
      simp only [hself]
      exact h
    · rw [hstore c he]
      exact h
  · exact hc.fetch_lt
  · exact hc.insert_lt
  · intro k hk
    obtain ⟨w, hw, hlt, hz⟩ := hc.ring_zero k hk
    refine ⟨w, hw, hlt, ?_⟩
    have hne : w ≠ e := by
      intro h
      subst h
      omega
    rw [hstore w hne]
    exact hz
  · exact hc.ring_nodup
  · intro e1 he1
    have hz := hc.outside_zero e1 he1
    have hne : e1 ≠ e := by
      intro h
      subst h
      omega
    rw [hstore e1 hne]
    exact hz

/-- Consistency after a reference is handed out: the reference takes up the
credit of its entry. -/
theorem table_consistent_add_ref (sys : vfd_system) (r : vfd_reference)
    (hc : table_consistent_with r.internal sys) :
    table_consistent_with none ⟨sys.table, r :: sys.refs⟩ := by
  constructor
  · exact hc.cwd_some
  · intro e
    have h := hc.counts e
    rw [pointers_to_eq] at h
    rw [pointers_to_eq]
    simp only [refs_to_cons, if_false, reduceCtorEq]
    split at h <;> rename_i hr
    · simp only [hr, if_true]
      push_cast at h ⊢
      omega
    · simp only [if_neg hr]
      push_cast at h ⊢
      omega
  · exact hc.cell_valid
  · exact hc.cwd_valid
  · exact hc.fetch_lt
  · exact hc.insert_lt
  · exact hc.ring_zero
  · exact hc.ring_nodup
  · exact hc.outside_zero

/-- Consistency after a reference is taken back from the caller: its entry
becomes a credit. -/
theorem table_consistent_remove_ref (sys : vfd_system) (k : Nat) (r : vfd_reference)
    (hk : sys.refs[k]? = some r) (hc : table_consistent_with none sys) :
    table_consistent_with r.internal ⟨sys.table, sys.refs.eraseIdx k⟩ := by
  constructor
  · exact hc.cwd_some
  · intro e
    have h := hc.counts e
    rw [pointers_to_eq] at h
    rw [pointers_to_eq]
    have hr := refs_to_eraseIdx sys.refs e k r hk
    simp only [if_false, reduceCtorEq] at h
    split at hr <;> rename_i hi
    · simp only [hi, if_true]
      push_cast at h ⊢
      omega
    · simp only [if_neg hi]
      push_cast at h ⊢
      omega
  · exact hc.cell_valid
  · exact hc.cwd_valid
  · exact hc.fetch_lt
  · exact hc.insert_lt
  · exact hc.ring_zero
  · exact hc.ring_nodup
  · exact hc.outside_zero

/-- Consistency after a cell is written with the entry that is the credit. -/
theorem table_consistent_cell_write (sys : vfd_system) (i e : Nat)
    (hi : i < VFD_TABLE_SIZE)
    (hv : (sys.table.store e).is_special_cwd_desc = false ∧ (sys.table.store e).pool ≠ none)
    (hc : table_consistent_with (some e) sys) :
    table_consistent_with none
      ⟨{ sys.table with vfd_table := Function.update sys.table.vfd_table i (some e) },
        sys.refs⟩ := by
  constructor
  · exact hc.cwd_some
  · intro e'
    have h := hc.counts e'
    rw [pointers_to_eq] at h
    rw [pointers_to_eq]
    have hu := cells_pointing_at_update sys.table
      { sys.table with vfd_table := Function.update sys.table.vfd_table i (some e) } i (some e) e'
      hi rfl
    dsimp only at hu ⊢
    simp only [if_false, reduceCtorEq]
    split_ifs at h hu ⊢ <;> omega
  · intro j e1 hj hcell
    by_cases hji : j = i
    · subst hji
      simp only [Function.update_same, Option.some.injEq] at hcell
      subst hcell
      exact hv
    · simp only [Function.update_noteq hji] at hcell
      exact hc.cell_valid j e1 hj hcell
  · exact hc.cwd_valid
  · exact hc.fetch_lt
  · exact hc.insert_lt
  · exact hc.ring_zero
  · exact hc.ring_nodup
  · exact hc.outside_zero

/-- Consistency after a cell is cleared: what it held becomes a credit. -/
theorem table_consistent_cell_clear (sys : vfd_system) (i : Nat) (hi : i < VFD_TABLE_SIZE)
    (hc : table_consistent_with none sys) :
    table_consistent_with (sys.table.vfd_table i)
      ⟨{ sys.table with vfd_table := Function.update sys.table.vfd_table i none },
        sys.refs⟩ := by
  constructor
  · exact hc.cwd_some
  · intro e'
    have h := hc.counts e'
    rw [pointers_to_eq] at h
    rw [pointers_to_eq]
    have hu := cells_pointing_at_update sys.table
      { sys.table with vfd_table := Function.update sys.table.vfd_table i none } i none e'
      hi rfl
    simp only [if_false, reduceCtorEq] at h hu
    split at hu <;> rename_i hcell
    · simp only [hcell, if_true]
      push_cast at h ⊢
      omega
    · simp only [if_neg hcell]
      push_cast at h ⊢
      omega
  · intro j e1 hj hcell
    by_cases hji : j = i
    · subst hji
      simp only [Function.update_same, reduceCtorEq] at hcell
    · simp only [Function.update_noteq hji] at hcell
      exact hc.cell_valid j e1 hj hcell
  · exact hc.cwd_valid
  · exact hc.fetch_lt
  · exact hc.insert_lt
  · exact hc.ring_zero
  · exact hc.ring_nodup
  · exact hc.outside_zero

/-- Consistency after `cwd_entry` is set to the entry that is the credit: the
previous entry of the working directory becomes the credit. -/
theorem table_consistent_cwd_set (sys : vfd_system) (e : Nat)
    (hv : (sys.table.store e).is_special_cwd_desc = true ∨ (sys.table.store e).pool ≠ none)
    (hc : table_consistent_with (some e) sys) :
    table_consistent_with sys.table.cwd_entry
      ⟨{ sys.table with cwd_entry := some e }, sys.refs⟩ := by
  constructor
  · exact ⟨e, rfl⟩
  · intro e'
    have h := hc.counts e'
    rw [pointers_to_eq] at h
    rw [pointers_to_eq]
    have hcells : cells_pointing_at { sys.table with cwd_entry := some e } e' =
        cells_pointing_at sys.table e' := rfl
    simp only [hcells]
    split at h <;> split at h <;> rename_i h1 h2
    · simp only [h1, h2, if_true]
      push_cast at h ⊢
      omega
    · simp only [h1, if_neg h2, if_true, if_false]
      push_cast at h ⊢
      omega
    · simp only [h2, if_neg h1, if_true, if_false]
      push_cast at h ⊢
      omega
    · simp only [if_neg h1, if_neg h2]
      push_cast at h ⊢
      omega
  · exact hc.cell_valid
  · intro c hcwd
    simp only [Option.some.injEq] at hcwd
    subst hcwd
    exact hv
  · exact hc.fetch_lt
  · exact hc.insert_lt
  · exact hc.ring_zero
  · exact hc.ring_nodup
  · exact hc.outside_zero

/-- What `unref_entry` does when it returns: the count goes down by one, and
when it reaches zero the entry is destroyed (its descriptor or its file is
closed) and published to the free ring. -/
theorem unref_entry_cases (s s' : vfd_state) (e : Nat)
    (h : unref_entry s (some e) = Except.ok s') :
    s'.vfd_table = s.vfd_table ∧ s'.cwd_entry = s.cwd_entry ∧
    s'.fetch_index = s.fetch_index ∧
    s'.is_memfd_syscall_available = s.is_memfd_syscall_available ∧
    s'.store = Function.update s.store e
      { s.store e with ref_count := (s.store e).ref_count - 1 } ∧
    (((s.store e).ref_count ≠ 1 ∧ s'.free_vfile_slots = s.free_vfile_slots ∧
        s'.insert_index = s.insert_index ∧ s'.events = s.events ∧
        s'.kernel_fds = s.kernel_fds) ∨
      ((s.store e).ref_count = 1 ∧
        s'.free_vfile_slots = Function.update s.free_vfile_slots s.insert_index (some e) ∧
        s'.insert_index = (s.insert_index + 1) % FREE_SLOTS_SIZE ∧
        (((s.store e).is_special_cwd_desc = true ∧
            s'.events = s.events ++ [event.sys_close (s.store e).kernel_cwd_fd] ∧
            s'.kernel_fds = Function.update s.kernel_fds (s.store e).kernel_cwd_fd false) ∨
          ((s.store e).is_special_cwd_desc = false ∧
            ∃ p, (s.store e).pool = some p ∧
              s'.events = s.events ++ [event.pmemfile_close (some p) (s.store e).file] ∧
              s'.kernel_fds = s.kernel_fds)))) := by
  by_cases hc : (s.store e).ref_count = 1
  · cases hsp : (s.store e).is_special_cwd_desc with
    | true =>
      simp only [unref_entry, vf_ref_count_dec_and_fetch, hc, Function.update_same,
        mark_as_free_file_slot, sub_self, if_true, hsp, ne_eq, not_true_eq_false, if_false,
        syscall_close, Except.ok.injEq] at h
      subst h
      refine ⟨rfl, rfl, rfl, rfl, ?_, Or.inr ⟨hc, rfl, rfl, Or.inl ⟨rfl, rfl, rfl⟩⟩⟩
      simp only [hc, sub_self, hsp]
    | false =>
      cases hp : (s.store e).pool with
      | none =>
        simp only [unref_entry, vf_ref_count_dec_and_fetch, hc, Function.update_same,
          mark_as_free_file_slot, sub_self, if_true, hsp, Bool.false_eq_true, if_false, hp,
          reduceCtorEq] at h
      | some p =>
        simp only [unref_entry, vf_ref_count_dec_and_fetch, hc, Function.update_same,
          mark_as_free_file_slot, sub_self, if_true, hsp, Bool.false_eq_true, if_false, hp,
          ne_eq, not_true_eq_false, Except.ok.injEq] at h
        subst h
        refine ⟨rfl, rfl, rfl, rfl, ?_, Or.inr ⟨hc, rfl, rfl, Or.inr ⟨rfl, p, rfl, rfl, rfl⟩⟩⟩
        simp only [hc, sub_self, hsp, hp]
  · have hc' : (s.store e).ref_count - 1 ≠ 0 := by omega
    simp only [unref_entry, vf_ref_count_dec_and_fetch, if_neg hc', Except.ok.injEq] at h
    subst h
    exact ⟨rfl, rfl, rfl, rfl, rfl, Or.inl ⟨hc, rfl, rfl, rfl, rfl⟩⟩

/-- Whether `unref_entry` returns: it does for an anchor and for an entry with a
pool. -/
theorem unref_entry_ok (s : vfd_state) (e : Nat)
    (hv : (s.store e).is_special_cwd_desc = true ∨ (s.store e).pool ≠ none) :
    ∃ s', unref_entry s (some e) = Except.ok s' := by
  by_cases hc : (s.store e).ref_count = 1
  · cases hsp : (s.store e).is_special_cwd_desc with
    | true =>
      simp only [unref_entry, vf_ref_count_dec_and_fetch, hc, Function.update_same,
        mark_as_free_file_slot, sub_self, if_true, hsp, ne_eq, not_true_eq_false, if_false,
        syscall_close]
      exact ⟨_, rfl⟩
    | false =>
      cases hp : (s.store e).pool with
      | none =>
        rcases hv with hv | hv
        · rw [hsp] at hv
          cases hv
        · exact absurd hp hv
      | some p =>
        simp only [unref_entry, vf_ref_count_dec_and_fetch, hc, Function.update_same,
          mark_as_free_file_slot, sub_self, if_true, hsp, Bool.false_eq_true, if_false, hp,
          ne_eq, not_true_eq_false]
        exact ⟨_, rfl⟩
  · have hc' : (s.store e).ref_count - 1 ≠ 0 := by omega
    simp only [unref_entry, vf_ref_count_dec_and_fetch, if_neg hc']
    exact ⟨_, rfl⟩

/-- Distinct entries of the array, none of them `e`, are fewer than the array
has entries. -/
theorem distinct_entries_count (f : Nat → Option Nat) (n m e : Nat) (he : e < m)
    (hval : ∀ k, k < n → ∃ w, f k = some w ∧ w < m ∧ w ≠ e)
    (hinj : ∀ k1 k2, k1 < n → k2 < n → f k1 = f k2 → k1 = k2) : n + 1 ≤ m := by
  have hcard : (Finset.range n).card ≤ ((Finset.range m).erase e).card := by
    apply Finset.card_le_card_of_injOn (fun k => (f k).getD 0)
    · intro k hk
      have hk' : k < n := Finset.mem_range.mp hk
      obtain ⟨w, hw, hlt, hne⟩ := hval k hk'
      simp only [hw, Option.getD_some]
      exact Finset.mem_erase.mpr ⟨hne, Finset.mem_range.mpr hlt⟩
    · intro k1 hk1 k2 hk2 heq
      have h1 : k1 < n := Finset.mem_range.mp (Finset.mem_coe.mp hk1)
      have h2 : k2 < n := Finset.mem_range.mp (Finset.mem_coe.mp hk2)
      obtain ⟨w1, hw1, _, _⟩ := hval k1 h1
      obtain ⟨w2, hw2, _, _⟩ := hval k2 h2
      simp only [hw1, hw2, Option.getD_some] at heq
      apply hinj k1 k2 h1 h2
      rw [hw1, hw2, heq]
  rw [Finset.card_range, Finset.card_erase_of_mem (Finset.mem_range.mpr he),
    Finset.card_range] at hcard
  omega

/-- Consistency after `unref_entry` gives up the credit. -/
theorem table_consistent_unref (sys : vfd_system) (x : Option Nat) (t' : vfd_state)
    (hc : table_consistent_with x sys) (hu : unref_entry sys.table x = Except.ok t') :
    table_consistent_with none ⟨t', sys.refs⟩ := by
  cases x with
  | none =>
    simp only [unref_entry, Except.ok.injEq] at hu
    subst hu
    exact hc
  | some e =>
    obtain ⟨hvt, hcwd, hfetch, _, hstore, hrest⟩ := unref_entry_cases sys.table t' e hu
    have hcnt : 1 ≤ (sys.table.store e).ref_count := by
      have := hc.counts e
      simp only [if_true] at this
      omega
    have hlt : e < STORE_SIZE := by
      by_contra hge
      have := hc.outside_zero e (by omega)
      omega
    have hptr : ∀ e', pointers_to ⟨t', sys.refs⟩ e' = pointers_to sys e' := by
      intro e'
      rw [pointers_to_eq, pointers_to_eq, cells_pointing_at_congr _ _ e' hvt, hcwd]
    have hother : ∀ e', e' ≠ e → t'.store e' = sys.table.store e' := by
      intro e' hne
      rw [hstore, Function.update_noteq hne]
    have hself : t'.store e =
        { sys.table.store e with ref_count := (sys.table.store e).ref_count - 1 } := by
      rw [hstore, Function.update_same]
    have hcounts : ∀ e', (pointers_to ⟨t', sys.refs⟩ e' : Int) +
        (if (none : Option Nat) = some e' then 1 else 0) ≤ (t'.store e').ref_count := by
      intro e'
      rw [hptr]
      have h := hc.counts e'
      simp only [if_false, reduceCtorEq]
      by_cases he : e' = e
      · subst he
        simp only [if_true] at h
        simp only [hself]
        omega
      · have hne : ¬ (some e = some e') := fun h => he (Option.some.inj h).symm
        simp only [if_neg hne] at h
        rw [hother e' he]
        omega
    have hcell : ∀ i e1, i < VFD_TABLE_SIZE → t'.vfd_table i = some e1 →
        (t'.store e1).is_special_cwd_desc = false ∧ (t'.store e1).pool ≠ none := by
      intro i e1 hi hcell
      rw [hvt] at hcell
      have h := hc.cell_valid i e1 hi hcell
      by_cases he : e1 = e
      · subst he
        simp only [hself]
        exact h
      · rw [hother e1 he]
        exact h
    have hcwdv : ∀ c, t'.cwd_entry = some c →
        (t'.store c).is_special_cwd_desc = true ∨ (t'.store c).pool ≠ none := by
      intro c hcw
      rw [hcwd] at hcw
      have h := hc.cwd_valid c hcw
      by_cases he : c = e
      · subst he
        simp only [hself]
        exact h
      · rw [hother c he]
        exact h
    have hout : ∀ e1, STORE_SIZE ≤ e1 → (t'.store e1).ref_count = 0 := by
      intro e1 he1
      have hne : e1 ≠ e := by omega
      rw [hother e1 hne]
      exact hc.outside_zero e1 he1
    have hwne : ∀ w, (sys.table.store w).ref_count = 0 → w ≠ e := by
      intro w hw h
      subst h
      omega
    rcases hrest with ⟨_, hslots, hins, _, _⟩ | ⟨h1, hslots, hins, _⟩
    · have hcount : free_ring_count t' = free_ring_count sys.table :=
        free_ring_count_same _ _ hins hfetch
      refine ⟨by rw [hcwd]; exact hc.cwd_some, hcounts, hcell, hcwdv, by rw [hfetch]; exact hc.fetch_lt,
        by rw [hins]; exact hc.insert_lt, ?_, ?_, hout⟩
      · intro k hk
        rw [hcount] at hk
        obtain ⟨w, hw, hwlt, hz⟩ := hc.ring_zero k hk
        refine ⟨w, by rw [hslots, hfetch]; exact hw, hwlt, ?_⟩
        rw [hother w (hwne w hz)]
        exact hz
      · intro k1 k2 hk1 hk2
        rw [hcount] at hk1 hk2
        rw [hslots, hfetch]
        exact hc.ring_nodup k1 k2 hk1 hk2
    · have hfl := hc.fetch_lt
      have hil := hc.insert_lt
      have hroom : free_ring_count sys.table + 1 ≤ STORE_SIZE := by
        apply distinct_entries_count
          (fun k => sys.table.free_vfile_slots ((sys.table.fetch_index + k) % FREE_SLOTS_SIZE))
          (free_ring_count sys.table) STORE_SIZE e hlt
        · intro k hk
          obtain ⟨w, hw, hwlt, hz⟩ := hc.ring_zero k hk
          exact ⟨w, hw, hwlt, hwne w hz⟩
        · exact hc.ring_nodup
      have hcount : free_ring_count t' = free_ring_count sys.table + 1 := by
        unfold free_ring_count at hroom ⊢
        rw [hins, hfetch]
        rw [free_slots_size_eq] at hfl hil hroom ⊢
        rw [store_size_eq] at hroom
        omega
      have hposlt : ∀ k, k < free_ring_count sys.table →
          (sys.table.fetch_index + k) % FREE_SLOTS_SIZE ≠ sys.table.insert_index := by
        intro k hk
        unfold free_ring_count at hk hroom
        rw [free_slots_size_eq] at hfl hil hk hroom ⊢
        rw [store_size_eq] at hroom
        omega
      have hposeq : (sys.table.fetch_index + free_ring_count sys.table) % FREE_SLOTS_SIZE =
          sys.table.insert_index := by
        unfold free_ring_count at hroom ⊢
        rw [free_slots_size_eq] at hfl hil hroom ⊢
        rw [store_size_eq] at hroom
        omega
      have hslot_old : ∀ k, k < free_ring_count sys.table →
          t'.free_vfile_slots ((t'.fetch_index + k) % FREE_SLOTS_SIZE) =
            sys.table.free_vfile_slots ((sys.table.fetch_index + k) % FREE_SLOTS_SIZE) := by
        intro k hk
        rw [hslots, hfetch, Function.update_noteq (hposlt k hk)]
      have hslot_new : t'.free_vfile_slots
          ((t'.fetch_index + free_ring_count sys.table) % FREE_SLOTS_SIZE) = some e := by
        rw [hslots, hfetch, hposeq, Function.update_same]
      refine ⟨by rw [hcwd]; exact hc.cwd_some, hcounts, hcell, hcwdv, by rw [hfetch]; exact hfl,
        ?_, ?_, ?_, hout⟩
      · rw [hins]
        exact Nat.mod_lt _ (by rw [free_slots_size_eq]; decide)
      · intro k hk
        rw [hcount] at hk
        by_cases hkc : k < free_ring_count sys.table
        · obtain ⟨w, hw, hwlt, hz⟩ := hc.ring_zero k hkc
          refine ⟨w, by rw [hslot_old k hkc]; exact hw, hwlt, ?_⟩
          rw [hother w (hwne w hz)]
          exact hz
        · have hk' : k = free_ring_count sys.table := by omega
          subst hk'
          refine ⟨e, hslot_new, hlt, ?_⟩
          simp only [hself, h1]
          rfl
      · intro k1 k2 hk1 hk2 heq
        rw [hcount] at hk1 hk2
        by_cases hk1c : k1 < free_ring_count sys.table
        · by_cases hk2c : k2 < free_ring_count sys.table
          · rw [hslot_old k1 hk1c, hslot_old k2 hk2c] at heq
            exact hc.ring_nodup k1 k2 hk1c hk2c heq
          · have hk' : k2 = free_ring_count sys.table := by omega
            subst hk'
            obtain ⟨w, hw, _, hz⟩ := hc.ring_zero k1 hk1c
            rw [hslot_old k1 hk1c, hslot_new, hw, Option.some.injEq] at heq
            exact absurd heq (hwne w hz)
        · have hk' : k1 = free_ring_count sys.table := by omega
          by_cases hk2c : k2 < free_ring_count sys.table
          · subst hk'
            obtain ⟨w, hw, _, hz⟩ := hc.ring_zero k2 hk2c
            rw [hslot_old k2 hk2c, hslot_new, hw, Option.some.injEq] at heq
            exact absurd heq.symm (hwne w hz)
          · omega

/-- Consistency after an entry is fetched from a non-empty free ring and
initialised with a count of one: the entry is a credit, and nothing pointed at
it. -/
theorem table_consistent_fetch (sys : vfd_system) (value : vfile_description)
    (hc : table_consistent_with none sys) (hne : free_ring_count sys.table ≠ 0)
    (hval : value.ref_count = 1) :
    ∃ e, sys.table.free_vfile_slots sys.table.fetch_index = some e ∧ e < STORE_SIZE ∧
      (sys.table.store e).ref_count = 0 ∧ pointers_to sys e = 0 ∧
      table_consistent_with (some e)
        ⟨{ sys.table with
            fetch_index := (sys.table.fetch_index + 1) % FREE_SLOTS_SIZE,
            store := Function.update sys.table.store e value }, sys.refs⟩ := by
  have hfl := hc.fetch_lt
  have hil := hc.insert_lt
  obtain ⟨e, he, helt, hez⟩ := hc.ring_zero 0 (by omega)
  have hpos0 : (sys.table.fetch_index + 0) % FREE_SLOTS_SIZE = sys.table.fetch_index := by
    rw [free_slots_size_eq] at hfl ⊢
    omega
  rw [hpos0] at he
  have hp0 : pointers_to sys e = 0 := by
    have h := hc.counts e
    simp only [if_false, reduceCtorEq] at h
    omega
  refine ⟨e, he, helt, hez, hp0, ?_⟩
  have hcount : free_ring_count
      { sys.table with
        fetch_index := (sys.table.fetch_index + 1) % FREE_SLOTS_SIZE,
        store := Function.update sys.table.store e value } + 1 = free_ring_count sys.table := by
    unfold free_ring_count at hne ⊢
    dsimp only
    rw [free_slots_size_eq] at hfl hil hne ⊢
    omega
  dsimp only at hcount
  have hpos : ∀ k, ((sys.table.fetch_index + 1) % FREE_SLOTS_SIZE + k) % FREE_SLOTS_SIZE =
      (sys.table.fetch_index + (k + 1)) % FREE_SLOTS_SIZE := by
    intro k
    rw [free_slots_size_eq]
    omega
  have hlive : ∀ w, 1 ≤ pointers_to sys w → w ≠ e := by
    intro w hw h
    subst h
    omega
  have hwin : ∀ k, k + 1 < free_ring_count sys.table → ∀ w,
      sys.table.free_vfile_slots ((sys.table.fetch_index + (k + 1)) % FREE_SLOTS_SIZE) = some w →
      w ≠ e := by
    intro k hk w hw h
    subst h
    have := hc.ring_nodup (k + 1) 0 hk (by omega) (by rw [hw, hpos0, he])
    omega
  constructor
  · exact hc.cwd_some
  · intro e'
    have hptr : pointers_to ⟨{ sys.table with
        fetch_index := (sys.table.fetch_index + 1) % FREE_SLOTS_SIZE,
        store := Function.update sys.table.store e value }, sys.refs⟩ e' = pointers_to sys e' := rfl
    rw [hptr]
    dsimp only
    by_cases hee : e' = e
    · subst hee
      simp only [Function.update_same, if_true, hval, hp0]
      decide
    · have hne' : ¬ (some e = some e') := fun h => hee (Option.some.inj h).symm
      have h := hc.counts e'
      simp only [if_false, reduceCtorEq] at h
      simp only [Function.update_noteq hee, if_neg hne']
      omega
  · intro i e1 hi hcell
    have hne1 : e1 ≠ e := hlive e1 (by
      rw [pointers_to_eq]
      have := cells_pointing_at_pos sys.table i e1 hi hcell
      omega)
    dsimp only
    rw [Function.update_noteq hne1]
    exact hc.cell_valid i e1 hi hcell
  · intro c hcw
    have hne1 : c ≠ e := hlive c (by
      rw [pointers_to_eq]
      have hcw' : sys.table.cwd_entry = some c := hcw
      simp only [hcw', if_true]
      omega)
    dsimp only
    rw [Function.update_noteq hne1]
    exact hc.cwd_valid c hcw
  · exact Nat.mod_lt _ (by rw [free_slots_size_eq]; decide)
  · exact hil
  · intro k hk
    dsimp only at hk
    have hk' : k + 1 < free_ring_count sys.table := by omega
    obtain ⟨w, hw, hwlt, hz⟩ := hc.ring_zero (k + 1) hk'
    dsimp only
    rw [hpos k]
    refine ⟨w, hw, hwlt, ?_⟩
    rw [Function.update_noteq (hwin k hk' w hw)]
    exact hz
  · intro k1 k2 hk1 hk2 heq
    dsimp only at heq hk1 hk2
    rw [hpos k1, hpos k2] at heq
    have := hc.ring_nodup (k1 + 1) (k2 + 1) (by omega) (by omega) heq
    omega
  · intro e1 he1
    have hne1 : e1 ≠ e := by omega
    dsimp only
    rw [Function.update_noteq hne1]
    exact hc.outside_zero e1 he1


/-- A cell of the table is a pointer to its entry. -/
theorem pointers_to_pos_of_cell (sys : vfd_system) (i e : Nat) (hi : i < VFD_TABLE_SIZE)
    (h : sys.table.vfd_table i = some e) : 1 ≤ pointers_to sys e := by
  rw [pointers_to_eq]
  have := cells_pointing_at_pos sys.table i e hi h
  omega

/-- The variable `cwd_entry` is a pointer to its entry. -/
theorem pointers_to_pos_of_cwd (sys : vfd_system) (e : Nat)
    (h : sys.table.cwd_entry = some e) : 1 ≤ pointers_to sys e := by
  rw [pointers_to_eq, if_pos h]
  omega

theorem can_be_in_vfd_table_true (s : vfd_state) (vfd : Int)
    (h : can_be_in_vfd_table s vfd = true) :
    is_in_vfd_table_range vfd = true ∧ ∃ e, s.vfd_table vfd.toNat = some e := by
  unfold can_be_in_vfd_table at h
  cases hr : is_in_vfd_table_range vfd with
  | false => simp [hr] at h
  | true =>
    simp only [hr, Bool.not_true, Bool.false_eq_true, if_false] at h
    exact ⟨rfl, Option.isSome_iff_exists.mp h⟩

/-- Consistency is kept by `pmemfile_vfd_ref`. -/
theorem table_consistent_ref (sys : vfd_system) (vfd : Int) (hc : table_consistent sys) :
    table_consistent
      ⟨(pmemfile_vfd_ref sys.table vfd).1, (pmemfile_vfd_ref sys.table vfd).2 :: sys.refs⟩ := by
  cases hr : is_in_vfd_table_range vfd with
  | false =>
    rw [pmemfile_vfd_ref_pass_through sys.table vfd (Or.inl hr)]
    exact table_consistent_add_ref sys ⟨none, none, vfd, none⟩ hc
  | true =>
    cases hcell : sys.table.vfd_table vfd.toNat with
    | none =>
      rw [pmemfile_vfd_ref_pass_through sys.table vfd (Or.inr hcell)]
      exact table_consistent_add_ref sys ⟨none, none, vfd, none⟩ hc
    | some E =>
      rw [pmemfile_vfd_ref_occupied sys.table vfd E hr hcell]
      exact table_consistent_add_ref ⟨vf_ref_count_inc sys.table E, sys.refs⟩ _
        (table_consistent_inc sys E hc
          (pointers_to_pos_of_cell sys _ E (toNat_lt_of_in_range hr) hcell))

/-- Consistency is kept by `pmemfile_vfd_at_ref`. -/
theorem table_consistent_at_ref (sys : vfd_system) (vfd : Int) (t : vfd_state)
    (r : vfd_reference) (hc : table_consistent sys)
    (h : pmemfile_vfd_at_ref sys.table vfd = Except.ok (t, r)) :
    table_consistent ⟨t, r :: sys.refs⟩ := by
  unfold pmemfile_vfd_at_ref at h
  split at h
  · unfold get_fdcwd_reference at h
    obtain ⟨c, hcwd⟩ := hc.cwd_some
    simp only [hcwd, Except.ok.injEq, Prod.mk.injEq] at h
    obtain ⟨ht, hr⟩ := h
    subst ht
    subst hr
    exact table_consistent_add_ref ⟨vf_ref_count_inc sys.table c, sys.refs⟩ _
      (table_consistent_inc sys c hc (pointers_to_pos_of_cwd sys c hcwd))
  · simp only [Except.ok.injEq] at h
    have := table_consistent_ref sys vfd hc
    rw [h] at this
    exact this

/-- Consistency is kept by `pmemfile_vfd_unref` on an outstanding reference. -/
theorem table_consistent_unref_ref (sys : vfd_system) (k : Nat) (r : vfd_reference)
    (t' : vfd_state) (hc : table_consistent sys) (hk : sys.refs[k]? = some r)
    (h : pmemfile_vfd_unref sys.table r = Except.ok t') :
    table_consistent ⟨t', sys.refs.eraseIdx k⟩ :=
  table_consistent_unref ⟨sys.table, sys.refs.eraseIdx k⟩ r.internal t'
    (table_consistent_remove_ref sys k r hk hc) h

/-- Consistency is kept by `pmemfile_vfd_dup`. -/
theorem table_consistent_dup (sys : vfd_system) (vfd kret : Int) (r : vfd_state × Int)
    (hc : table_consistent sys) (h : pmemfile_vfd_dup sys.table vfd kret = Except.ok r) :
    table_consistent ⟨r.1, sys.refs⟩ := by
  have hsame : table_consistent
      ⟨syscall_returns_fd sys.table (event.sys_dup vfd kret) kret, sys.refs⟩ :=
    table_consistent_same none sys _ ⟨rfl, rfl, rfl, rfl, rfl, rfl, rfl⟩ hc
  unfold pmemfile_vfd_dup at h
  simp only at h
  split at h
  · rename_i hcan
    obtain ⟨hrange, _⟩ := can_be_in_vfd_table_true _ _ hcan
    split at h
    · rename_i entry hcell
      split at h
      · split at h
        · cases h
        · split at h
          · cases h
          · rename_i hk0 hkr hempty
            simp only [Except.ok.injEq] at h
            subst h
            have hi : kret.toNat < VFD_TABLE_SIZE :=
              toNat_lt_of_in_range (by simpa using hkr)
            have h1 := table_consistent_inc _ entry hsame
              (pointers_to_pos_of_cell _ _ entry (toNat_lt_of_in_range hrange) hcell)
            have hv := h1.cell_valid vfd.toNat entry (toNat_lt_of_in_range hrange) hcell
            exact table_consistent_cell_write _ kret.toNat entry hi hv h1
      · simp only [Except.ok.injEq] at h
        subst h
        exact hsame
    · simp only [Except.ok.injEq] at h
      subst h
      exact hsame
  · simp only [Except.ok.injEq] at h
    subst h
    exact hsame

/-- Consistency is kept by `pmemfile_vfd_dup2`. -/
theorem table_consistent_dup2 (sys : vfd_system) (old_vfd new_vfd kret : Int)
    (r : vfd_state × Int) (hc : table_consistent sys)
    (h : pmemfile_vfd_dup2 sys.table old_vfd new_vfd kret = Except.ok r) :
    table_consistent ⟨r.1, sys.refs⟩ := by
  have hsame : table_consistent
      ⟨syscall_returns_fd sys.table (event.sys_dup2 old_vfd new_vfd kret) kret, sys.refs⟩ :=
    table_consistent_same none sys _ ⟨rfl, rfl, rfl, rfl, rfl, rfl, rfl⟩ hc
  unfold pmemfile_vfd_dup2 at h
  simp only at h
  split at h
  · rename_i hcan
    obtain ⟨hrange, _⟩ := can_be_in_vfd_table_true _ _ hcan
    split at h
    · rename_i entry hcell
      split at h
      · split at h
        · cases h
        · split at h
          · cases h
          · split at h
            · cases h
            · rename_i hk0 hkeq hkr hempty
              simp only [Except.ok.injEq] at h
              subst h
              have hi : new_vfd.toNat < VFD_TABLE_SIZE :=
                toNat_lt_of_in_range (by simpa using hkr)
              have h1 := table_consistent_inc _ entry hsame
                (pointers_to_pos_of_cell _ _ entry (toNat_lt_of_in_range hrange) hcell)
              have hv := h1.cell_valid old_vfd.toNat entry (toNat_lt_of_in_range hrange) hcell
              exact table_consistent_cell_write _ new_vfd.toNat entry hi hv h1
      · simp only [Except.ok.injEq] at h
        subst h
        exact hsame
    · simp only [Except.ok.injEq] at h
      subst h
      exact hsame
  · simp only [Except.ok.injEq] at h
    subst h
    exact hsame

/-- Consistency is kept by `pmemfile_vfd_close`. -/
theorem table_consistent_close (sys : vfd_system) (vfd kret : Int) (r : vfd_state × Int)
    (hc : table_consistent sys) (h : pmemfile_vfd_close sys.table vfd kret = Except.ok r) :
    table_consistent ⟨r.1, sys.refs⟩ := by
  cases hcan : can_be_in_vfd_table sys.table vfd with
  | false =>
    simp only [pmemfile_vfd_close, hcan, Bool.false_eq_true, if_false, Except.ok.injEq] at h
    subst h
    exact table_consistent_same none sys _ ⟨rfl, rfl, rfl, rfl, rfl, rfl, rfl⟩ hc
  | true =>
    obtain ⟨hrange, e, hcell⟩ := can_be_in_vfd_table_true _ _ hcan
    simp only [pmemfile_vfd_close, hcan, if_true, hcell] at h
    split at h
    · cases h
    · rename_i s3 hun
      simp only [Except.ok.injEq] at h
      subst h
      have h1 := table_consistent_cell_clear sys vfd.toNat (toNat_lt_of_in_range hrange) hc
      rw [hcell] at h1
      have h2 : table_consistent_with (some e)
          ⟨syscall_close
            { sys.table with vfd_table := Function.update sys.table.vfd_table vfd.toNat none }
            vfd, sys.refs⟩ :=
        table_consistent_same (some e)
          ⟨{ sys.table with vfd_table := Function.update sys.table.vfd_table vfd.toNat none },
            sys.refs⟩ _ ⟨rfl, rfl, rfl, rfl, rfl, rfl, rfl⟩ h1
      exact table_consistent_unref
        ⟨syscall_close
          { sys.table with vfd_table := Function.update sys.table.vfd_table vfd.toNat none }
          vfd, sys.refs⟩ (some e) s3 h2 hun

/-- Consistency after the new entry of the working directory is stored in
`cwd_entry` and the previous one is released. -/
theorem table_consistent_exchange (t : vfd_state) (refs : List vfd_reference) (e : Nat)
    (s' : vfd_state)
    (hc : table_consistent_with (some e) ⟨t, refs⟩)
    (hv : (t.store e).is_special_cwd_desc = true ∨ (t.store e).pool ≠ none)
    (h : unref_entry { t with cwd_entry := some e } t.cwd_entry = Except.ok s') :
    table_consistent ⟨s', refs⟩ :=
  table_consistent_unref ⟨{ t with cwd_entry := some e }, refs⟩
    t.cwd_entry s' (table_consistent_cwd_set ⟨t, refs⟩ e hv hc) h

/-- Releasing the previous entry of the working directory returns. -/
theorem exchange_ok (sys : vfd_system) (x : Option Nat) (e : Nat)
    (hc : table_consistent_with x sys) :
    ∃ s', unref_entry { sys.table with cwd_entry := some e } sys.table.cwd_entry =
      Except.ok s' := by
  obtain ⟨c, hcwd⟩ := hc.cwd_some
  rw [hcwd]
  exact unref_entry_ok _ c (hc.cwd_valid c hcwd)

/-- Fetching an entry from a non-empty free ring and initialising it: the
pointer fetched is not `NULL`, nothing pointed at the entry, and its count was
zero. -/
theorem fetch_store_ok (sys : vfd_system) (value : vfile_description)
    (hc : table_consistent sys) (hne : free_ring_count sys.table ≠ 0)
    (hval : value.ref_count = 1) :
    ∃ e, sys.table.free_vfile_slots sys.table.fetch_index = some e ∧
      store_entry (fetch_free_file_slot sys.table).1 (fetch_free_file_slot sys.table).2 value =
        Except.ok ({ sys.table with
          fetch_index := (sys.table.fetch_index + 1) % FREE_SLOTS_SIZE,
          store := Function.update sys.table.store e value }, e) ∧
      e < STORE_SIZE ∧ (sys.table.store e).ref_count = 0 ∧ pointers_to sys e = 0 ∧
      table_consistent_with (some e)
        ⟨{ sys.table with
            fetch_index := (sys.table.fetch_index + 1) % FREE_SLOTS_SIZE,
            store := Function.update sys.table.store e value }, sys.refs⟩ := by
  obtain ⟨e, hslot, helt, hz, hp0, hf⟩ := table_consistent_fetch sys value hc hne hval
  refine ⟨e, hslot, ?_, helt, hz, hp0, hf⟩
  simp only [fetch_free_file_slot, hslot, store_entry]

/-- Consistency is kept by `pmemfile_vfd_assign` with a pool and a non-empty
free ring. -/
theorem table_consistent_assign (sys : vfd_system) (pool file : Option Nat)
    (memfd_ret open_ret : Int) (r : vfd_state × Int) (hc : table_consistent sys)
    (hpool : pool.isSome = true)
    (hcap : 0 ≤ (acquire_new_fd sys.table memfd_ret open_ret).2 →
      free_ring_count sys.table ≠ 0)
    (h : pmemfile_vfd_assign sys.table pool file memfd_ret open_ret = Except.ok r) :
    table_consistent ⟨r.1, sys.refs⟩ := by
  obtain ⟨f1, f2, f3, f4, f5, f6, _, f8⟩ := acquire_new_fd_frame sys.table memfd_ret open_ret
  have hsame : table_consistent ⟨(acquire_new_fd sys.table memfd_ret open_ret).1, sys.refs⟩ :=
    table_consistent_same none sys _ ⟨f1, f6, f2, f3, f5, f4, rfl⟩ hc
  unfold pmemfile_vfd_assign at h
  simp only at h
  split at h
  · simp only [Except.ok.injEq] at h
    subst h
    exact hsame
  · rename_i hneg
    have hnn : 0 ≤ (acquire_new_fd sys.table memfd_ret open_ret).2 := by omega
    have hne : free_ring_count (acquire_new_fd sys.table memfd_ret open_ret).1 ≠ 0 := by
      rw [free_ring_count_same _ _ f5 f4]
      exact hcap hnn
    obtain ⟨e, _, hst, _, _, _, hf⟩ := fetch_store_ok
      ⟨(acquire_new_fd sys.table memfd_ret open_ret).1, sys.refs⟩ ⟨pool, file, -1, false, 1⟩
      hsame hne rfl
    simp only [hst, Except.ok.injEq] at h
    subst h
    have hp : pool ≠ none := by
      intro hp
      rw [hp] at hpool
      cases hpool
    exact table_consistent_cell_write _ _ e (toNat_lt_of_in_range (f8 hnn))
      (by simp only [Function.update_same]; exact ⟨trivial, hp⟩) hf

/-- Consistency is kept by `pmemfile_vfd_chdir_pf` with a pool and a non-empty
free ring. -/
theorem table_consistent_chdir_pf (sys : vfd_system) (pool file : Option Nat)
    (r : vfd_state × Int) (hc : table_consistent sys) (hpool : pool.isSome = true)
    (hne : free_ring_count sys.table ≠ 0)
    (h : pmemfile_vfd_chdir_pf sys.table pool file = Except.ok r) :
    table_consistent ⟨r.1, sys.refs⟩ := by
  obtain ⟨e, _, hst, _, _, _, hf⟩ := fetch_store_ok sys ⟨pool, file, -1, false, 1⟩ hc hne rfl
  have hp : pool ≠ none := by
    intro hp
    rw [hp] at hpool
    cases hpool
  simp only [pmemfile_vfd_chdir_pf, hst, chdir_exchange_entry] at h
  split at h
  · cases h
  · rename_i s2 hun
    simp only [Except.ok.injEq] at h
    subst h
    exact table_consistent_exchange _ _ e s2 hf
      (by simp only [Function.update_same]; exact Or.inr hp) hun

/-- Consistency is kept by `pmemfile_vfd_chdir_kernel_fd` with a non-empty free
ring when the kernel's `fchdir` succeeds. -/
theorem table_consistent_chdir_kernel_fd (sys : vfd_system) (fd kret : Int)
    (r : vfd_state × Int) (hc : table_consistent sys)
    (hcap : 0 ≤ kret → free_ring_count sys.table ≠ 0)
    (h : pmemfile_vfd_chdir_kernel_fd sys.table fd kret = Except.ok r) :
    table_consistent ⟨r.1, sys.refs⟩ := by
  have hsame : table_consistent ⟨syscall_fchdir sys.table fd kret, sys.refs⟩ :=
    table_consistent_same none sys _ ⟨rfl, rfl, rfl, rfl, rfl, rfl, rfl⟩ hc
  unfold pmemfile_vfd_chdir_kernel_fd at h
  simp only at h
  split at h
  · simp only [Except.ok.injEq] at h
    subst h
    exact hsame
  · rename_i hneg
    obtain ⟨e, _, hst, _, _, _, hf⟩ := fetch_store_ok
      ⟨syscall_fchdir sys.table fd kret, sys.refs⟩ ⟨none, none, fd, true, 1⟩ hsame
      (hcap (by omega)) rfl
    simp only [hst, chdir_exchange_entry] at h
    split at h
    · cases h
    · rename_i s2 hun
      simp only [Except.ok.injEq] at h
      subst h
      exact table_consistent_exchange _ _ e s2 hf
        (by simp only [Function.update_same]; exact Or.inl trivial) hun

/-- Consistency is kept by `pmemfile_vfd_fchdir`, with a non-empty free ring
when it installs a new anchor. -/
theorem table_consistent_fchdir (sys : vfd_system) (vfd dup_ret fchdir_ret : Int)
    (r : vfd_state × Int) (hc : table_consistent sys)
    (hcap : (if is_in_vfd_table_range vfd then sys.table.vfd_table vfd.toNat else none) = none →
      (if dup_ret ≥ 0 then fchdir_ret else dup_ret) = 0 → free_ring_count sys.table ≠ 0)
    (h : pmemfile_vfd_fchdir sys.table vfd dup_ret fchdir_ret = Except.ok r) :
    table_consistent ⟨r.1, sys.refs⟩ := by
  unfold pmemfile_vfd_fchdir at h
  simp only at h
  split at h
  · rename_i entry hcell
    have hrange : is_in_vfd_table_range vfd = true := by
      cases hr : is_in_vfd_table_range vfd with
      | true => rfl
      | false => simp [hr] at hcell
    simp only [hrange, if_true] at hcell
    split at h
    · cases h
    · rename_i s2 hun
      simp only [Except.ok.injEq] at h
      subst h
      have h1 := table_consistent_inc sys entry hc
        (pointers_to_pos_of_cell sys _ entry (toNat_lt_of_in_range hrange) hcell)
      have hv := h1.cell_valid vfd.toNat entry (toNat_lt_of_in_range hrange) hcell
      exact table_consistent_exchange (vf_ref_count_inc sys.table entry) sys.refs entry s2 h1
        (Or.inr hv.2) hun
  · rename_i hcell
    have hsame : table_consistent
        ⟨if dup_ret ≥ 0 then
            syscall_fchdir (syscall_returns_fd sys.table (event.sys_dup vfd dup_ret) dup_ret)
              dup_ret fchdir_ret
          else syscall_returns_fd sys.table (event.sys_dup vfd dup_ret) dup_ret, sys.refs⟩ := by
      split
      · exact table_consistent_same none sys _ ⟨rfl, rfl, rfl, rfl, rfl, rfl, rfl⟩ hc
      · exact table_consistent_same none sys _ ⟨rfl, rfl, rfl, rfl, rfl, rfl, rfl⟩ hc
    by_cases hres : (if dup_ret ≥ 0 then fchdir_ret else dup_ret) = 0
    · rw [if_pos hres] at h
      have hne0 := hcap hcell hres
      have hne : free_ring_count
          (if dup_ret ≥ 0 then
            syscall_fchdir (syscall_returns_fd sys.table (event.sys_dup vfd dup_ret) dup_ret)
              dup_ret fchdir_ret
          else syscall_returns_fd sys.table (event.sys_dup vfd dup_ret) dup_ret) ≠ 0 := by
        split <;> exact hne0
      obtain ⟨e, _, hst, _, _, _, hf⟩ := fetch_store_ok _ ⟨none, none, dup_ret, true, 1⟩ hsame
        hne rfl
      simp only [hst] at h
      split at h
      · cases h
      · rename_i s4 hun
        simp only [Except.ok.injEq] at h
        subst h
        exact table_consistent_exchange _ _ e s4 hf
          (by simp only [Function.update_same]; exact Or.inl trivial) hun
    · rw [if_neg hres] at h
      simp only [Except.ok.injEq] at h
      subst h
      exact hsame

/-- Consistency is kept by every step within the capacity of the free ring. -/
theorem vfd_step_consistent (sys sys' : vfd_system) (op : vfd_op)
    (hc : table_consistent sys) (hcap : within_capacity sys.table op = true)
    (hstep : vfd_step sys op = Except.ok sys') : table_consistent sys' := by
  simp only [within_capacity, Bool.and_eq_true, Bool.or_eq_true, Bool.not_eq_true',
    decide_eq_true_eq] at hcap
  obtain ⟨hwf, hfetch⟩ := hcap
  cases op with
  | ref v =>
    simp only [vfd_step, Except.ok.injEq] at hstep
    subst hstep
    exact table_consistent_ref sys v hc
  | at_ref v =>
    simp only [vfd_step] at hstep
    split at hstep
    · cases hstep
    · rename_i r hr
      simp only [Except.ok.injEq] at hstep
      subst hstep
      exact table_consistent_at_ref sys v r.1 r.2 hc hr
  | unref k =>
    simp only [vfd_step] at hstep
    split at hstep
    · simp only [Except.ok.injEq] at hstep
      subst hstep
      exact hc
    · rename_i r hk
      split at hstep
      · cases hstep
      · rename_i t hun
        simp only [Except.ok.injEq] at hstep
        subst hstep
        exact table_consistent_unref_ref sys k r t hc hk hun
  | dup a b =>
    simp only [vfd_step] at hstep
    split at hstep
    · cases hstep
    · rename_i r hr
      simp only [Except.ok.injEq] at hstep
      subst hstep
      exact table_consistent_dup sys a b r hc hr
  | dup2 a b c =>
    simp only [vfd_step] at hstep
    split at hstep
    · cases hstep
    · rename_i r hr
      simp only [Except.ok.injEq] at hstep
      subst hstep
      exact table_consistent_dup2 sys a b c r hc hr
  | close a b =>
    simp only [vfd_step] at hstep
    split at hstep
    · cases hstep
    · rename_i r hr
      simp only [Except.ok.injEq] at hstep
      subst hstep
      exact table_consistent_close sys a b r hc hr
  | assign pool file m o =>
    simp only [vfd_step] at hstep
    split at hstep
    · cases hstep
    · rename_i r hr
      simp only [Except.ok.injEq] at hstep
      subst hstep
      simp only [vfd_op_well_formed] at hwf
      simp only [vfd_op_fetches, decide_eq_false_iff_not] at hfetch
      exact table_consistent_assign sys pool file m o r hc hwf
        (fun hnn => by
          rcases hfetch with hf | hf
          · exact absurd hnn hf
          · exact hf) hr
  | chdir_pf pool file =>
    simp only [vfd_step] at hstep
    split at hstep
    · cases hstep
    · rename_i r hr
      simp only [Except.ok.injEq] at hstep
      subst hstep
      simp only [vfd_op_well_formed] at hwf
      simp only [vfd_op_fetches, reduceCtorEq, false_or] at hfetch
      exact table_consistent_chdir_pf sys pool file r hc hwf hfetch hr
  | chdir_kernel_fd fd kret =>
    simp only [vfd_step] at hstep
    split at hstep
    · cases hstep
    · rename_i r hr
      simp only [Except.ok.injEq] at hstep
      subst hstep
      simp only [vfd_op_fetches, decide_eq_false_iff_not] at hfetch
      exact table_consistent_chdir_kernel_fd sys fd kret r hc
        (fun hnn => by
          rcases hfetch with hf | hf
          · exact absurd hnn hf
          · exact hf) hr
  | fchdir vfd dup_ret fchdir_ret =>
    simp only [vfd_step] at hstep
    split at hstep
    · cases hstep
    · rename_i r hr
      simp only [Except.ok.injEq] at hstep
      subst hstep
      simp only [vfd_op_fetches, Bool.and_eq_false_imp, Option.isNone_iff_eq_none,
        decide_eq_false_iff_not] at hfetch
      exact table_consistent_fchdir sys vfd dup_ret fchdir_ret r hc
        (fun hcell hres => by
          rcases hfetch with hf | hf
          · exact absurd hres (hf hcell)
          · exact hf) hr

/-- Consistency is kept along a run within the capacity of the free ring. -/
theorem vfd_run_consistent (ops : List vfd_op) : ∀ (sys sys' : vfd_system),
    table_consistent sys → vfd_run_within_capacity sys ops = some (Except.ok sys') →
    table_consistent sys' := by
  induction ops with
  | nil =>
    intro sys sys' hc h
    simp only [vfd_run_within_capacity, Option.some.injEq, Except.ok.injEq] at h
    subst h
    exact hc
  | cons op rest ih =>
    intro sys sys' hc h
    simp only [vfd_run_within_capacity] at h
    split at h
    · rename_i hcap
      split at h
      · simp at h
      · rename_i sys1 hstep
        exact ih sys1 sys' (vfd_step_consistent sys sys1 op hc hcap hstep) h
    · cases h

/-- When `open(".")` fails, `pmemfile_vfd_table_init` does not return. -/
theorem pmemfile_vfd_table_init_ok (kernel_fds : Int → Bool) (memfd_ret open_ret : Int)
    (t : vfd_state) (h : pmemfile_vfd_table_init kernel_fds memfd_ret open_ret = Except.ok t) :
    0 ≤ open_ret := by
  by_contra hneg
  have hlt : open_ret < 0 := by omega
  unfold pmemfile_vfd_table_init at h
  split at h
  · cases h
  · simp only [setup_cwd, if_pos hlt, reduceCtorEq] at h

/-- The state `pmemfile_vfd_table_init` returns is consistent. -/
theorem table_consistent_init (kernel_fds : Int → Bool) (memfd_ret open_ret : Int)
    (t : vfd_state) (h : pmemfile_vfd_table_init kernel_fds memfd_ret open_ret = Except.ok t) :
    table_consistent ⟨t, []⟩ := by
  have hopen := pmemfile_vfd_table_init_ok kernel_fds memfd_ret open_ret t h
  rw [pmemfile_vfd_table_init_eq kernel_fds memfd_ret open_ret hopen, Except.ok.injEq] at h
  subst h
  constructor
  · exact ⟨0, rfl⟩
  · intro e
    rw [pointers_to_eq]
    have hcells : cells_pointing_at
        { store := Function.update (fun _ => ⟨none, none, 0, false, 0⟩) 0
            ⟨none, none, open_ret, true, 1⟩
          cwd_entry := some 0
          vfd_table := fun _ => none
          free_vfile_slots := fun k => if k < STORE_SIZE then some k else none
          insert_index := STORE_SIZE
          fetch_index := 1
          is_memfd_syscall_available := decide (memfd_ret ≥ 0)
          kernel_fds := Function.update
            (check_memfd_syscall (vfd_state_zero kernel_fds) memfd_ret).kernel_fds open_ret true
          events := (check_memfd_syscall (vfd_state_zero kernel_fds) memfd_ret).events ++
            [event.sys_open open_ret] } e = 0 := by
      unfold cells_pointing_at
      apply List.countP_eq_zero.mpr
      intro a _
      simp
    dsimp only at hcells ⊢
    rw [hcells]
    by_cases he : e = 0
    · subst he
      simp [refs_to]
    · have hne : ¬ ((some 0 : Option Nat) = some e) := fun h => he (Option.some.inj h).symm
      simp [refs_to, hne, Function.update_noteq he]
  · intro i e _ hcell
    simp at hcell
  · intro c hcwd
    simp only [Option.some.injEq] at hcwd
    subst hcwd
    left
    simp
  · show 1 < FREE_SLOTS_SIZE
    decide
  · show STORE_SIZE < FREE_SLOTS_SIZE
    decide
  · intro k hk
    simp only [free_ring_count, free_slots_size_eq, store_size_eq] at hk ⊢
    have hpos : (1 + k) % 65536 = k + 1 := by omega
    rw [hpos]
    have hlt : k + 1 < 65535 := by omega
    refine ⟨k + 1, by simp only [if_pos hlt], hlt, ?_⟩
    simp
  · intro k1 k2 hk1 hk2 heq
    simp only [free_ring_count, free_slots_size_eq, store_size_eq] at hk1 hk2 heq
    have hpos1 : (1 + k1) % 65536 = k1 + 1 := by omega
    have hpos2 : (1 + k2) % 65536 = k2 + 1 := by omega
    have hlt1 : k1 + 1 < 65535 := by omega
    have hlt2 : k2 + 1 < 65535 := by omega
    rw [hpos1, hpos2, if_pos hlt1, if_pos hlt2, Option.some.injEq] at heq
    omega
  · intro e he
    have hne : e ≠ 0 := by
      rw [store_size_eq] at he
      omega
    simp [Function.update_noteq hne]

/-- Every state reached within the capacity of the free ring is consistent. -/
theorem reachable_consistent (sys : vfd_system) (h : vfd_reachable_within_capacity sys) :
    table_consistent sys := by
  obtain ⟨kernel_fds, memfd_ret, open_ret, t, ops, hinit, hrun⟩ := h
  exact vfd_run_consistent ops ⟨t, []⟩ sys
    (table_consistent_init kernel_fds memfd_ret open_ret t hinit) hrun


/-! ## Theorems, part V: claims on reachable states of the table -/

/-- The state `pmemfile_vfd_table_init` returns is reached within capacity. -/
theorem state_after_init_reachable : vfd_reachable_within_capacity ⟨state_after_init, []⟩ :=
  ⟨standard_fds, 3, 3, state_after_init, [], state_after_init_eq, rfl⟩

/-- Releasing a reference right after it was counted gives back the state. -/
theorem unref_entry_after_inc (s : vfd_state) (e : Nat) (hpos : 1 ≤ (s.store e).ref_count) :
    unref_entry (vf_ref_count_inc s e) (some e) = Except.ok s := by
  have hne : ¬ (s.store e).ref_count = 0 := by omega
  simp only [unref_entry, vf_ref_count_dec_and_fetch, vf_ref_count_inc, Function.update_same,
    Function.update_idem, add_sub_cancel_right, Function.update_eq_self, if_neg hne]

/-- C12: in every state reached within the capacity of the free ring and for
every `vfd`, `pmemfile_vfd_ref(vfd)` followed by `pmemfile_vfd_unref` of the
reference returned gives back the state as it was, and so does
`pmemfile_vfd_at_ref(vfd)`, which returns (`AT_FDCWD` included), followed by
`pmemfile_vfd_unref`: the cells, `cwd_entry`, the free ring, every `ref_count`,
the kernel's descriptors and the record of calls are as before, so no file and
no descriptor is closed. -/
theorem ref_unref_round_trip (sys : vfd_system) (vfd : Int)
    (h : vfd_reachable_within_capacity sys) :
    pmemfile_vfd_unref (pmemfile_vfd_ref sys.table vfd).1 (pmemfile_vfd_ref sys.table vfd).2 =
        Except.ok sys.table ∧
      ∃ t r, pmemfile_vfd_at_ref sys.table vfd = Except.ok (t, r) ∧
        pmemfile_vfd_unref t r = Except.ok sys.table := by
  have hc := reachable_consistent sys h
  have href : pmemfile_vfd_unref (pmemfile_vfd_ref sys.table vfd).1
      (pmemfile_vfd_ref sys.table vfd).2 = Except.ok sys.table := by
    cases hr : is_in_vfd_table_range vfd with
    | false =>
      rw [pmemfile_vfd_ref_pass_through sys.table vfd (Or.inl hr)]
      rfl
    | true =>
      cases hcell : sys.table.vfd_table vfd.toNat with
      | none =>
        rw [pmemfile_vfd_ref_pass_through sys.table vfd (Or.inr hcell)]
        rfl
      | some E =>
        rw [pmemfile_vfd_ref_occupied sys.table vfd E hr hcell]
        exact unref_entry_after_inc sys.table E
          (count_pos_of_pointer none sys hc E
            (pointers_to_pos_of_cell sys _ E (toNat_lt_of_in_range hr) hcell))
  refine ⟨href, ?_⟩
  by_cases hv : vfd = AT_FDCWD
  · obtain ⟨c, hcwd⟩ := hc.cwd_some
    simp only [pmemfile_vfd_at_ref, if_pos hv, get_fdcwd_reference, hcwd]
    exact ⟨_, _, rfl, unref_entry_after_inc sys.table c
      (count_pos_of_pointer none sys hc c (pointers_to_pos_of_cwd sys c hcwd))⟩
  · simp only [pmemfile_vfd_at_ref, if_neg hv]
    exact ⟨_, _, rfl, href⟩

/-- C12 at the state `pmemfile_vfd_table_init` returns, for `AT_FDCWD`. -/
theorem ref_unref_round_trip_witness :
    vfd_reachable_within_capacity ⟨state_after_init, []⟩ ∧
      (pmemfile_vfd_unref (pmemfile_vfd_ref state_after_init AT_FDCWD).1
          (pmemfile_vfd_ref state_after_init AT_FDCWD).2 = Except.ok state_after_init ∧
        ∃ t r, pmemfile_vfd_at_ref state_after_init AT_FDCWD = Except.ok (t, r) ∧
          pmemfile_vfd_unref t r = Except.ok state_after_init) :=
  ⟨state_after_init_reachable,
    ref_unref_round_trip ⟨state_after_init, []⟩ AT_FDCWD state_after_init_reachable⟩


/-- The state `state_after_assign` is reached within capacity. -/
theorem state_after_assign_reachable :
    vfd_reachable_within_capacity ⟨state_after_assign, []⟩ :=
  ⟨standard_fds, 3, 3, state_after_init, [vfd_op.assign (some 1) (some 10) 4 (-1)],
    state_after_init_eq, rfl⟩

/-- C13: in every state reached within the capacity of the free ring and for
every `vfd` and kernel result `kret`, `pmemfile_vfd_close(vfd)` returns; it
forwards `close(vfd)` to the kernel exactly once (the record of calls grows by
`sys_close vfd`, followed at most by the `pmemfile_close` of a destroyed entry);
when cell `vfd` held an entry it returns 0 and that entry's `ref_count` is one
less, else it returns `kret` and no entry changes; afterwards cell `vfd` is
empty, `pmemfile_vfd_ref(vfd)` returns a pass-through reference with
`kernel_fd = vfd`, and no other cell and not `cwd_entry` is modified. -/
theorem close_result_and_effect (sys : vfd_system) (vfd kret : Int)
    (h : vfd_reachable_within_capacity sys) :
    ∃ s' ret rest, pmemfile_vfd_close sys.table vfd kret = Except.ok (s', ret) ∧
      s'.events = sys.table.events ++ event.sys_close vfd :: rest ∧
      (∀ ev, ev ∈ rest → ∃ p f, ev = event.pmemfile_close p f) ∧
      (∀ e, is_in_vfd_table_range vfd = true → sys.table.vfd_table vfd.toNat = some e →
        ret = 0 ∧ (s'.store e).ref_count = (sys.table.store e).ref_count - 1 ∧
          ∀ e', e' ≠ e → s'.store e' = sys.table.store e') ∧
      ((is_in_vfd_table_range vfd = false ∨ sys.table.vfd_table vfd.toNat = none) →
        ret = kret ∧ s'.store = sys.table.store ∧ rest = []) ∧
      (is_in_vfd_table_range vfd = true → s'.vfd_table vfd.toNat = none) ∧
      pmemfile_vfd_ref s' vfd = (s', ⟨none, none, vfd, none⟩) ∧
      (∀ i, i ≠ vfd.toNat → s'.vfd_table i = sys.table.vfd_table i) ∧
      (is_in_vfd_table_range vfd = false → s'.vfd_table = sys.table.vfd_table) ∧
      s'.cwd_entry = sys.table.cwd_entry := by
  have hc := reachable_consistent sys h
  cases hcan : can_be_in_vfd_table sys.table vfd with
  | false =>
    have hnot : is_in_vfd_table_range vfd = false ∨ sys.table.vfd_table vfd.toNat = none := by
      unfold can_be_in_vfd_table at hcan
      cases hr : is_in_vfd_table_range vfd with
      | false => exact Or.inl rfl
      | true =>
        simp only [hr, Bool.not_true, Bool.false_eq_true, if_false] at hcan
        right
        cases hcell : sys.table.vfd_table vfd.toNat with
        | none => rfl
        | some e => simp [hcell] at hcan
    have hclose : pmemfile_vfd_close sys.table vfd kret =
        Except.ok (syscall_close sys.table vfd, kret) := by
      simp only [pmemfile_vfd_close, hcan, Bool.false_eq_true, if_false]
    refine ⟨_, _, [], hclose, rfl, ?_, ?_, fun _ => ⟨rfl, rfl, rfl⟩, ?_, ?_, fun _ _ => rfl,
      fun _ => rfl, rfl⟩
    · intro ev hev
      cases hev
    · intro e hr hcell
      rcases hnot with hn | hn
      · rw [hn] at hr
        cases hr
      · rw [hn] at hcell
        cases hcell
    · intro hr
      rcases hnot with hn | hn
      · rw [hn] at hr
        cases hr
      · exact hn
    · exact pmemfile_vfd_ref_pass_through _ vfd hnot
  | true =>
    obtain ⟨hrange, e, hcell⟩ := can_be_in_vfd_table_true _ _ hcan
    have hi := toNat_lt_of_in_range hrange
    obtain ⟨hsp, hpool⟩ := hc.cell_valid vfd.toNat e hi hcell
    obtain ⟨s3, hun⟩ := unref_entry_ok
      (syscall_close
        { sys.table with vfd_table := Function.update sys.table.vfd_table vfd.toNat none } vfd)
      e (Or.inr hpool)
    obtain ⟨hvt, hcwd, _, _, hstore, hrest⟩ := unref_entry_cases _ s3 e hun
    have hclose : pmemfile_vfd_close sys.table vfd kret = Except.ok (s3, 0) := by
      simp only [pmemfile_vfd_close, hcan, if_true, hcell, hun]
    have hcell3 : s3.vfd_table vfd.toNat = none := by
      rw [hvt]
      simp only [syscall_close, Function.update_same]
    have hev : ∃ rest, s3.events = sys.table.events ++ event.sys_close vfd :: rest ∧
        ∀ ev, ev ∈ rest → ∃ p f, ev = event.pmemfile_close p f := by
      rcases hrest with ⟨_, _, _, hev, _⟩ | ⟨_, _, _, hd | hd⟩
      · exact ⟨[], hev, fun ev hin => by cases hin⟩
      · have hsp' : (sys.table.store e).is_special_cwd_desc = true := hd.1
        rw [hsp] at hsp'
        cases hsp'
      · obtain ⟨_, p, _, hev, _⟩ := hd
        refine ⟨[event.pmemfile_close (some p) (sys.table.store e).file], ?_, ?_⟩
        · rw [hev]
          simp only [syscall_close, List.append_assoc, List.singleton_append]
        · intro ev hin
          simp only [List.mem_singleton] at hin
          exact ⟨_, _, hin⟩
    obtain ⟨rest, hev1, hev2⟩ := hev
    refine ⟨s3, 0, rest, hclose, hev1, hev2, ?_, ?_, fun _ => hcell3,
      pmemfile_vfd_ref_pass_through s3 vfd (Or.inr hcell3), ?_, ?_, hcwd⟩
    · intro e1 _ hcell1
      rw [hcell, Option.some.injEq] at hcell1
      subst hcell1
      refine ⟨rfl, ?_, ?_⟩
      · rw [hstore, Function.update_same]
        rfl
      · intro e' hne
        rw [hstore, Function.update_noteq hne]
        rfl
    · intro hnot
      rcases hnot with hn | hn
      · rw [hn] at hrange
        cases hrange
      · rw [hn] at hcell
        cases hcell
    · intro i hne
      rw [hvt]
      simp only [syscall_close, Function.update_noteq hne]
    · intro hn
      rw [hn] at hrange
      cases hrange

/-- C13 at the state after one file was assigned to descriptor 4: closing
descriptor 4 with the kernel returning 0. -/
theorem close_result_and_effect_witness :
    vfd_reachable_within_capacity ⟨state_after_assign, []⟩ ∧
    ∃ s' ret rest, pmemfile_vfd_close state_after_assign 4 0 = Except.ok (s', ret) ∧
      s'.events = state_after_assign.events ++ event.sys_close 4 :: rest ∧
      (∀ ev, ev ∈ rest → ∃ p f, ev = event.pmemfile_close p f) ∧
      (∀ e, is_in_vfd_table_range 4 = true →
        state_after_assign.vfd_table (4 : Int).toNat = some e →
        ret = 0 ∧ (s'.store e).ref_count = (state_after_assign.store e).ref_count - 1 ∧
          ∀ e', e' ≠ e → s'.store e' = state_after_assign.store e') ∧
      ((is_in_vfd_table_range 4 = false ∨
          state_after_assign.vfd_table (4 : Int).toNat = none) →
        ret = 0 ∧ s'.store = state_after_assign.store ∧ rest = []) ∧
      (is_in_vfd_table_range 4 = true → s'.vfd_table (4 : Int).toNat = none) ∧
      pmemfile_vfd_ref s' 4 = (s', ⟨none, none, 4, none⟩) ∧
      (∀ i, i ≠ (4 : Int).toNat → s'.vfd_table i = state_after_assign.vfd_table i) ∧
      (is_in_vfd_table_range 4 = false → s'.vfd_table = state_after_assign.vfd_table) ∧
      s'.cwd_entry = state_after_assign.cwd_entry :=
  ⟨state_after_assign_reachable,
    close_result_and_effect ⟨state_after_assign, []⟩ 4 0 state_after_assign_reachable⟩


/-- C15: in every state reached within the capacity of the free ring whose free
ring is non-empty, `pmemfile_vfd_assign(pool, file, path)` returns; when the
value `v` it returns is not negative, `v < 0x8000`, cell `v` holds the entry
fetched from the ring, that entry is `(pool, file, kernel_cwd_fd = -1,
is_special_cwd_desc = false, ref_count = 1)`, no other cell is modified, and
`pmemfile_vfd_ref(v)` then returns a reference with that pool, file and entry
and makes the entry's `ref_count` 2. -/
theorem assign_then_ref (sys : vfd_system) (pool file : Option Nat) (memfd_ret open_ret : Int)
    (h : vfd_reachable_within_capacity sys) (hne : free_ring_count sys.table ≠ 0) :
    ∃ s' v, pmemfile_vfd_assign sys.table pool file memfd_ret open_ret = Except.ok (s', v) ∧
      (0 ≤ v → ∃ e, sys.table.free_vfile_slots sys.table.fetch_index = some e ∧
        v < 0x8000 ∧
        s'.vfd_table v.toNat = some e ∧ s'.store e = ⟨pool, file, -1, false, 1⟩ ∧
        (∀ i, i ≠ v.toNat → s'.vfd_table i = sys.table.vfd_table i) ∧
        (pmemfile_vfd_ref s' v).2 = ⟨pool, file, 0, some e⟩ ∧
        ((pmemfile_vfd_ref s' v).1.store e).ref_count = 2) := by
  have hc := reachable_consistent sys h
  obtain ⟨f1, f2, f3, f4, f5, f6, _, f8⟩ := acquire_new_fd_frame sys.table memfd_ret open_ret
  have hsame : table_consistent ⟨(acquire_new_fd sys.table memfd_ret open_ret).1, sys.refs⟩ :=
    table_consistent_same none sys _ ⟨f1, f6, f2, f3, f5, f4, rfl⟩ hc
  by_cases hneg : (acquire_new_fd sys.table memfd_ret open_ret).2 < 0
  · refine ⟨(acquire_new_fd sys.table memfd_ret open_ret).1,
      (acquire_new_fd sys.table memfd_ret open_ret).2, ?_, fun hnn => absurd hnn (by omega)⟩
    simp only [pmemfile_vfd_assign, if_pos hneg]
  · have hnn : 0 ≤ (acquire_new_fd sys.table memfd_ret open_ret).2 := by omega
    have hrange := f8 hnn
    have hne1 : free_ring_count (acquire_new_fd sys.table memfd_ret open_ret).1 ≠ 0 := by
      rw [free_ring_count_same _ _ f5 f4]
      exact hne
    obtain ⟨e, hslot, hst, _, _, _, _⟩ := fetch_store_ok
      ⟨(acquire_new_fd sys.table memfd_ret open_ret).1, sys.refs⟩ ⟨pool, file, -1, false, 1⟩
      hsame hne1 rfl
    have hassign : pmemfile_vfd_assign sys.table pool file memfd_ret open_ret = Except.ok
        ({ (acquire_new_fd sys.table memfd_ret open_ret).1 with
            fetch_index :=
              ((acquire_new_fd sys.table memfd_ret open_ret).1.fetch_index + 1) % FREE_SLOTS_SIZE,
            store := Function.update (acquire_new_fd sys.table memfd_ret open_ret).1.store e
              ⟨pool, file, -1, false, 1⟩,
            vfd_table := Function.update (acquire_new_fd sys.table memfd_ret open_ret).1.vfd_table
              (acquire_new_fd sys.table memfd_ret open_ret).2.toNat (some e) },
          (acquire_new_fd sys.table memfd_ret open_ret).2) := by
      simp only [pmemfile_vfd_assign, if_neg hneg, hst]
    refine ⟨_, _, hassign, fun _ => ⟨e, ?_, ?_, ?_, ?_, ?_, ?_, ?_⟩⟩
    · rw [← f3, ← f4]
      exact hslot
    · simp only [is_in_vfd_table_range, Bool.and_eq_true, decide_eq_true_eq, VFD_TABLE_SIZE]
        at hrange
      omega
    · simp only [Function.update_same]
    · simp only [Function.update_same]
    · intro i hi
      simp only [Function.update_noteq hi, f2]
    · rw [pmemfile_vfd_ref_occupied _ _ e hrange (by simp only [Function.update_same])]
      simp only [Function.update_same]
    · rw [pmemfile_vfd_ref_occupied _ _ e hrange (by simp only [Function.update_same])]
      simp only [vf_ref_count_inc, Function.update_same]
      rfl

/-- C15 at the state `pmemfile_vfd_table_init` returns: the file 10 of pool 1 is
assigned and `memfd_create` returns descriptor 4. -/
theorem assign_then_ref_witness :
    vfd_reachable_within_capacity ⟨state_after_init, []⟩ ∧
    free_ring_count state_after_init ≠ 0 ∧
    ∃ s' v, pmemfile_vfd_assign state_after_init (some 1) (some 10) 4 (-1) = Except.ok (s', v) ∧
      (0 ≤ v → ∃ e, state_after_init.free_vfile_slots state_after_init.fetch_index = some e ∧
        v < 0x8000 ∧
        s'.vfd_table v.toNat = some e ∧ s'.store e = ⟨some 1, some 10, -1, false, 1⟩ ∧
        (∀ i, i ≠ v.toNat → s'.vfd_table i = state_after_init.vfd_table i) ∧
        (pmemfile_vfd_ref s' v).2 = ⟨some 1, some 10, 0, some e⟩ ∧
        ((pmemfile_vfd_ref s' v).1.store e).ref_count = 2) :=
  ⟨state_after_init_reachable, by decide,
    assign_then_ref ⟨state_after_init, []⟩ (some 1) (some 10) 4 (-1) state_after_init_reachable
      (by decide)⟩


/-- What installing a new entry of the working directory does in a consistent
state with a non-empty free ring: the entry `e` at the fetch position of the free
ring, which nothing points at, is initialised with `value` and stored in
`cwd_entry`, and the previous entry `c` is released. -/
theorem install_cwd_effect (sys : vfd_system) (value : vfile_description)
    (hc : table_consistent sys) (hne : free_ring_count sys.table ≠ 0)
    (hval : value.ref_count = 1) :
    ∃ s' e c, sys.table.cwd_entry = some c ∧
      sys.table.free_vfile_slots sys.table.fetch_index = some e ∧ e ≠ c ∧
      (sys.table.store e).ref_count = 0 ∧ pointers_to sys e = 0 ∧
      store_entry (fetch_free_file_slot sys.table).1 (fetch_free_file_slot sys.table).2 value =
        Except.ok ({ sys.table with
          fetch_index := (sys.table.fetch_index + 1) % FREE_SLOTS_SIZE,
          store := Function.update sys.table.store e value }, e) ∧
      unref_entry { sys.table with
          fetch_index := (sys.table.fetch_index + 1) % FREE_SLOTS_SIZE,
          store := Function.update sys.table.store e value,
          cwd_entry := some e } (some c) = Except.ok s' ∧
      s'.cwd_entry = some e ∧ s'.store e = value ∧
      s'.vfd_table = sys.table.vfd_table ∧
      s'.fetch_index = (sys.table.fetch_index + 1) % FREE_SLOTS_SIZE ∧
      (s'.store c).ref_count = (sys.table.store c).ref_count - 1 ∧
      (∀ e', e' ≠ e → e' ≠ c → s'.store e' = sys.table.store e') ∧
      ((sys.table.store c).ref_count ≠ 1 →
        s'.events = sys.table.events ∧ s'.kernel_fds = sys.table.kernel_fds ∧
        s'.free_vfile_slots = sys.table.free_vfile_slots ∧
        s'.insert_index = sys.table.insert_index) ∧
      ((sys.table.store c).ref_count = 1 →
        s'.free_vfile_slots =
          Function.update sys.table.free_vfile_slots sys.table.insert_index (some c) ∧
        s'.insert_index = (sys.table.insert_index + 1) % FREE_SLOTS_SIZE ∧
        ((sys.table.store c).is_special_cwd_desc = true →
          s'.events = sys.table.events ++ [event.sys_close (sys.table.store c).kernel_cwd_fd] ∧
          s'.kernel_fds =
            Function.update sys.table.kernel_fds (sys.table.store c).kernel_cwd_fd false) ∧
        ((sys.table.store c).is_special_cwd_desc = false →
          (sys.table.store c).pool ≠ none ∧
          s'.events = sys.table.events ++
            [event.pmemfile_close (sys.table.store c).pool (sys.table.store c).file] ∧
          s'.kernel_fds = sys.table.kernel_fds)) := by
  obtain ⟨e, hslot, hst, _, hz, hp0, hf⟩ := fetch_store_ok sys value hc hne hval
  obtain ⟨c, hcwd⟩ := hc.cwd_some
  have hec : e ≠ c := by
    intro hec
    subst hec
    have := pointers_to_pos_of_cwd sys e hcwd
    omega
  have hce : c ≠ e := fun hce => hec hce.symm
  have hvalid := hc.cwd_valid c hcwd
  have hstc : (Function.update sys.table.store e value) c = sys.table.store c :=
    Function.update_noteq hce _ _
  obtain ⟨s', hun⟩ := unref_entry_ok
    { sys.table with
      fetch_index := (sys.table.fetch_index + 1) % FREE_SLOTS_SIZE,
      store := Function.update sys.table.store e value,
      cwd_entry := some e } c (by
        show ((Function.update sys.table.store e value) c).is_special_cwd_desc = true ∨
          ((Function.update sys.table.store e value) c).pool ≠ none
        rw [hstc]
        exact hvalid)
  obtain ⟨hvt, hcw, hfi, _, hstore, hrest⟩ := unref_entry_cases _ s' c hun
  dsimp only at hvt hcw hfi hstore hrest
  rw [hstc] at hstore hrest
  refine ⟨s', e, c, hcwd, hslot, hec, hz, hp0, hst, hun, hcw, ?_, hvt, hfi, ?_, ?_, ?_, ?_⟩
  · rw [hstore, Function.update_noteq hec, Function.update_same]
  · rw [hstore, Function.update_same]
  · intro e' he1 he2
    rw [hstore, Function.update_noteq he2, Function.update_noteq he1]
  · intro hne1
    rcases hrest with ⟨_, h1, h2, h3, h4⟩ | ⟨h1, _⟩
    · exact ⟨h3, h4, h1, h2⟩
    · exact absurd h1 hne1
  · intro h1
    rcases hrest with ⟨hne1, _⟩ | ⟨_, h2, h3, hd⟩
    · exact absurd h1 hne1
    · refine ⟨h2, h3, ?_, ?_⟩
      · intro hsp
        rcases hd with ⟨_, h4, h5⟩ | ⟨hns, _⟩
        · exact ⟨h4, h5⟩
        · rw [hsp] at hns
          cases hns
      · intro hsp
        rcases hd with ⟨hs, _⟩ | ⟨_, p, hp, h4, h5⟩
        · rw [hsp] at hs
          cases hs
        · refine ⟨?_, ?_, h5⟩
          · rw [hp]
            exact Option.some_ne_none p
          · rw [h4, hp]

/-- C19: in every state reached within the capacity of the free ring whose free
ring is non-empty, `pmemfile_vfd_chdir_pf(pool, file)` returns 0 and makes
`cwd_entry` the entry `e` fetched from the ring (nothing pointed at it), now
`(pool, file, kernel_cwd_fd = -1, is_special_cwd_desc = false, ref_count = 1)`,
so that `pmemfile_vfd_at_ref(AT_FDCWD)` afterwards returns that pool and file; no
cell is modified; the `ref_count` of the previous entry `c` of the working
directory is one less; when it was not 1, nothing is closed and the ring is as
before; when it was 1 (the count reaches zero), `c` is stored at `insert_index`
of the free ring, and its `kernel_cwd_fd` is closed through the kernel when it
is an anchor, its file through `pmemfile_close` otherwise. -/
theorem cwd_replacement (sys : vfd_system) (pool file : Option Nat)
    (h : vfd_reachable_within_capacity sys) (hne : free_ring_count sys.table ≠ 0) :
    ∃ s' e c, sys.table.cwd_entry = some c ∧
      sys.table.free_vfile_slots sys.table.fetch_index = some e ∧ e ≠ c ∧
      (sys.table.store e).ref_count = 0 ∧ pointers_to sys e = 0 ∧
      pmemfile_vfd_chdir_pf sys.table pool file = Except.ok (s', 0) ∧
      s'.cwd_entry = some e ∧ s'.store e = ⟨pool, file, -1, false, 1⟩ ∧
      (∃ s'', pmemfile_vfd_at_ref s' AT_FDCWD = Except.ok (s'', ⟨pool, file, -1, some e⟩)) ∧
      s'.vfd_table = sys.table.vfd_table ∧
      (s'.store c).ref_count = (sys.table.store c).ref_count - 1 ∧
      ((s'.store c).ref_count = 0 ↔ (sys.table.store c).ref_count = 1) ∧
      ((sys.table.store c).ref_count ≠ 1 →
        s'.events = sys.table.events ∧ s'.kernel_fds = sys.table.kernel_fds ∧
        s'.free_vfile_slots = sys.table.free_vfile_slots ∧
        s'.insert_index = sys.table.insert_index) ∧
      ((sys.table.store c).ref_count = 1 →
        s'.free_vfile_slots =
          Function.update sys.table.free_vfile_slots sys.table.insert_index (some c) ∧
        s'.insert_index = (sys.table.insert_index + 1) % FREE_SLOTS_SIZE ∧
        ((sys.table.store c).is_special_cwd_desc = true →
          s'.events = sys.table.events ++ [event.sys_close (sys.table.store c).kernel_cwd_fd] ∧
          s'.kernel_fds =
            Function.update sys.table.kernel_fds (sys.table.store c).kernel_cwd_fd false) ∧
        ((sys.table.store c).is_special_cwd_desc = false →
          (sys.table.store c).pool ≠ none ∧
          s'.events = sys.table.events ++
            [event.pmemfile_close (sys.table.store c).pool (sys.table.store c).file] ∧
          s'.kernel_fds = sys.table.kernel_fds)) := by
  have hc := reachable_consistent sys h
  obtain ⟨s', e, c, hcwd, hslot, hec, hz, hp0, hst, hun, hcw, hse, hvt, _, hcnt, _, hkeep,
    hdestroy⟩ := install_cwd_effect sys ⟨pool, file, -1, false, 1⟩ hc hne rfl
  have hchdir : pmemfile_vfd_chdir_pf sys.table pool file = Except.ok (s', 0) := by
    simp only [pmemfile_vfd_chdir_pf, hst, chdir_exchange_entry, hcwd, hun]
  refine ⟨s', e, c, hcwd, hslot, hec, hz, hp0, hchdir, hcw, hse, ?_, hvt, hcnt, ?_, hkeep,
    hdestroy⟩
  · simp only [pmemfile_vfd_at_ref, if_true, get_fdcwd_reference, hcw, hse]
    exact ⟨_, rfl⟩
  · rw [hcnt]
    omega

/-- C19 at the state `pmemfile_vfd_table_init` returns, for the directory 10 of
pool 1. -/
theorem cwd_replacement_witness :
    vfd_reachable_within_capacity ⟨state_after_init, []⟩ ∧
    free_ring_count state_after_init ≠ 0 ∧
    ∃ s' e c, state_after_init.cwd_entry = some c ∧
      state_after_init.free_vfile_slots state_after_init.fetch_index = some e ∧ e ≠ c ∧
      (state_after_init.store e).ref_count = 0 ∧
      pointers_to ⟨state_after_init, []⟩ e = 0 ∧
      pmemfile_vfd_chdir_pf state_after_init (some 1) (some 10) = Except.ok (s', 0) ∧
      s'.cwd_entry = some e ∧ s'.store e = ⟨some 1, some 10, -1, false, 1⟩ ∧
      (∃ s'', pmemfile_vfd_at_ref s' AT_FDCWD =
        Except.ok (s'', ⟨some 1, some 10, -1, some e⟩)) ∧
      s'.vfd_table = state_after_init.vfd_table ∧
      (s'.store c).ref_count = (state_after_init.store c).ref_count - 1 ∧
      ((s'.store c).ref_count = 0 ↔ (state_after_init.store c).ref_count = 1) ∧
      ((state_after_init.store c).ref_count ≠ 1 →
        s'.events = state_after_init.events ∧ s'.kernel_fds = state_after_init.kernel_fds ∧
        s'.free_vfile_slots = state_after_init.free_vfile_slots ∧
        s'.insert_index = state_after_init.insert_index) ∧
      ((state_after_init.store c).ref_count = 1 →
        s'.free_vfile_slots =
          Function.update state_after_init.free_vfile_slots state_after_init.insert_index
            (some c) ∧
        s'.insert_index = (state_after_init.insert_index + 1) % FREE_SLOTS_SIZE ∧
        ((state_after_init.store c).is_special_cwd_desc = true →
          s'.events = state_after_init.events ++
            [event.sys_close (state_after_init.store c).kernel_cwd_fd] ∧
          s'.kernel_fds =
            Function.update state_after_init.kernel_fds
              (state_after_init.store c).kernel_cwd_fd false) ∧
        ((state_after_init.store c).is_special_cwd_desc = false →
          (state_after_init.store c).pool ≠ none ∧
          s'.events = state_after_init.events ++
            [event.pmemfile_close (state_after_init.store c).pool
              (state_after_init.store c).file] ∧
          s'.kernel_fds = state_after_init.kernel_fds)) :=
  ⟨state_after_init_reachable, by decide,
    cwd_replacement ⟨state_after_init, []⟩ (some 1) (some 10) state_after_init_reachable
      (by decide)⟩


/-- C18, amended: in every state reached within the capacity of the free ring
and for every `fd`: when the kernel's `fchdir(fd)` returns a negative value,
`pmemfile_vfd_chdir_kernel_fd(fd)` returns that value, fetches no entry from the
free ring and leaves `cwd_entry`, the cells and the entries unchanged; when it
returns `kret ≥ 0` and the free ring is non-empty, the function returns `kret`
and `cwd_entry` becomes the entry fetched from the ring (nothing pointed at it),
now `(pool = NULL, file = NULL, kernel_cwd_fd = fd, is_special_cwd_desc = true,
ref_count = 1)`, with the cells unchanged and the count of the previous entry of
the working directory one less. -/
theorem chdir_kernel_fd_result (sys : vfd_system) (fd kret : Int)
    (h : vfd_reachable_within_capacity sys) :
    (kret < 0 →
      ∃ s', pmemfile_vfd_chdir_kernel_fd sys.table fd kret = Except.ok (s', kret) ∧
        s'.fetch_index = sys.table.fetch_index ∧ s'.insert_index = sys.table.insert_index ∧
        s'.free_vfile_slots = sys.table.free_vfile_slots ∧
        s'.cwd_entry = sys.table.cwd_entry ∧ s'.vfd_table = sys.table.vfd_table ∧
        s'.store = sys.table.store ∧ s'.kernel_fds = sys.table.kernel_fds ∧
        s'.events = sys.table.events ++ [event.sys_fchdir fd kret]) ∧
    (0 ≤ kret → free_ring_count sys.table ≠ 0 →
      ∃ s' e c, sys.table.cwd_entry = some c ∧
        sys.table.free_vfile_slots sys.table.fetch_index = some e ∧ e ≠ c ∧
        (sys.table.store e).ref_count = 0 ∧ pointers_to sys e = 0 ∧
        pmemfile_vfd_chdir_kernel_fd sys.table fd kret = Except.ok (s', kret) ∧
        s'.cwd_entry = some e ∧ s'.store e = ⟨none, none, fd, true, 1⟩ ∧
        s'.vfd_table = sys.table.vfd_table ∧
        (s'.store c).ref_count = (sys.table.store c).ref_count - 1) := by
  have hc := reachable_consistent sys h
  constructor
  · intro hneg
    refine ⟨syscall_fchdir sys.table fd kret, ?_, rfl, rfl, rfl, rfl, rfl, rfl, rfl, rfl⟩
    simp only [pmemfile_vfd_chdir_kernel_fd, if_pos hneg]
  · intro hnn hne
    have hsame : table_consistent ⟨syscall_fchdir sys.table fd kret, sys.refs⟩ :=
      table_consistent_same none sys _ ⟨rfl, rfl, rfl, rfl, rfl, rfl, rfl⟩ hc
    obtain ⟨s', e, c, hcwd, hslot, hec, hz, hp0, hst, hun, hcw, hse, hvt, _, hcnt, _⟩ :=
      install_cwd_effect ⟨syscall_fchdir sys.table fd kret, sys.refs⟩ ⟨none, none, fd, true, 1⟩
        hsame hne rfl
    have hnot : ¬ kret < 0 := by omega
    have hcwd0 : (syscall_fchdir sys.table fd kret).cwd_entry = some c := hcwd
    have hchdir : pmemfile_vfd_chdir_kernel_fd sys.table fd kret = Except.ok (s', kret) := by
      simp only [pmemfile_vfd_chdir_kernel_fd, if_neg hnot, hst, chdir_exchange_entry, hcwd0,
        hun]
    exact ⟨s', e, c, hcwd, hslot, hec, hz, hp0, hchdir, hcw, hse, hvt, hcnt⟩

/-- C18, amended, at the state `pmemfile_vfd_table_init` returns: for
descriptor 2, a kernel result of -9 and a kernel result of 0. -/
theorem chdir_kernel_fd_result_witness :
    vfd_reachable_within_capacity ⟨state_after_init, []⟩ ∧
    (∃ s', pmemfile_vfd_chdir_kernel_fd state_after_init 2 (-9) = Except.ok (s', -9) ∧
      s'.fetch_index = state_after_init.fetch_index ∧
      s'.insert_index = state_after_init.insert_index ∧
      s'.free_vfile_slots = state_after_init.free_vfile_slots ∧
      s'.cwd_entry = state_after_init.cwd_entry ∧ s'.vfd_table = state_after_init.vfd_table ∧
      s'.store = state_after_init.store ∧ s'.kernel_fds = state_after_init.kernel_fds ∧
      s'.events = state_after_init.events ++ [event.sys_fchdir 2 (-9)]) ∧
    free_ring_count state_after_init ≠ 0 ∧
    ∃ s' e c, state_after_init.cwd_entry = some c ∧
      state_after_init.free_vfile_slots state_after_init.fetch_index = some e ∧ e ≠ c ∧
      (state_after_init.store e).ref_count = 0 ∧ pointers_to ⟨state_after_init, []⟩ e = 0 ∧
      pmemfile_vfd_chdir_kernel_fd state_after_init 2 0 = Except.ok (s', 0) ∧
      s'.cwd_entry = some e ∧ s'.store e = ⟨none, none, 2, true, 1⟩ ∧
      s'.vfd_table = state_after_init.vfd_table ∧
      (s'.store c).ref_count = (state_after_init.store c).ref_count - 1 :=
  ⟨state_after_init_reachable,
    (chdir_kernel_fd_result ⟨state_after_init, []⟩ 2 (-9) state_after_init_reachable).1
      (by decide),
    by decide,
    (chdir_kernel_fd_result ⟨state_after_init, []⟩ 2 0 state_after_init_reachable).2
      (by decide) (by decide)⟩

/-- One round of `pin_cwd_ops`. -/
theorem pinned_state_round (n : Nat) (sys : vfd_system) (hp : pinned_state n sys)
    (hn : n + 1 < STORE_SIZE) :
    ∃ sys1 sys', vfd_step sys (vfd_op.at_ref AT_FDCWD) = Except.ok sys1 ∧
      within_capacity sys1.table (vfd_op.chdir_pf (some 1) (some 10)) = true ∧
      vfd_step sys1 (vfd_op.chdir_pf (some 1) (some 10)) = Except.ok sys' ∧
      pinned_state (n + 1) sys' := by
  obtain ⟨hf, hi, hs, hcwd, hcnt, hk⟩ := hp
  rw [store_size_eq] at hn
  have hslot : sys.table.free_vfile_slots (n + 1) = some (n + 1) := by
    rw [hs]
    simp only [state_after_init, store_size_eq, if_pos hn]
  have hne : n ≠ n + 1 := by omega
  have hdec : ¬ ((sys.table.store n).ref_count + 1 - 1 = 0) := by omega
  have hstep1 : vfd_step sys (vfd_op.at_ref AT_FDCWD) = Except.ok
      ⟨vf_ref_count_inc sys.table n,
        { internal := some n, kernel_fd := (sys.table.store n).kernel_cwd_fd,
          pool := (sys.table.store n).pool, file := (sys.table.store n).file } :: sys.refs⟩ := by
    simp only [vfd_step, pmemfile_vfd_at_ref, if_true, get_fdcwd_reference, hcwd]
  have hcap : within_capacity (vf_ref_count_inc sys.table n)
      (vfd_op.chdir_pf (some 1) (some 10)) = true := by
    simp only [within_capacity, vfd_op_well_formed, vfd_op_fetches, Option.isSome_some,
      Bool.not_true, Bool.false_or, Bool.true_and, decide_eq_true_eq, free_ring_count,
      vf_ref_count_inc, hf, hi, store_size_eq, free_slots_size_eq]
    omega
  have hstep2 : ∃ sys', vfd_step
      ⟨vf_ref_count_inc sys.table n,
        { internal := some n, kernel_fd := (sys.table.store n).kernel_cwd_fd,
          pool := (sys.table.store n).pool, file := (sys.table.store n).file } :: sys.refs⟩
      (vfd_op.chdir_pf (some 1) (some 10)) = Except.ok sys' ∧ pinned_state (n + 1) sys' := by
    simp only [vfd_step, pmemfile_vfd_chdir_pf, fetch_free_file_slot, vf_ref_count_inc, hf, hslot,
      store_entry, chdir_exchange_entry, hcwd, unref_entry, vf_ref_count_dec_and_fetch,
      Function.update_noteq hne, Function.update_same, if_neg hdec]
    refine ⟨_, rfl, ?_⟩
    constructor
    · show (n + 1 + 1) % FREE_SLOTS_SIZE = n + 1 + 1
      rw [free_slots_size_eq]
      omega
    · exact hi
    · exact hs
    · rfl
    · simp only [Function.update_noteq hne.symm, Function.update_same]
    · exact hk
  obtain ⟨sys', h2, hp2⟩ := hstep2
  exact ⟨_, sys', hstep1, hcap, h2, hp2⟩

/-- The run `pin_cwd_ops n` from a state after `k` rounds, while entries are
left: every step is within the capacity of the free ring and the kernel is not
involved. -/
theorem pinned_state_run (n : Nat) : ∀ (k : Nat) (sys : vfd_system), pinned_state k sys →
    k + n < STORE_SIZE →
    ∃ sys', vfd_run sys (pin_cwd_ops n) = some (Except.ok sys') ∧
      vfd_run_within_capacity sys (pin_cwd_ops n) = some (Except.ok sys') ∧
      pinned_state (k + n) sys' := by
  induction n with
  | zero =>
    intro k sys hp _
    exact ⟨sys, rfl, rfl, hp⟩
  | succ m ih =>
    intro k sys hp hk
    obtain ⟨sys1, sys2, h1, hcap, h2, hp2⟩ := pinned_state_round k sys hp (by omega)
    obtain ⟨sys', hr1, hr2, hp'⟩ := ih (k + 1) sys2 hp2 (by omega)
    refine ⟨sys', ?_, ?_, ?_⟩
    · simp only [pin_cwd_ops, vfd_run, kernel_allows, if_true, h1, h2]
      exact hr1
    · have hcap0 : within_capacity sys.table (vfd_op.at_ref AT_FDCWD) = true := rfl
      simp only [pin_cwd_ops, vfd_run_within_capacity, hcap0, if_true, h1, hcap, h2]
      exact hr2
    · have hkm : k + (m + 1) = k + 1 + m := by omega
      rw [hkm]
      exact hp'

/-- C18 at a state in which the free ring is empty: after
`pmemfile_vfd_table_init` and 65534 rounds of `pin_cwd_ops` (each round keeps a
reference to the working directory and changes the working directory, so each
round fetches an entry and none is published) all 65535 entries are in use.  The
state is reached with every step within the capacity of the free ring and
without a kernel result.  There `pmemfile_vfd_chdir_kernel_fd(0)`, with the
kernel's `fchdir` returning 0, fetches the pointer at position 65535 of the ring,
which was never written and is `NULL`, and stores through it: the call does not
return and `cwd_entry` does not become a fresh entry. -/
theorem chdir_kernel_fd_on_exhausted_ring :
    ∃ sys, vfd_reachable sys ∧ vfd_reachable_within_capacity sys ∧
      free_ring_count sys.table = 0 ∧
      sys.table.free_vfile_slots sys.table.fetch_index = none ∧
      kernel_allows sys.table (vfd_op.chdir_kernel_fd 0 0) = true ∧
      pmemfile_vfd_chdir_kernel_fd sys.table 0 0 = Except.error fault.null_dereference := by
  have hp0 : pinned_state 0 ⟨state_after_init, []⟩ :=
    ⟨rfl, rfl, rfl, rfl, by simp [state_after_init], by decide⟩
  obtain ⟨sys, hr1, hr2, hf, hi, hs, _, _, hk⟩ :=
    pinned_state_run 65534 0 ⟨state_after_init, []⟩ hp0 (by decide)
  have hslot : sys.table.free_vfile_slots sys.table.fetch_index = none := by
    rw [hs, hf]
    simp [state_after_init, store_size_eq]
  refine ⟨sys, ⟨standard_fds, 3, 3, state_after_init, pin_cwd_ops 65534, Or.inr (by decide),
    by decide, state_after_init_eq, hr1⟩,
    ⟨standard_fds, 3, 3, state_after_init, pin_cwd_ops 65534, state_after_init_eq, hr2⟩,
    ?_, hslot, ?_, ?_⟩
  · simp only [free_ring_count, hf, hi, store_size_eq, free_slots_size_eq]
  · simp only [kernel_allows, hk]
    decide
  · have hfs : (syscall_fchdir sys.table 0 0).free_vfile_slots
        (syscall_fchdir sys.table 0 0).fetch_index = none := hslot
    have hnot : ¬ ((0 : Int) < 0) := by decide
    simp only [pmemfile_vfd_chdir_kernel_fd, fetch_free_file_slot, hfs, store_entry, if_neg hnot]


/-- C20 at a failing input: after `pmemfile_vfd_table_init` and the assignment of
a file to descriptor 4 (`state_after_assign`), the working directory is anchored
at the kernel descriptor 3 with one reference.  `pmemfile_vfd_fchdir(4)` returns
0 and releases that anchor, whose count reaches zero: `close(3)` is forwarded to
the kernel, so the call is not made without any kernel call. -/
theorem fchdir_onto_pm_fd_closes_anchor :
    vfd_reachable ⟨state_after_assign, []⟩ ∧
    vfd_reachable_within_capacity ⟨state_after_assign, []⟩ ∧
    is_in_vfd_table_range 4 = true ∧ state_after_assign.vfd_table 4 = some 1 ∧
    state_after_assign.kernel_fds 3 = true ∧
    ∃ s', pmemfile_vfd_fchdir state_after_assign 4 (-1) (-1) = Except.ok (s', 0) ∧
      s'.events = state_after_assign.events ++ [event.sys_close 3] ∧
      s'.kernel_fds 3 = false :=
  ⟨⟨standard_fds, 3, 3, state_after_init, [vfd_op.assign (some 1) (some 10) 4 (-1)],
      Or.inr (by decide), by decide, state_after_init_eq,
      by
        have hallow : kernel_allows state_after_init
            (vfd_op.assign (some 1) (some 10) 4 (-1)) = true := by decide
        have hstep : vfd_step ⟨state_after_init, []⟩ (vfd_op.assign (some 1) (some 10) 4 (-1)) =
            Except.ok ⟨state_after_assign, []⟩ := rfl
        simp only [vfd_run, hallow, if_true, hstep]⟩,
    state_after_assign_reachable,
    by decide, by decide, by decide, _, rfl, rfl, by decide⟩

/-- C20, amended: in every state reached within the capacity of the free ring
and for every `vfd` in `[0, 0x8000)` whose cell holds the entry `E`,
`pmemfile_vfd_fchdir(vfd)` returns 0 whatever the kernel would answer; it
forwards neither `dup` nor `fchdir`: the record of calls is unchanged, or, when
the previous entry `c` of the working directory is not `E` and its count was 1,
grows by the one call that destroys `c` (`close` of its `kernel_cwd_fd` or
`pmemfile_close` of its file).  `cwd_entry` is `E`, no entry is fetched, no cell
is modified; when `c = E` no entry changes, else the count of `E` is one more
and the count of `c` one less, and no other entry changes.  A following
`pmemfile_vfd_close(vfd)` returns 0 and only forwards `close(vfd)`, so the file
of `E` is not closed, and `pmemfile_vfd_at_ref(AT_FDCWD)` then returns the pool
and the file of `E`. -/
theorem fchdir_onto_pm_fd (sys : vfd_system) (vfd dup_ret fchdir_ret kret : Int) (E : Nat)
    (h : vfd_reachable_within_capacity sys) (hrange : is_in_vfd_table_range vfd = true)
    (hcell : sys.table.vfd_table vfd.toNat = some E) :
    ∃ s' c, sys.table.cwd_entry = some c ∧
      pmemfile_vfd_fchdir sys.table vfd dup_ret fchdir_ret = Except.ok (s', 0) ∧
      (s'.events = sys.table.events ∨
        (c ≠ E ∧ (sys.table.store c).ref_count = 1 ∧
          (s'.events = sys.table.events ++ [event.sys_close (sys.table.store c).kernel_cwd_fd] ∨
            s'.events = sys.table.events ++
              [event.pmemfile_close (sys.table.store c).pool (sys.table.store c).file]))) ∧
      s'.cwd_entry = some E ∧ s'.fetch_index = sys.table.fetch_index ∧
      s'.vfd_table = sys.table.vfd_table ∧
      (c = E → s'.store = sys.table.store) ∧
      (c ≠ E → (s'.store E).ref_count = (sys.table.store E).ref_count + 1 ∧
        (s'.store c).ref_count = (sys.table.store c).ref_count - 1) ∧
      (∀ e', e' ≠ E → e' ≠ c → s'.store e' = sys.table.store e') ∧
      ∃ s'' s3, pmemfile_vfd_close s' vfd kret = Except.ok (s'', 0) ∧
        s''.events = s'.events ++ [event.sys_close vfd] ∧
        pmemfile_vfd_at_ref s'' AT_FDCWD = Except.ok (s3,
          ⟨(sys.table.store E).pool, (sys.table.store E).file,
            (sys.table.store E).kernel_cwd_fd, some E⟩) := by
  have hc := reachable_consistent sys h
  have hi := toNat_lt_of_in_range hrange
  obtain ⟨c, hcwd⟩ := hc.cwd_some
  have hposE := count_pos_of_pointer none sys hc E (pointers_to_pos_of_cell sys _ E hi hcell)
  have h1 := table_consistent_inc sys E hc (pointers_to_pos_of_cell sys _ E hi hcell)
  have hvE := h1.cell_valid vfd.toNat E hi hcell
  obtain ⟨s', hun⟩ := unref_entry_ok { vf_ref_count_inc sys.table E with cwd_entry := some E } c
    (h1.cwd_valid c hcwd)
  have hc' : table_consistent ⟨s', sys.refs⟩ :=
    table_consistent_exchange (vf_ref_count_inc sys.table E) sys.refs E s' h1 (Or.inr hvE.2)
      (by
        have hcw1 : (vf_ref_count_inc sys.table E).cwd_entry = some c := hcwd
        rw [hcw1]
        exact hun)
  obtain ⟨hvt, hcw, hfi, _, hstore, hrest⟩ := unref_entry_cases _ s' c hun
  have hvt' : s'.vfd_table = sys.table.vfd_table := hvt
  have hcw' : s'.cwd_entry = some E := hcw
  have hfi' : s'.fetch_index = sys.table.fetch_index := hfi
  have hstore' : s'.store = Function.update
      (Function.update sys.table.store E
        { sys.table.store E with ref_count := (sys.table.store E).ref_count + 1 }) c
      { (Function.update sys.table.store E
          { sys.table.store E with ref_count := (sys.table.store E).ref_count + 1 }) c with
        ref_count := ((Function.update sys.table.store E
          { sys.table.store E with ref_count := (sys.table.store E).ref_count + 1 }) c).ref_count
            - 1 } := hstore
  have hfchdir : pmemfile_vfd_fchdir sys.table vfd dup_ret fchdir_ret = Except.ok (s', 0) := by
    have hcw1 : (vf_ref_count_inc sys.table E).cwd_entry = some c := hcwd
    simp only [pmemfile_vfd_fchdir, hrange, if_true, hcell, hcw1, hun]
  have hs1c : c ≠ E → (vf_ref_count_inc sys.table E).store c = sys.table.store c := by
    intro hne
    simp only [vf_ref_count_inc, Function.update_noteq hne]
  have hs1E : (vf_ref_count_inc sys.table E).store E =
      { sys.table.store E with ref_count := (sys.table.store E).ref_count + 1 } := by
    simp only [vf_ref_count_inc, Function.update_same]
  have hstoreE : (s'.store E).pool = (sys.table.store E).pool ∧
      (s'.store E).file = (sys.table.store E).file ∧
      (s'.store E).kernel_cwd_fd = (sys.table.store E).kernel_cwd_fd := by
    rw [hstore']
    by_cases hcE : c = E
    · subst hcE
      simp only [Function.update_same, and_self]
    · simp only [Function.update_noteq (fun hEc : E = c => hcE hEc.symm), Function.update_same,
        and_self]
  have hevents : s'.events = sys.table.events ∨
      (c ≠ E ∧ (sys.table.store c).ref_count = 1 ∧
        (s'.events = sys.table.events ++ [event.sys_close (sys.table.store c).kernel_cwd_fd] ∨
          s'.events = sys.table.events ++
            [event.pmemfile_close (sys.table.store c).pool (sys.table.store c).file])) := by
    rcases hrest with ⟨_, _, _, hev, _⟩ | ⟨hone, _, _, hd⟩
    · exact Or.inl hev
    · right
      have hone' : ((vf_ref_count_inc sys.table E).store c).ref_count = 1 := hone
      have hcE : c ≠ E := by
        intro hcE
        subst hcE
        rw [hs1E] at hone'
        simp only at hone'
        omega
      rw [hs1c hcE] at hone'
      refine ⟨hcE, hone', ?_⟩
      rcases hd with ⟨_, hev, _⟩ | ⟨_, p, hp, hev, _⟩
      · left
        have hev' : s'.events = sys.table.events ++
            [event.sys_close ((vf_ref_count_inc sys.table E).store c).kernel_cwd_fd] := hev
        rw [hs1c hcE] at hev'
        exact hev'
      · right
        have hp' : ((vf_ref_count_inc sys.table E).store c).pool = some p := hp
        have hev' : s'.events = sys.table.events ++
            [event.pmemfile_close (some p) ((vf_ref_count_inc sys.table E).store c).file] := hev
        rw [hs1c hcE] at hp' hev'
        rw [hev', hp']
  -- the following close
  have hcell' : s'.vfd_table vfd.toNat = some E := by
    rw [hvt']
    exact hcell
  have hcan : can_be_in_vfd_table s' vfd = true := by
    simp only [can_be_in_vfd_table, hrange, Bool.not_true, Bool.false_eq_true, if_false, hcell',
      Option.isSome_some]
  have htwo : 2 ≤ (s'.store E).ref_count := by
    have hcnt := hc'.counts E
    rw [pointers_to_eq] at hcnt
    have hcp := cells_pointing_at_pos s' vfd.toNat E hi hcell'
    dsimp only at hcnt
    simp only [hcw', if_true, if_false, reduceCtorEq] at hcnt
    omega
  have hnz : ¬ ((s'.store E).ref_count - 1 = 0) := by omega
  have hclose : pmemfile_vfd_close s' vfd kret = Except.ok
      ({ s' with
          vfd_table := Function.update s'.vfd_table vfd.toNat none,
          kernel_fds := Function.update s'.kernel_fds vfd false,
          events := s'.events ++ [event.sys_close vfd],
          store := Function.update s'.store E
            { s'.store E with ref_count := (s'.store E).ref_count - 1 } }, 0) := by
    simp only [pmemfile_vfd_close, hcan, if_true, hcell', unref_entry, vf_ref_count_dec_and_fetch,
      syscall_close, if_neg hnz]
  have hlast : ∃ s'' s3, pmemfile_vfd_close s' vfd kret = Except.ok (s'', 0) ∧
      s''.events = s'.events ++ [event.sys_close vfd] ∧
      pmemfile_vfd_at_ref s'' AT_FDCWD = Except.ok (s3,
        ⟨(sys.table.store E).pool, (sys.table.store E).file,
          (sys.table.store E).kernel_cwd_fd, some E⟩) := by
    refine ⟨_, vf_ref_count_inc
      { s' with
        vfd_table := Function.update s'.vfd_table vfd.toNat none,
        kernel_fds := Function.update s'.kernel_fds vfd false,
        events := s'.events ++ [event.sys_close vfd],
        store := Function.update s'.store E
          { s'.store E with ref_count := (s'.store E).ref_count - 1 } } E, hclose, rfl, ?_⟩
    simp only [pmemfile_vfd_at_ref, if_true, get_fdcwd_reference, hcw', Function.update_same,
      hstoreE.1, hstoreE.2.1, hstoreE.2.2]
  refine ⟨s', c, hcwd, hfchdir, hevents, hcw', hfi', hvt', ?_, ?_, ?_, hlast⟩
  · intro hcE
    subst hcE
    rw [hstore']
    simp only [Function.update_same, Function.update_idem, add_sub_cancel_right,
      Function.update_eq_self]
  · intro hcE
    rw [hstore']
    refine ⟨?_, ?_⟩
    · simp only [Function.update_noteq (fun hEc : E = c => hcE hEc.symm), Function.update_same]
    · simp only [Function.update_same, Function.update_noteq hcE]
  · intro e' h1' h2'
    rw [hstore']
    simp only [Function.update_noteq h2', Function.update_noteq h1']

/-- C20, amended, at the state after one file was assigned to descriptor 4. -/
theorem fchdir_onto_pm_fd_witness :
    vfd_reachable_within_capacity ⟨state_after_assign, []⟩ ∧
    is_in_vfd_table_range 4 = true ∧
    state_after_assign.vfd_table (4 : Int).toNat = some 1 ∧
    ∃ s' c, state_after_assign.cwd_entry = some c ∧
      pmemfile_vfd_fchdir state_after_assign 4 (-1) (-1) = Except.ok (s', 0) ∧
      (s'.events = state_after_assign.events ∨
        (c ≠ 1 ∧ (state_after_assign.store c).ref_count = 1 ∧
          (s'.events = state_after_assign.events ++
              [event.sys_close (state_after_assign.store c).kernel_cwd_fd] ∨
            s'.events = state_after_assign.events ++
              [event.pmemfile_close (state_after_assign.store c).pool
                (state_after_assign.store c).file]))) ∧
      s'.cwd_entry = some 1 ∧ s'.fetch_index = state_after_assign.fetch_index ∧
      s'.vfd_table = state_after_assign.vfd_table ∧
      (c = 1 → s'.store = state_after_assign.store) ∧
      (c ≠ 1 → (s'.store 1).ref_count = (state_after_assign.store 1).ref_count + 1 ∧
        (s'.store c).ref_count = (state_after_assign.store c).ref_count - 1) ∧
      (∀ e', e' ≠ 1 → e' ≠ c → s'.store e' = state_after_assign.store e') ∧
      ∃ s'' s3, pmemfile_vfd_close s' 4 0 = Except.ok (s'', 0) ∧
        s''.events = s'.events ++ [event.sys_close 4] ∧
        pmemfile_vfd_at_ref s'' AT_FDCWD = Except.ok (s3,
          ⟨(state_after_assign.store 1).pool, (state_after_assign.store 1).file,
            (state_after_assign.store 1).kernel_cwd_fd, some 1⟩) :=
  ⟨state_after_assign_reachable, by decide, by decide,
    fchdir_onto_pm_fd ⟨state_after_assign, []⟩ 4 (-1) (-1) 0 1 state_after_assign_reachable
      (by decide) (by decide)⟩


/-! ## Theorems, part VI: remaining claims -/

/-- When the argument block is initialized, the loop of
`find_first_initialized_block_after` stops at once and the argument block is
returned. -/
theorem find_first_initialized_of_initialized (v : pmemfile_vinode) (i : Nat)
    (b : pmemfile_block_desc) (hb : v.blocks[i]? = some b)
    (hinit : block_uninitialized b = false) :
    find_first_initialized_block_after v (some i) = some i := by
  have hlt : i < v.blocks.length := by
    by_contra hge
    rw [List.getElem?_eq_none (not_lt.mp hge)] at hb
    cases hb
  have hdrop : v.blocks.drop i = b :: v.blocks.drop (i + 1) := by
    rw [List.getElem?_eq_getElem hlt, Option.some.injEq] at hb
    rw [← hb]
    exact List.drop_eq_getElem_cons hlt
  simp only [find_first_initialized_block_after, hdrop, skip_uninitialized, hinit,
    Bool.false_eq_true, if_false]

/-- C25 at a failing input: a vinode with two initialized blocks, `[0, 100)` and
`[100, 200)`.  With the first block as argument,
`find_first_initialized_block_after` returns the argument block itself (the
`while` loop tests the argument block first and stops, as it is initialized),
not `NULL` and not the second block, which is the first initialized block that
follows the argument. -/
theorem find_first_initialized_block_after_returns_argument :
    block_at ⟨[⟨0, 100, 1, 0⟩, ⟨4096, 100, 1, 100⟩], 0, 0⟩ (some 0) = some ⟨0, 100, 1, 0⟩ ∧
    block_uninitialized ⟨0, 100, 1, 0⟩ = false ∧
    block_uninitialized ⟨4096, 100, 1, 100⟩ = false ∧
    find_first_initialized_block_after ⟨[⟨0, 100, 1, 0⟩, ⟨4096, 100, 1, 100⟩], 0, 0⟩ (some 0) =
      some 0 ∧
    find_first_initialized_block_after ⟨[⟨0, 100, 1, 0⟩, ⟨4096, 100, 1, 100⟩], 0, 0⟩ (some 0) ≠
      some 1 :=
  ⟨rfl, by decide, by decide,
    find_first_initialized_of_initialized ⟨[⟨0, 100, 1, 0⟩, ⟨4096, 100, 1, 100⟩], 0, 0⟩ 0
      ⟨0, 100, 1, 0⟩ rfl (by decide),
    by
      rw [find_first_initialized_of_initialized ⟨[⟨0, 100, 1, 0⟩, ⟨4096, 100, 1, 100⟩], 0, 0⟩ 0
        ⟨0, 100, 1, 0⟩ rfl (by decide)]
      decide⟩

/-- C26 at a failing input: after `pmemfile_vfd_table_init`, the assignment of a
file to descriptor 4, `dup2(4, 3)` and `pmemfile_vfd_chdir_pf` (which closes the
kernel descriptor 3 of the old anchor), cell 3 still points at entry 1.  The
kernel then hands out descriptor 3 to `pmemfile_vfd_assign`, which makes no
assertion: it returns 3 and cell 3 points at the new entry 3, while the
`ref_count` of entry 1 is still 2 with one pointer less. -/
theorem assign_overwrites_occupied_cell :
    ∃ t sys s', pmemfile_vfd_table_init standard_fds 3 3 = Except.ok t ∧
      vfd_run ⟨t, []⟩ [vfd_op.assign (some 1) (some 10) 4 (-1), vfd_op.dup2 4 3 3,
        vfd_op.chdir_pf (some 1) (some 11)] = some (Except.ok sys) ∧
      kernel_allows sys.table (vfd_op.assign (some 1) (some 12) 3 (-1)) = true ∧
      placeholder_fd sys.table 3 (-1) = 3 ∧
      sys.table.vfd_table 3 = some 1 ∧ (sys.table.store 1).ref_count = 2 ∧
      pmemfile_vfd_assign sys.table (some 1) (some 12) 3 (-1) = Except.ok (s', 3) ∧
      s'.vfd_table 3 = some 3 ∧ (s'.store 1).ref_count = 2 :=
  ⟨_, _, _, pmemfile_vfd_table_init_eq standard_fds 3 3 (by decide), rfl, by decide, by decide,
    by decide, by decide, rfl, by decide, by decide⟩

/-- C27 at a failing input: in the state after one file was assigned to
descriptor 4, the kernel's `dup(4)` (and `dup2(4, 32768)`) returns descriptor
32768, which the kernel's set of open descriptors allows.  `pmemfile_vfd_dup`
and `pmemfile_vfd_dup2` then use `vfd_table[32768]`, outside the array of
`0x8000` cells. -/
theorem dup_indexes_outside_table :
    kernel_allows state_after_assign (vfd_op.dup 4 32768) = true ∧
    kernel_allows state_after_assign (vfd_op.dup2 4 32768 32768) = true ∧
    state_after_assign.vfd_table 4 = some 1 ∧
    is_in_vfd_table_range 32768 = false ∧
    pmemfile_vfd_dup state_after_assign 4 32768 = Except.error fault.out_of_bounds ∧
    pmemfile_vfd_dup2 state_after_assign 4 32768 32768 = Except.error fault.out_of_bounds :=
  ⟨by decide, by decide, by decide, by decide, rfl, rfl⟩

/-- C28 at a failing input: in the state `pmemfile_vfd_table_init` returns,
`pmemfile_vfd_fchdir(2)` where the kernel's `dup(2)` returns descriptor 4 and
the kernel's `fchdir(4)` fails with -20.  The call returns -20 and leaves
`cwd_entry`, the cells, the entries and the free ring unchanged, but no `close`
is forwarded: descriptor 4, which was not open before the call, is open after
it. -/
theorem fchdir_failure_leaves_duplicate_open :
    kernel_allows state_after_init (vfd_op.fchdir 2 4 (-20)) = true ∧
    state_after_init.kernel_fds 4 = false ∧
    ∃ s', pmemfile_vfd_fchdir state_after_init 2 4 (-20) = Except.ok (s', -20) ∧
      s'.cwd_entry = state_after_init.cwd_entry ∧
      s'.vfd_table = state_after_init.vfd_table ∧ s'.store = state_after_init.store ∧
      s'.free_vfile_slots = state_after_init.free_vfile_slots ∧
      s'.fetch_index = state_after_init.fetch_index ∧
      s'.insert_index = state_after_init.insert_index ∧
      s'.events = state_after_init.events ++ [event.sys_dup 2 4, event.sys_fchdir 4 (-20)] ∧
      s'.kernel_fds 4 = true :=
  ⟨by decide, by decide, _, rfl, rfl, rfl, rfl, rfl, rfl, rfl, rfl, by decide⟩


/-- A call with a count above zero that does not meet the acceptance condition
returns `-1` and leaves the iterator and the buffer as they were. -/
theorem try_read_fastpath_not_accepted (it : Option lock_free_iterator)
    (v v2 : pmemfile_vinode) (pmem buffer : Nat → Nat) (n : Nat) (h0 : 0 < n)
    (hacc : fastpath_accepts it v v2 n = false) :
    try_read_fastpath it v v2 pmem buffer n = ⟨-1, it, buffer⟩ := by
  have hn0 : n ≠ 0 := by omega
  cases it with
  | none => simp [try_read_fastpath, hn0, is_lfit_initialized]
  | some i =>
    generalize ho : try_read_fastpath (some i) v v2 pmem buffer n = o
    unfold try_read_fastpath at ho
    rw [if_neg hn0] at ho
    repeat' split at ho
    all_goals subst ho
    all_goals first
      | rfl
      | (exfalso
         simp_all [fastpath_accepts, is_lfit_initialized, is_modification_indicated,
           READ_FAST_PATH_TRESHOLD])

/-- A call with a count above zero that meets the acceptance condition returns
the count (cast to `pmemfile_ssize_t`), takes the count off the length and
advances a data address by it. -/
theorem try_read_fastpath_accepted (i : lock_free_iterator)
    (v v2 : pmemfile_vinode) (pmem buffer : Nat → Nat) (n : Nat) (h0 : 0 < n)
    (hacc : fastpath_accepts (some i) v v2 n = true) :
    n ≤ i.length ∧
    (try_read_fastpath (some i) v v2 pmem buffer n).ret = ssize_cast n ∧
    (try_read_fastpath (some i) v v2 pmem buffer n).it =
      some { i with address := i.address.map (fun a => a + n), length := i.length - n } ∧
    (try_read_fastpath (some i) v v2 pmem buffer n).buffer =
      (match i.address with
        | none => memset_zero buffer n
        | some a => memcpy buffer (memcpy (fun _ => 0) (fun j => pmem (a + j)) n) n) := by
  have hn0 : n ≠ 0 := by omega
  simp only [fastpath_accepts, Bool.and_eq_true, Bool.or_eq_true, decide_eq_true_eq,
    Option.isNone_iff_eq_none] at hacc
  obtain ⟨⟨⟨⟨hlen, hpre⟩, hpost⟩, hn⟩, haddr⟩ := hacc
  have hinit : is_lfit_initialized (some i) = true := by
    simp only [is_lfit_initialized, decide_eq_true_eq]
    exact hlen
  have hm1 : is_modification_indicated i v = false := by
    simp [is_modification_indicated, hpre, hpost]
  refine ⟨hn, ?_⟩
  cases ha : i.address with
  | none =>
    simp only [try_read_fastpath, if_neg hn0, hinit, Bool.not_true, Bool.false_eq_true, if_false,
      hm1, if_neg (not_lt.mpr hn), gt_iff_lt, ha, Option.map_none', and_self]
  | some a =>
    rw [ha] at haddr
    rcases haddr with haddr | ⟨⟨hthr, hpre2⟩, hpost2⟩
    · cases haddr
    · have hm2 : is_modification_indicated i v2 = false := by
        simp [is_modification_indicated, hpre2, hpost2]
      have hthr' : n ≤ READ_FAST_PATH_TRESHOLD := hthr
      simp only [try_read_fastpath, if_neg hn0, hinit, Bool.not_true, Bool.false_eq_true,
        if_false, hm1, if_neg (not_lt.mpr hn), gt_iff_lt, ha, if_pos hthr', hm2,
        Option.map_some', and_self]

/-- One call changes the length of the iterator by what it returns. -/
theorem try_read_fastpath_length (it : Option lock_free_iterator)
    (v v2 : pmemfile_vinode) (pmem buffer : Nat → Nat) (n : Nat) (hn : n ≤ SSIZE_MAX) :
    (try_read_fastpath it v v2 pmem buffer n).ret.toNat +
      lfit_length (try_read_fastpath it v v2 pmem buffer n).it = lfit_length it := by
  by_cases h0 : n = 0
  · subst h0
    simp [try_read_fastpath]
  · have hpos : 0 < n := by omega
    cases hacc : fastpath_accepts it v v2 n with
    | false =>
      rw [try_read_fastpath_not_accepted it v v2 pmem buffer n hpos hacc]
      simp
    | true =>
      cases it with
      | none => simp [fastpath_accepts] at hacc
      | some i =>
        obtain ⟨hle, hret, hit, _⟩ := try_read_fastpath_accepted i v v2 pmem buffer n hpos hacc
        rw [hret, hit, ssize_cast_of_le hn]
        simp only [lfit_length, Int.toNat_ofNat]
        omega

/-- The bytes a sequence of calls accepted and the length left add up to the
length at the start. -/
theorem read_calls_length (calls : List read_call) : ∀ (it : Option lock_free_iterator),
    (∀ c, c ∈ calls → c.count ≤ SSIZE_MAX) →
    accepted_bytes (read_calls it calls) + lfit_length
      ((read_calls it calls).getLast?.elim it (fun o => o.it)) = lfit_length it := by
  induction calls with
  | nil =>
    intro it _
    simp [read_calls, accepted_bytes]
  | cons c rest ih =>
    intro it hc
    have h1 := try_read_fastpath_length it c.vinode c.vinode_recheck c.pmem c.buffer c.count
      (hc c (List.mem_cons_self _ _))
    have h2 := ih (try_read_fastpath it c.vinode c.vinode_recheck c.pmem c.buffer c.count).it
      (fun c' hc' => hc c' (List.mem_cons_of_mem _ hc'))
    simp only [read_calls, accepted_bytes, List.map_cons, List.sum_cons] at h2 ⊢
    cases hrest : read_calls
        (try_read_fastpath it c.vinode c.vinode_recheck c.pmem c.buffer c.count).it rest with
    | nil =>
      rw [hrest] at h2
      simp only [List.map_nil, List.sum_nil, List.getLast?_nil, Option.elim_none,
        List.getLast?_singleton, Option.elim_some] at h2 ⊢
      omega
    | cons o os =>
      rw [hrest] at h2
      rw [List.getLast?_cons_cons]
      obtain ⟨x, hx⟩ : ∃ x, (o :: os).getLast? = some x :=
        Option.isSome_iff_exists.mp (by simp [List.getLast?_isSome])
      rw [hx] at h2 ⊢
      simp only [Option.elim_some] at h2 ⊢
      omega

/-- C24: for every iterator pointer, vinode (as read at the two checks),
buffer and count `n` with `0 < n ≤ SSIZE_MAX`, `try_read_fastpath` returns `n`
if and only if the acceptance condition `fastpath_accepts` holds (`length > 0`,
both stored counters equal the vinode's, `n ≤ length`, and `address` is `NULL`
or `n ≤ 256` with the counters still equal at the re-check); in every other case
it returns `-1` and changes nothing.  For `n = 0` it returns 0 and changes
nothing, whatever the iterator.  In every sequence of calls on one iterator the
bytes accepted and the length left add up to the length at the start, so the
bytes accepted never exceed it. -/
theorem acceptance_characterisation (it : Option lock_free_iterator)
    (v v2 : pmemfile_vinode) (pmem buffer : Nat → Nat) (n : Nat)
    (hpos : 0 < n) (hn : n ≤ SSIZE_MAX) :
    ((try_read_fastpath it v v2 pmem buffer n).ret = (n : Int) ↔
      fastpath_accepts it v v2 n = true) ∧
    (fastpath_accepts it v v2 n = false →
      try_read_fastpath it v v2 pmem buffer n = ⟨-1, it, buffer⟩) ∧
    try_read_fastpath it v v2 pmem buffer 0 = ⟨0, it, buffer⟩ ∧
    (∀ calls : List read_call, (∀ c, c ∈ calls → c.count ≤ SSIZE_MAX) →
      accepted_bytes (read_calls it calls) ≤ lfit_length it) := by
  refine ⟨?_, try_read_fastpath_not_accepted it v v2 pmem buffer n hpos, ?_, ?_⟩
  · constructor
    · intro hret
      cases hacc : fastpath_accepts it v v2 n with
      | true => rfl
      | false =>
        rw [try_read_fastpath_not_accepted it v v2 pmem buffer n hpos hacc] at hret
        simp only at hret
        omega
    · intro hacc
      cases it with
      | none => simp [fastpath_accepts] at hacc
      | some i =>
        rw [(try_read_fastpath_accepted i v v2 pmem buffer n hpos hacc).2.1,
          ssize_cast_of_le hn]
  · simp [try_read_fastpath]
  · intro calls hc
    have := read_calls_length calls it hc
    omega

/-- C24 for an iterator with a data address and length 4086 and a count of 100,
with unchanged counters. -/
theorem acceptance_characterisation_witness :
    (0 : Nat) < 100 ∧ 100 ≤ SSIZE_MAX ∧
    ((try_read_fastpath (some ⟨some 0, 0, 0, some 1010, 4086⟩) ⟨[⟨1000, 4096, 1, 0⟩], 0, 0⟩
        ⟨[⟨1000, 4096, 1, 0⟩], 0, 0⟩ (fun a => a) (fun _ => 9) 100).ret = ((100 : Nat) : Int) ↔
      fastpath_accepts (some ⟨some 0, 0, 0, some 1010, 4086⟩) ⟨[⟨1000, 4096, 1, 0⟩], 0, 0⟩
        ⟨[⟨1000, 4096, 1, 0⟩], 0, 0⟩ 100 = true) ∧
    (fastpath_accepts (some ⟨some 0, 0, 0, some 1010, 4086⟩) ⟨[⟨1000, 4096, 1, 0⟩], 0, 0⟩
        ⟨[⟨1000, 4096, 1, 0⟩], 0, 0⟩ 100 = false →
      try_read_fastpath (some ⟨some 0, 0, 0, some 1010, 4086⟩) ⟨[⟨1000, 4096, 1, 0⟩], 0, 0⟩
        ⟨[⟨1000, 4096, 1, 0⟩], 0, 0⟩ (fun a => a) (fun _ => 9) 100 =
        ⟨-1, some ⟨some 0, 0, 0, some 1010, 4086⟩, fun _ => 9⟩) ∧
    try_read_fastpath (some ⟨some 0, 0, 0, some 1010, 4086⟩) ⟨[⟨1000, 4096, 1, 0⟩], 0, 0⟩
        ⟨[⟨1000, 4096, 1, 0⟩], 0, 0⟩ (fun a => a) (fun _ => 9) 0 =
      ⟨0, some ⟨some 0, 0, 0, some 1010, 4086⟩, fun _ => 9⟩ ∧
    (∀ calls : List read_call, (∀ c, c ∈ calls → c.count ≤ SSIZE_MAX) →
      accepted_bytes (read_calls (some ⟨some 0, 0, 0, some 1010, 4086⟩) calls) ≤
        lfit_length (some ⟨some 0, 0, 0, some 1010, 4086⟩)) :=
  ⟨by decide, by decide,
    acceptance_characterisation (some ⟨some 0, 0, 0, some 1010, 4086⟩)
      ⟨[⟨1000, 4096, 1, 0⟩], 0, 0⟩ ⟨[⟨1000, 4096, 1, 0⟩], 0, 0⟩ (fun a => a) (fun _ => 9) 100
      (by decide) (by decide)⟩


/-- A count that survives the cast to `pmemfile_ssize_t` is at most
`SSIZE_MAX`. -/
theorem le_ssize_max_of_cast {k : Nat} (h : ssize_cast k = (k : Int)) : k ≤ SSIZE_MAX := by
  unfold ssize_cast at h
  have hlt : k % SIZE_MOD < SIZE_MOD := Nat.mod_lt _ (by unfold SIZE_MOD; positivity)
  split at h
  · rename_i hle
    have : k % SIZE_MOD = k := by omega
    omega
  · omega

/-- The bytes delivered by a read of `n + m` bytes, split after `n` bytes. -/
theorem delivered_add (f : Nat → Nat) (n m : Nat) :
    delivered f ((n + m : Nat) : Int) =
      delivered f (n : Int) ++ delivered (fun j => f (n + j)) (m : Int) := by
  simp only [delivered, Int.toNat_ofNat, List.range_add, List.map_append, List.map_map]
  rfl

theorem delivered_congr (f g : Nat → Nat) (n : Nat) (h : ∀ j, j < n → f j = g j) :
    delivered f (n : Int) = delivered g (n : Int) := by
  simp only [delivered, Int.toNat_ofNat]
  apply List.map_congr_left
  intro j hj
  exact h j (List.mem_range.mp hj)

/-- C29: for every iterator, vinode and memory that do not change and counts
`n, m > 0` such that `try_read_fastpath` with count `n + m` is accepted (returns
`n + m`), the call with count `n` followed by the call with count `m` on the
iterator it left are both accepted, the bytes they deliver, one after the other,
are the bytes the single call delivers, and the iterator after the two calls is
the iterator after the single call. -/
theorem read_splitting (it : Option lock_free_iterator) (v : pmemfile_vinode)
    (pmem b b1 b2 : Nat → Nat) (n m : Nat) (hn : 0 < n) (hm : 0 < m)
    (hacc : (try_read_fastpath it v v pmem b (n + m)).ret = ((n + m : Nat) : Int)) :
    (try_read_fastpath it v v pmem b1 n).ret = (n : Int) ∧
    (try_read_fastpath (try_read_fastpath it v v pmem b1 n).it v v pmem b2 m).ret = (m : Int) ∧
    delivered (try_read_fastpath it v v pmem b1 n).buffer
        (try_read_fastpath it v v pmem b1 n).ret ++
      delivered (try_read_fastpath (try_read_fastpath it v v pmem b1 n).it v v pmem b2 m).buffer
        (try_read_fastpath (try_read_fastpath it v v pmem b1 n).it v v pmem b2 m).ret =
      delivered (try_read_fastpath it v v pmem b (n + m)).buffer
        (try_read_fastpath it v v pmem b (n + m)).ret ∧
    (try_read_fastpath (try_read_fastpath it v v pmem b1 n).it v v pmem b2 m).it =
      (try_read_fastpath it v v pmem b (n + m)).it := by
  have hnm : 0 < n + m := by omega
  have haccepts : fastpath_accepts it v v (n + m) = true := by
    cases h : fastpath_accepts it v v (n + m) with
    | true => rfl
    | false =>
      rw [try_read_fastpath_not_accepted it v v pmem b (n + m) hnm h] at hacc
      simp only at hacc
      omega
  cases it with
  | none => simp [fastpath_accepts] at haccepts
  | some i =>
    obtain ⟨hle, hret, hit, hbuf⟩ := try_read_fastpath_accepted i v v pmem b (n + m) hnm haccepts
    have hmax : n + m ≤ SSIZE_MAX := le_ssize_max_of_cast (hret.symm.trans hacc)
    have hc := haccepts
    simp only [fastpath_accepts, Bool.and_eq_true, Bool.or_eq_true, decide_eq_true_eq,
      Option.isNone_iff_eq_none] at hc
    obtain ⟨⟨⟨⟨hlen, hpre⟩, hpost⟩, _⟩, haddr⟩ := hc
    have hacc1 : fastpath_accepts (some i) v v n = true := by
      simp only [fastpath_accepts, Bool.and_eq_true, Bool.or_eq_true, decide_eq_true_eq,
        Option.isNone_iff_eq_none]
      refine ⟨⟨⟨⟨hlen, hpre⟩, hpost⟩, by omega⟩, ?_⟩
      rcases haddr with h | ⟨⟨h1, h2⟩, h3⟩
      · exact Or.inl h
      · exact Or.inr ⟨⟨by omega, h2⟩, h3⟩
    obtain ⟨_, hret1, hit1, hbuf1⟩ := try_read_fastpath_accepted i v v pmem b1 n hn hacc1
    have hacc2 : fastpath_accepts
        (some { i with address := i.address.map (fun a => a + n), length := i.length - n })
        v v m = true := by
      simp only [fastpath_accepts, Bool.and_eq_true, Bool.or_eq_true, decide_eq_true_eq,
        Option.isNone_iff_eq_none, Option.map_eq_none']
      refine ⟨⟨⟨⟨by omega, hpre⟩, hpost⟩, by omega⟩, ?_⟩
      rcases haddr with h | ⟨⟨h1, h2⟩, h3⟩
      · exact Or.inl h
      · exact Or.inr ⟨⟨by omega, h2⟩, h3⟩
    obtain ⟨_, hret2, hit2, hbuf2⟩ := try_read_fastpath_accepted _ v v pmem b2 m hm hacc2
    rw [hit1]
    rw [hret1, hret2, hret, hit2, hit, hbuf1, hbuf2, hbuf,
      ssize_cast_of_le (by omega : n ≤ SSIZE_MAX), ssize_cast_of_le (by omega : m ≤ SSIZE_MAX),
      ssize_cast_of_le hmax]
    refine ⟨rfl, rfl, ?_, ?_⟩
    · rw [delivered_add]
      cases ha : i.address with
      | none =>
        simp only [Option.map_none']
        congr 1
        · apply delivered_congr
          intro j hj
          simp only [memset_zero, if_pos hj, if_pos (by omega : j < n + m)]
        · apply delivered_congr
          intro j hj
          simp only [memset_zero, if_pos hj, if_pos (by omega : n + j < n + m)]
      | some a =>
        simp only [Option.map_some']
        congr 1
        · apply delivered_congr
          intro j hj
          simp only [memcpy, if_pos hj, if_pos (by omega : j < n + m)]
        · apply delivered_congr
          intro j hj
          simp only [memcpy, if_pos hj, if_pos (by omega : n + j < n + m), Nat.add_assoc]
    · cases ha : i.address with
      | none => simp only [Option.map_none', Nat.sub_sub]
      | some a => simp only [Option.map_some', Nat.sub_sub, Nat.add_assoc]

/-- C29 for an iterator at offset 10 of an initialized block of 4096 bytes: a
read of 100 bytes split into 60 and 40. -/
theorem read_splitting_witness :
    (0 : Nat) < 60 ∧ (0 : Nat) < 40 ∧
    (try_read_fastpath (some ⟨some 0, 0, 0, some 1010, 4086⟩) ⟨[⟨1000, 4096, 1, 0⟩], 0, 0⟩
      ⟨[⟨1000, 4096, 1, 0⟩], 0, 0⟩ (fun a => a) (fun _ => 9) (60 + 40)).ret =
      ((60 + 40 : Nat) : Int) ∧
    (try_read_fastpath (some ⟨some 0, 0, 0, some 1010, 4086⟩) ⟨[⟨1000, 4096, 1, 0⟩], 0, 0⟩
      ⟨[⟨1000, 4096, 1, 0⟩], 0, 0⟩ (fun a => a) (fun _ => 7) 60).ret = (60 : Int) ∧
    (try_read_fastpath
      (try_read_fastpath (some ⟨some 0, 0, 0, some 1010, 4086⟩) ⟨[⟨1000, 4096, 1, 0⟩], 0, 0⟩
        ⟨[⟨1000, 4096, 1, 0⟩], 0, 0⟩ (fun a => a) (fun _ => 7) 60).it
      ⟨[⟨1000, 4096, 1, 0⟩], 0, 0⟩ ⟨[⟨1000, 4096, 1, 0⟩], 0, 0⟩ (fun a => a) (fun _ => 8)
      40).it =
      (try_read_fastpath (some ⟨some 0, 0, 0, some 1010, 4086⟩) ⟨[⟨1000, 4096, 1, 0⟩], 0, 0⟩
        ⟨[⟨1000, 4096, 1, 0⟩], 0, 0⟩ (fun a => a) (fun _ => 9) (60 + 40)).it :=
  have h := read_splitting (some ⟨some 0, 0, 0, some 1010, 4086⟩) ⟨[⟨1000, 4096, 1, 0⟩], 0, 0⟩
    (fun a => a) (fun _ => 9) (fun _ => 7) (fun _ => 8) 60 40 (by decide) (by decide)
    (by decide)
  ⟨by decide, by decide, by decide, h.1, h.2.2.2⟩


/-- An outstanding reference is a pointer to its entry. -/
theorem pointers_to_pos_of_ref (sys : vfd_system) (r : vfd_reference) (e : Nat)
    (hr : r ∈ sys.refs) (h : r.internal = some e) : 1 ≤ pointers_to sys e := by
  rw [pointers_to_eq]
  have : 0 < refs_to sys.refs e := by
    unfold refs_to
    apply List.countP_pos_iff.mpr
    exact ⟨r, hr, by simp [h]⟩
  omega

/-- In a consistent state nothing points at an entry whose count is zero. -/
theorem no_pointer_of_count_zero (x : Option Nat) (sys : vfd_system)
    (hc : table_consistent_with x sys) (e : Nat) (hz : (sys.table.store e).ref_count = 0) :
    (∀ i, i < VFD_TABLE_SIZE → sys.table.vfd_table i ≠ some e) ∧
    sys.table.cwd_entry ≠ some e ∧ (∀ r, r ∈ sys.refs → r.internal ≠ some e) := by
  refine ⟨?_, ?_, ?_⟩
  · intro i hi hcell
    have := count_pos_of_pointer x sys hc e (pointers_to_pos_of_cell sys i e hi hcell)
    omega
  · intro hcwd
    have := count_pos_of_pointer x sys hc e (pointers_to_pos_of_cwd sys e hcwd)
    omega
  · intro r hr hint
    have := count_pos_of_pointer x sys hc e (pointers_to_pos_of_ref sys r e hr hint)
    omega

/-- C21 at a state in which the free ring is empty: after
`pmemfile_vfd_table_init` and 65534 rounds of `pin_cwd_ops` (each keeps a
reference to the working directory and changes the working directory) all 65535
entries are in use and the positions from `fetch_index` up to `insert_index` are
none.  The state is reached by public operations, each of which found the ring
non-empty.  `fetch_free_file_slot` makes no check: it returns the pointer at
position 65535, which is `NULL`, and `pmemfile_vfd_chdir_pf`, which calls it,
stores through that pointer. -/
theorem fetch_on_exhausted_ring :
    ∃ sys, vfd_reachable sys ∧ vfd_reachable_within_capacity sys ∧
      free_ring_count sys.table = 0 ∧
      (fetch_free_file_slot sys.table).2 = none ∧
      pmemfile_vfd_chdir_pf sys.table (some 1) (some 10) =
        Except.error fault.null_dereference := by
  have hp0 : pinned_state 0 ⟨state_after_init, []⟩ :=
    ⟨rfl, rfl, rfl, rfl, by simp [state_after_init], by decide⟩
  obtain ⟨sys, hr1, hr2, hf, hi, hs, _, _, _⟩ :=
    pinned_state_run 65534 0 ⟨state_after_init, []⟩ hp0 (by decide)
  have hslot : sys.table.free_vfile_slots sys.table.fetch_index = none := by
    rw [hs, hf]
    simp [state_after_init, store_size_eq]
  refine ⟨sys, ⟨standard_fds, 3, 3, state_after_init, pin_cwd_ops 65534, Or.inr (by decide),
    by decide, state_after_init_eq, hr1⟩,
    ⟨standard_fds, 3, 3, state_after_init, pin_cwd_ops 65534, state_after_init_eq, hr2⟩,
    ?_, hslot, ?_⟩
  · simp only [free_ring_count, hf, hi, store_size_eq, free_slots_size_eq]
  · simp only [pmemfile_vfd_chdir_pf, fetch_free_file_slot, hslot, store_entry]

/-- C21, amended: in every state reached from `pmemfile_vfd_table_init` by the
public operations, each of which found the free ring non-empty when it fetched
(references may stay outstanding), the positions of the ring from `fetch_index`
up to `insert_index` hold entries of the array `store` with `ref_count` 0 that
no cell, not `cwd_entry` and no outstanding reference points at, each at one
position only; and when that range is not empty, `fetch_free_file_slot` returns
such an entry, not `NULL`, and the range is one shorter. -/
theorem free_slot_recycling (sys : vfd_system) (h : vfd_reachable_within_capacity sys) :
    (∀ k, k < free_ring_count sys.table →
      ∃ e, sys.table.free_vfile_slots ((sys.table.fetch_index + k) % FREE_SLOTS_SIZE) = some e ∧
        e < STORE_SIZE ∧ (sys.table.store e).ref_count = 0 ∧
        (∀ i, i < VFD_TABLE_SIZE → sys.table.vfd_table i ≠ some e) ∧
        sys.table.cwd_entry ≠ some e ∧ (∀ r, r ∈ sys.refs → r.internal ≠ some e)) ∧
    (∀ k1 k2, k1 < free_ring_count sys.table → k2 < free_ring_count sys.table →
      sys.table.free_vfile_slots ((sys.table.fetch_index + k1) % FREE_SLOTS_SIZE) =
        sys.table.free_vfile_slots ((sys.table.fetch_index + k2) % FREE_SLOTS_SIZE) →
      k1 = k2) ∧
    (free_ring_count sys.table ≠ 0 →
      ∃ e, (fetch_free_file_slot sys.table).2 = some e ∧
        (sys.table.store e).ref_count = 0 ∧
        (∀ i, i < VFD_TABLE_SIZE → sys.table.vfd_table i ≠ some e) ∧
        sys.table.cwd_entry ≠ some e ∧ (∀ r, r ∈ sys.refs → r.internal ≠ some e) ∧
        free_ring_count (fetch_free_file_slot sys.table).1 + 1 = free_ring_count sys.table) := by
  have hc := reachable_consistent sys h
  refine ⟨?_, hc.ring_nodup, ?_⟩
  · intro k hk
    obtain ⟨e, hslot, hlt, hz⟩ := hc.ring_zero k hk
    obtain ⟨h1, h2, h3⟩ := no_pointer_of_count_zero none sys hc e hz
    exact ⟨e, hslot, hlt, hz, h1, h2, h3⟩
  · intro hne
    have hfl := hc.fetch_lt
    have hil := hc.insert_lt
    obtain ⟨e, hslot, _, hz⟩ := hc.ring_zero 0 (by omega)
    obtain ⟨h1, h2, h3⟩ := no_pointer_of_count_zero none sys hc e hz
    have hpos0 : (sys.table.fetch_index + 0) % FREE_SLOTS_SIZE = sys.table.fetch_index := by
      rw [free_slots_size_eq] at hfl ⊢
      omega
    rw [hpos0] at hslot
    refine ⟨e, hslot, hz, h1, h2, h3, ?_⟩
    simp only [fetch_free_file_slot, free_ring_count]
    unfold free_ring_count at hne
    rw [free_slots_size_eq] at hfl hil hne ⊢
    omega

/-- C21, amended, at the state `pmemfile_vfd_table_init` returns. -/
theorem free_slot_recycling_witness :
    vfd_reachable_within_capacity ⟨state_after_init, []⟩ ∧
    (∀ k, k < free_ring_count state_after_init →
      ∃ e, state_after_init.free_vfile_slots
          ((state_after_init.fetch_index + k) % FREE_SLOTS_SIZE) = some e ∧
        e < STORE_SIZE ∧ (state_after_init.store e).ref_count = 0 ∧
        (∀ i, i < VFD_TABLE_SIZE → state_after_init.vfd_table i ≠ some e) ∧
        state_after_init.cwd_entry ≠ some e ∧
        (∀ r, r ∈ ([] : List vfd_reference) → r.internal ≠ some e)) ∧
    (free_ring_count state_after_init ≠ 0 →
      ∃ e, (fetch_free_file_slot state_after_init).2 = some e ∧
        (state_after_init.store e).ref_count = 0 ∧
        (∀ i, i < VFD_TABLE_SIZE → state_after_init.vfd_table i ≠ some e) ∧
        state_after_init.cwd_entry ≠ some e ∧
        (∀ r, r ∈ ([] : List vfd_reference) → r.internal ≠ some e) ∧
        free_ring_count (fetch_free_file_slot state_after_init).1 + 1 =
          free_ring_count state_after_init) :=
  have h := free_slot_recycling ⟨state_after_init, []⟩ state_after_init_reachable
  ⟨state_after_init_reachable, h.1, h.2.2⟩


/-! ## Theorems, part VII: the critical sections as steps -/

/-- The two parts of `pmemfile_vfd_close` make up `pmemfile_vfd_close`. -/
theorem pmemfile_vfd_close_two_steps (s : vfd_state) (vfd kret : Int) :
    pmemfile_vfd_close s vfd kret =
      match (pmemfile_vfd_close_capture s vfd).2 with
      | some e =>
        match unref_entry (pmemfile_vfd_close_capture s vfd).1 (some e) with
        | Except.error f => Except.error f
        | Except.ok s3 => Except.ok (s3, 0)
      | none => Except.ok ((pmemfile_vfd_close_capture s vfd).1, kret) := rfl

/-- The two parts of `pmemfile_vfd_chdir_pf` make up `pmemfile_vfd_chdir_pf`. -/
theorem pmemfile_vfd_chdir_pf_two_steps (s : vfd_state) (pool file : Option Nat) :
    pmemfile_vfd_chdir_pf s pool file =
      match pmemfile_vfd_chdir_pf_capture s pool file with
      | Except.error f => Except.error f
      | Except.ok (s1, old) =>
        match unref_entry s1 old with
        | Except.error f => Except.error f
        | Except.ok s2 => Except.ok (s2, 0) := by
  unfold pmemfile_vfd_chdir_pf pmemfile_vfd_chdir_pf_capture
  cases store_entry (fetch_free_file_slot s).1 (fetch_free_file_slot s).2
    ⟨pool, file, -1, false, 1⟩ with
  | error f => rfl
  | ok r => rfl

/-- The two parts of `pmemfile_vfd_chdir_kernel_fd` make up
`pmemfile_vfd_chdir_kernel_fd`. -/
theorem pmemfile_vfd_chdir_kernel_fd_two_steps (s : vfd_state) (fd kret : Int) :
    pmemfile_vfd_chdir_kernel_fd s fd kret =
      match pmemfile_vfd_chdir_kernel_fd_capture s fd kret with
      | Except.error f => Except.error f
      | Except.ok (s1, old) =>
        match unref_entry s1 old with
        | Except.error f => Except.error f
        | Except.ok s2 => Except.ok (s2, kret) := by
  unfold pmemfile_vfd_chdir_kernel_fd pmemfile_vfd_chdir_kernel_fd_capture
  by_cases hk : kret < 0
  · simp only [if_pos hk, unref_entry]
  · simp only [if_neg hk]
    cases store_entry (fetch_free_file_slot (syscall_fchdir s fd kret)).1
      (fetch_free_file_slot (syscall_fchdir s fd kret)).2 ⟨none, none, fd, true, 1⟩ with
    | error f => rfl
    | ok r => rfl

/-- The two parts of `pmemfile_vfd_fchdir` make up `pmemfile_vfd_fchdir`. -/
theorem pmemfile_vfd_fchdir_two_steps (s : vfd_state) (vfd dup_ret fchdir_ret : Int) :
    pmemfile_vfd_fchdir s vfd dup_ret fchdir_ret =
      match pmemfile_vfd_fchdir_capture s vfd dup_ret fchdir_ret with
      | Except.error f => Except.error f
      | Except.ok (s1, old) =>
        match unref_entry s1 old with
        | Except.error f => Except.error f
        | Except.ok s2 =>
          Except.ok (s2,
            if (if is_in_vfd_table_range vfd then s.vfd_table vfd.toNat else none).isSome then 0
            else if dup_ret ≥ 0 then fchdir_ret else dup_ret) := by
  unfold pmemfile_vfd_fchdir pmemfile_vfd_fchdir_capture
  cases hcell : (if is_in_vfd_table_range vfd then s.vfd_table vfd.toNat else none) with
  | some entry => rfl
  | none =>
    simp only [Option.isSome_none, Bool.false_eq_true, if_false]
    by_cases hres : (if dup_ret ≥ 0 then fchdir_ret else dup_ret) = 0
    · simp only [if_pos hres]
      cases store_entry
        (fetch_free_file_slot
          (if dup_ret ≥ 0 then
            syscall_fchdir (syscall_returns_fd s (event.sys_dup vfd dup_ret) dup_ret) dup_ret
              fchdir_ret
          else syscall_returns_fd s (event.sys_dup vfd dup_ret) dup_ret)).1
        (fetch_free_file_slot
          (if dup_ret ≥ 0 then
            syscall_fchdir (syscall_returns_fd s (event.sys_dup vfd dup_ret) dup_ret) dup_ret
              fchdir_ret
          else syscall_returns_fd s (event.sys_dup vfd dup_ret) dup_ret)).2
        ⟨none, none, dup_ret, true, 1⟩ with
      | error f => rfl
      | ok r => rfl
    · simp only [if_neg hres, unref_entry]

/-- Consistency is kept by the first part of `pmemfile_vfd_close`; the thread
holds the pointer it captured. -/
theorem table_consistent_close_capture (sys : vfd_system) (vfd : Int)
    (hc : table_consistent sys) :
    table_consistent ⟨(pmemfile_vfd_close_capture sys.table vfd).1,
      captured_reference (pmemfile_vfd_close_capture sys.table vfd).2 :: sys.refs⟩ := by
  cases hcan : can_be_in_vfd_table sys.table vfd with
  | false =>
    have hs : table_consistent ⟨syscall_close sys.table vfd, sys.refs⟩ :=
      table_consistent_same none sys _ ⟨rfl, rfl, rfl, rfl, rfl, rfl, rfl⟩ hc
    simp only [pmemfile_vfd_close_capture, hcan, Bool.false_eq_true, if_false]
    exact table_consistent_add_ref ⟨syscall_close sys.table vfd, sys.refs⟩
      (captured_reference none) hs
  | true =>
    obtain ⟨hrange, e, hcell⟩ := can_be_in_vfd_table_true _ _ hcan
    have h1 := table_consistent_cell_clear sys vfd.toNat (toNat_lt_of_in_range hrange) hc
    have h2 : table_consistent_with (sys.table.vfd_table vfd.toNat)
        ⟨syscall_close
          { sys.table with vfd_table := Function.update sys.table.vfd_table vfd.toNat none }
          vfd, sys.refs⟩ :=
      table_consistent_same _
        ⟨{ sys.table with vfd_table := Function.update sys.table.vfd_table vfd.toNat none },
          sys.refs⟩ _ ⟨rfl, rfl, rfl, rfl, rfl, rfl, rfl⟩ h1
    simp only [pmemfile_vfd_close_capture, hcan, if_true]
    exact table_consistent_add_ref
      ⟨syscall_close
        { sys.table with vfd_table := Function.update sys.table.vfd_table vfd.toNat none }
        vfd, sys.refs⟩ (captured_reference (sys.table.vfd_table vfd.toNat)) h2

/-- Consistency is kept by the critical section of `chdir_exchange_entry` on an
entry that is the credit; the thread holds the old pointer. -/
theorem table_consistent_exchange_capture (t : vfd_state) (refs : List vfd_reference)
    (e : Nat) (hc : table_consistent_with (some e) ⟨t, refs⟩)
    (hv : (t.store e).is_special_cwd_desc = true ∨ (t.store e).pool ≠ none) :
    table_consistent ⟨{ t with cwd_entry := some e }, captured_reference t.cwd_entry :: refs⟩ :=
  table_consistent_add_ref ⟨{ t with cwd_entry := some e }, refs⟩
    (captured_reference t.cwd_entry) (table_consistent_cwd_set ⟨t, refs⟩ e hv hc)

/-- Consistency is kept by the first part of `pmemfile_vfd_chdir_pf`. -/
theorem table_consistent_chdir_pf_capture (sys : vfd_system) (pool file : Option Nat)
    (r : vfd_state × Option Nat) (hc : table_consistent sys) (hpool : pool.isSome = true)
    (hne : free_ring_count sys.table ≠ 0)
    (h : pmemfile_vfd_chdir_pf_capture sys.table pool file = Except.ok r) :
    table_consistent ⟨r.1, captured_reference r.2 :: sys.refs⟩ := by
  obtain ⟨e, _, hst, _, _, _, hf⟩ := fetch_store_ok sys ⟨pool, file, -1, false, 1⟩ hc hne rfl
  have hp : pool ≠ none := by
    intro hp
    rw [hp] at hpool
    cases hpool
  simp only [pmemfile_vfd_chdir_pf_capture, hst, chdir_exchange_capture, Except.ok.injEq] at h
  subst h
  exact table_consistent_exchange_capture _ _ e hf
    (by simp only [Function.update_same]; exact Or.inr hp)

/-- Consistency is kept by the first part of `pmemfile_vfd_chdir_kernel_fd`. -/
theorem table_consistent_chdir_kernel_fd_capture (sys : vfd_system) (fd kret : Int)
    (r : vfd_state × Option Nat) (hc : table_consistent sys)
    (hcap : 0 ≤ kret → free_ring_count sys.table ≠ 0)
    (h : pmemfile_vfd_chdir_kernel_fd_capture sys.table fd kret = Except.ok r) :
    table_consistent ⟨r.1, captured_reference r.2 :: sys.refs⟩ := by
  have hsame : table_consistent ⟨syscall_fchdir sys.table fd kret, sys.refs⟩ :=
    table_consistent_same none sys _ ⟨rfl, rfl, rfl, rfl, rfl, rfl, rfl⟩ hc
  unfold pmemfile_vfd_chdir_kernel_fd_capture at h
  simp only at h
  split at h
  · simp only [Except.ok.injEq] at h
    subst h
    exact table_consistent_add_ref ⟨syscall_fchdir sys.table fd kret, sys.refs⟩
      (captured_reference none) hsame
  · rename_i hneg
    obtain ⟨e, _, hst, _, _, _, hf⟩ := fetch_store_ok
      ⟨syscall_fchdir sys.table fd kret, sys.refs⟩ ⟨none, none, fd, true, 1⟩ hsame
      (hcap (by omega)) rfl
    simp only [hst, chdir_exchange_capture, Except.ok.injEq] at h
    subst h
    exact table_consistent_exchange_capture _ _ e hf
      (by simp only [Function.update_same]; exact Or.inl trivial)

/-- Consistency is kept by the critical section of `pmemfile_vfd_fchdir`. -/
theorem table_consistent_fchdir_capture (sys : vfd_system) (vfd dup_ret fchdir_ret : Int)
    (r : vfd_state × Option Nat) (hc : table_consistent sys)
    (hcap : (if is_in_vfd_table_range vfd then sys.table.vfd_table vfd.toNat else none) = none →
      (if dup_ret ≥ 0 then fchdir_ret else dup_ret) = 0 → free_ring_count sys.table ≠ 0)
    (h : pmemfile_vfd_fchdir_capture sys.table vfd dup_ret fchdir_ret = Except.ok r) :
    table_consistent ⟨r.1, captured_reference r.2 :: sys.refs⟩ := by
  unfold pmemfile_vfd_fchdir_capture at h
  simp only at h
  split at h
  · rename_i entry hcell
    have hrange : is_in_vfd_table_range vfd = true := by
      cases hr : is_in_vfd_table_range vfd with
      | true => rfl
      | false => simp [hr] at hcell
    simp only [hrange, if_true] at hcell
    simp only [Except.ok.injEq] at h
    subst h
    have h1 := table_consistent_inc sys entry hc
      (pointers_to_pos_of_cell sys _ entry (toNat_lt_of_in_range hrange) hcell)
    have hv := h1.cell_valid vfd.toNat entry (toNat_lt_of_in_range hrange) hcell
    exact table_consistent_exchange_capture (vf_ref_count_inc sys.table entry) sys.refs entry h1
      (Or.inr hv.2)
  · rename_i hcell
    have hsame : table_consistent
        ⟨if dup_ret ≥ 0 then
            syscall_fchdir (syscall_returns_fd sys.table (event.sys_dup vfd dup_ret) dup_ret)
              dup_ret fchdir_ret
          else syscall_returns_fd sys.table (event.sys_dup vfd dup_ret) dup_ret, sys.refs⟩ := by
      split
      · exact table_consistent_same none sys _ ⟨rfl, rfl, rfl, rfl, rfl, rfl, rfl⟩ hc
      · exact table_consistent_same none sys _ ⟨rfl, rfl, rfl, rfl, rfl, rfl, rfl⟩ hc
    by_cases hres : (if dup_ret ≥ 0 then fchdir_ret else dup_ret) = 0
    · rw [if_pos hres] at h
      have hne0 := hcap hcell hres
      have hne : free_ring_count
          (if dup_ret ≥ 0 then
            syscall_fchdir (syscall_returns_fd sys.table (event.sys_dup vfd dup_ret) dup_ret)
              dup_ret fchdir_ret
          else syscall_returns_fd sys.table (event.sys_dup vfd dup_ret) dup_ret) ≠ 0 := by
        split <;> exact hne0
      obtain ⟨e, _, hst, _, _, _, hf⟩ := fetch_store_ok _ ⟨none, none, dup_ret, true, 1⟩ hsame
        hne rfl
      simp only [hst, Except.ok.injEq] at h
      subst h
      exact table_consistent_exchange_capture _ _ e hf
        (by simp only [Function.update_same]; exact Or.inl trivial)
    · rw [if_neg hres] at h
      simp only [Except.ok.injEq] at h
      subst h
      exact table_consistent_add_ref _ (captured_reference none) hsame

/-- Consistency is kept by every step of a thread within the capacity of the
free ring. -/
theorem vfd_atomic_step_consistent (sys sys' : vfd_system) (op : vfd_atomic_op)
    (hc : table_consistent sys)
    (hcap : within_capacity sys.table (vfd_atomic_op_public op) = true)
    (hstep : vfd_atomic_step sys op = Except.ok sys') : table_consistent sys' := by
  cases op with
  | ref v => exact vfd_step_consistent sys sys' _ hc hcap hstep
  | at_ref v => exact vfd_step_consistent sys sys' _ hc hcap hstep
  | unref_entry k => exact vfd_step_consistent sys sys' _ hc hcap hstep
  | dup a b => exact vfd_step_consistent sys sys' _ hc hcap hstep
  | dup2 a b c => exact vfd_step_consistent sys sys' _ hc hcap hstep
  | assign pool file m o => exact vfd_step_consistent sys sys' _ hc hcap hstep
  | close_capture v =>
    simp only [vfd_atomic_step, Except.ok.injEq] at hstep
    subst hstep
    exact table_consistent_close_capture sys v hc
  | chdir_pf_capture pool file =>
    simp only [within_capacity, vfd_atomic_op_public, vfd_op_well_formed, vfd_op_fetches,
      Bool.and_eq_true, Bool.or_eq_true, Bool.not_eq_true', decide_eq_true_eq, reduceCtorEq,
      false_or] at hcap
    simp only [vfd_atomic_step] at hstep
    split at hstep
    · cases hstep
    · rename_i r hr
      simp only [Except.ok.injEq] at hstep
      subst hstep
      exact table_consistent_chdir_pf_capture sys pool file r hc hcap.1 hcap.2 hr
  | chdir_kernel_fd_capture fd kret =>
    simp only [within_capacity, vfd_atomic_op_public, vfd_op_well_formed, vfd_op_fetches,
      Bool.and_eq_true, Bool.or_eq_true, Bool.not_eq_true', decide_eq_true_eq,
      decide_eq_false_iff_not, true_and] at hcap
    simp only [vfd_atomic_step] at hstep
    split at hstep
    · cases hstep
    · rename_i r hr
      simp only [Except.ok.injEq] at hstep
      subst hstep
      exact table_consistent_chdir_kernel_fd_capture sys fd kret r hc
        (fun hnn => by
          rcases hcap with hf | hf
          · exact absurd hnn hf
          · exact hf) hr
  | fchdir_capture vfd dup_ret fchdir_ret =>
    simp only [within_capacity, vfd_atomic_op_public, vfd_op_well_formed, vfd_op_fetches,
      Bool.and_eq_true, Bool.or_eq_true, Bool.not_eq_true', decide_eq_true_eq,
      Bool.and_eq_false_imp, Option.isNone_iff_eq_none, decide_eq_false_iff_not, true_and]
      at hcap
    simp only [vfd_atomic_step] at hstep
    split at hstep
    · cases hstep
    · rename_i r hr
      simp only [Except.ok.injEq] at hstep
      subst hstep
      exact table_consistent_fchdir_capture sys vfd dup_ret fchdir_ret r hc
        (fun hcell hres => by
          rcases hcap with hf | hf
          · exact absurd hres (hf hcell)
          · exact hf) hr

/-- Consistency is kept along an interleaving within the capacity of the free
ring. -/
theorem vfd_atomic_run_consistent (ops : List vfd_atomic_op) : ∀ (sys sys' : vfd_system),
    table_consistent sys → vfd_atomic_run sys ops = some (Except.ok sys') →
    table_consistent sys' := by
  induction ops with
  | nil =>
    intro sys sys' hc h
    simp only [vfd_atomic_run, Option.some.injEq, Except.ok.injEq] at h
    subst h
    exact hc
  | cons op rest ih =>
    intro sys sys' hc h
    simp only [vfd_atomic_run] at h
    split at h
    · rename_i hcap
      split at h
      · simp at h
      · rename_i sys1 hstep
        exact ih sys1 sys' (vfd_atomic_step_consistent sys sys1 op hc hcap hstep) h
    · cases h

/-- The state between the two steps of `pmemfile_vfd_chdir_pf` is reached. -/
theorem state_between_chdir_steps_reachable : vfd_atomic_reachable state_between_chdir_steps :=
  ⟨standard_fds, 3, 3, state_after_init, [vfd_atomic_op.chdir_pf_capture (some 1) (some 10)],
    state_after_init_eq, rfl⟩

/-- C22: in every state that an interleaving of the steps of the threads (the
critical sections of `vfd_table_mutex` and the single calls of `unref_entry`)
reaches from `pmemfile_vfd_table_init` within the capacity of the free ring, an
entry that a cell of the table, `cwd_entry` or a pointer held by a thread (a
reference returned by `pmemfile_vfd_ref` or `pmemfile_vfd_at_ref` and not yet
released, or a pointer captured and not yet given to `unref_entry`) points at
is not destroyed: its `ref_count` is at least 1 and it is not in the free
ring. -/
theorem no_destroyed_entry_observable (sys : vfd_system) (h : vfd_atomic_reachable sys)
    (e : Nat)
    (hp : (∃ i, i < VFD_TABLE_SIZE ∧ sys.table.vfd_table i = some e) ∨
      sys.table.cwd_entry = some e ∨ ∃ r, r ∈ sys.refs ∧ r.internal = some e) :
    1 ≤ (sys.table.store e).ref_count ∧ ¬ in_free_ring sys.table e := by
  obtain ⟨kernel_fds, memfd_ret, open_ret, t, ops, hinit, hrun⟩ := h
  have hc : table_consistent sys := vfd_atomic_run_consistent ops ⟨t, []⟩ sys
    (table_consistent_init kernel_fds memfd_ret open_ret t hinit) hrun
  have hptr : 1 ≤ pointers_to sys e := by
    rcases hp with ⟨i, hi, hcell⟩ | hcwd | ⟨r, hr, hint⟩
    · exact pointers_to_pos_of_cell sys i e hi hcell
    · exact pointers_to_pos_of_cwd sys e hcwd
    · exact pointers_to_pos_of_ref sys r e hr hint
  have hcount := count_pos_of_pointer none sys hc e hptr
  refine ⟨hcount, ?_⟩
  rintro ⟨k, hk, hslot⟩
  obtain ⟨w, hw, _, hz⟩ := hc.ring_zero k hk
  rw [hslot, Option.some.injEq] at hw
  subst hw
  omega

/-- C22 at the state between the two steps of `pmemfile_vfd_chdir_pf`, for the
old anchor, entry 0, which only the thread's captured pointer points at. -/
theorem no_destroyed_entry_observable_witness :
    vfd_atomic_reachable state_between_chdir_steps ∧
    ((∃ i, i < VFD_TABLE_SIZE ∧ state_between_chdir_steps.table.vfd_table i = some 0) ∨
      state_between_chdir_steps.table.cwd_entry = some 0 ∨
      ∃ r, r ∈ state_between_chdir_steps.refs ∧ r.internal = some 0) ∧
    1 ≤ (state_between_chdir_steps.table.store 0).ref_count ∧
    ¬ in_free_ring state_between_chdir_steps.table 0 :=
  ⟨state_between_chdir_steps_reachable,
    Or.inr (Or.inr ⟨captured_reference (some 0), List.mem_singleton.mpr rfl, rfl⟩),
    no_destroyed_entry_observable state_between_chdir_steps state_between_chdir_steps_reachable 0
      (Or.inr (Or.inr ⟨captured_reference (some 0), List.mem_singleton.mpr rfl, rfl⟩))⟩


/-! ## Theorems, part VIII: the read fast path beside a writer -/

/-- The history `one_write_history` follows the writer protocol. -/
theorem one_write_history_protocol :
    writer_protocol one_write_history 7 1000 4 (fun _ => 0) (fun _ => 1) 10 20 := by
  constructor
  · intro t ht
    simp only [one_write_history, if_pos ht]
  · intro t ht
    have h : ¬ t < 10 := by omega
    simp only [one_write_history, if_neg h]
    decide
  · intro t ht
    simp only [one_write_history, if_pos ht]
  · intro t ht
    have h : ¬ t < 20 := by omega
    simp only [one_write_history, if_neg h]
    decide
  · intro t j ht hj
    have h : ¬ (1000 ≤ 1000 + j ∧ 1000 + j < 1004 ∧ 11 + (1000 + j - 1000) ≤ t) := by omega
    simp only [one_write_history, if_neg h]
  · intro t j ht hj
    have h : 1000 ≤ 1000 + j ∧ 1000 + j < 1004 ∧ 11 + (1000 + j - 1000) ≤ t := by omega
    simp only [one_write_history, if_pos h]

/-- C23: a writer that follows the writer protocol overwrites the `n` bytes at
address `a`, pattern `A`, with pattern `B` (`writer_protocol`), and a reader
calls `try_read_fastpath` for these `n` bytes without the lock of the vinode, at
any instants (`concurrent_read`: first check, then the staging copy, then the
second check), through an iterator that was set up at a quiescent moment (its
two stored counters are equal).  When the call is accepted, the buffer it
delivers is entirely `A` or entirely `B`. -/
theorem no_torn_read (history : Nat → shared_state) (c a n : Nat) (A B : Nat → Nat)
    (start finish : Nat) (hw : writer_protocol history c a n A B start finish)
    (blocks : List pmemfile_block_desc) (it : lock_free_iterator)
    (haddr : it.address = some a)
    (hquiet : it.last_pre_write_counter = it.last_post_write_counter)
    (p1 q1 p2 q2 : Nat) (tb : Nat → Nat)
    (horder : p1 ≤ q1 ∧ (∀ j, j < n → q1 ≤ tb j ∧ tb j ≤ p2) ∧ p2 ≤ q2)
    (buffer : Nat → Nat)
    (hacc : (concurrent_read history blocks it p1 q1 p2 q2 tb buffer n).ret ≠ -1) :
    (∀ j, j < n →
      (concurrent_read history blocks it p1 q1 p2 q2 tb buffer n).buffer j = A j) ∨
    (∀ j, j < n →
      (concurrent_read history blocks it p1 q1 p2 q2 tb buffer n).buffer j = B j) := by
  by_cases hn0 : n = 0
  · left
    intro j hj
    omega
  have hpos : 0 < n := by omega
  have hne : size_add c 1 ≠ c := by
    unfold size_add SIZE_MOD
    omega
  -- the call meets the acceptance condition
  have haccepts : fastpath_accepts (some it)
      ⟨blocks, (history p1).pre_write_counter, (history q1).post_write_counter⟩
      ⟨blocks, (history p2).pre_write_counter, (history q2).post_write_counter⟩ n = true := by
    cases h : fastpath_accepts (some it)
        ⟨blocks, (history p1).pre_write_counter, (history q1).post_write_counter⟩
        ⟨blocks, (history p2).pre_write_counter, (history q2).post_write_counter⟩ n with
    | true => rfl
    | false =>
      exfalso
      apply hacc
      unfold concurrent_read
      rw [try_read_fastpath_not_accepted _ _ _ _ _ n hpos h]
  obtain ⟨_, _, _, hbuf⟩ := try_read_fastpath_accepted it
    ⟨blocks, (history p1).pre_write_counter, (history q1).post_write_counter⟩
    ⟨blocks, (history p2).pre_write_counter, (history q2).post_write_counter⟩
    (fun addr => (history (tb (addr - it.address.getD 0))).pmem addr) buffer n hpos haccepts
  have hbytes : ∀ j, j < n →
      (concurrent_read history blocks it p1 q1 p2 q2 tb buffer n).buffer j =
        (history (tb j)).pmem (a + j) := by
    intro j hj
    unfold concurrent_read
    rw [hbuf, haddr]
    simp only [memcpy, if_pos hj, Option.getD_some, Nat.add_sub_cancel_left]
  simp only [fastpath_accepts, Bool.and_eq_true, Bool.or_eq_true, decide_eq_true_eq,
    Option.isNone_iff_eq_none, haddr, reduceCtorEq, false_or] at haccepts
  obtain ⟨⟨⟨⟨_, hpre1⟩, hpost1⟩, _⟩, ⟨_, hpre2⟩, _⟩ := haccepts
  obtain ⟨_, htb, _⟩ := horder
  by_cases hp2 : p2 < start
  · -- the second check read the counter before the writer began
    left
    intro j hj
    rw [hbytes j hj]
    exact hw.pmem_before (tb j) j (by have := (htb j hj).2; omega) hj
  · -- the writer had begun at the second check, so it had finished at the first
    right
    have hpre : it.last_pre_write_counter = size_add c 1 := by
      rw [hpre2]
      exact hw.pre_after p2 (by omega)
    have hq1 : finish ≤ q1 := by
      by_contra hlt
      have hpost := hw.post_before q1 (by omega)
      rw [← hpost1, ← hquiet, hpre] at hpost
      exact hne hpost
    intro j hj
    rw [hbytes j hj]
    exact hw.pmem_after (tb j) j (by have := (htb j hj).1; omega) hj

/-- C23 for the history `one_write_history`: a read of the 4 bytes through an
iterator with the counters 7, whose first check is at the instants 1 and 2, whose
copy is at the instants 3 to 6 and whose second check is at the instants 8
and 9. -/
theorem no_torn_read_witness :
    writer_protocol one_write_history 7 1000 4 (fun _ => 0) (fun _ => 1) 10 20 ∧
    (concurrent_read one_write_history [] ⟨none, 7, 7, some 1000, 4⟩ 1 2 8 9 (fun j => 3 + j)
      (fun _ => 9) 4).ret ≠ -1 ∧
    ((∀ j, j < 4 →
      (concurrent_read one_write_history [] ⟨none, 7, 7, some 1000, 4⟩ 1 2 8 9 (fun j => 3 + j)
        (fun _ => 9) 4).buffer j = (fun _ => 0) j) ∨
    (∀ j, j < 4 →
      (concurrent_read one_write_history [] ⟨none, 7, 7, some 1000, 4⟩ 1 2 8 9 (fun j => 3 + j)
        (fun _ => 9) 4).buffer j = (fun _ => 1) j)) :=
  ⟨one_write_history_protocol, by decide,
    no_torn_read one_write_history 7 1000 4 (fun _ => 0) (fun _ => 1) 10 20
      one_write_history_protocol [] ⟨none, 7, 7, some 1000, 4⟩ rfl rfl 1 2 8 9
      (fun j => 3 + j)
      ⟨by decide, fun j hj => ⟨by show 2 ≤ 3 + j; omega, by show 3 + j ≤ 8; omega⟩, by decide⟩
      (fun _ => 9) (by decide)⟩

end Pmemfile
